import Mathlib

/-!
Bit-packing codec and metadata writer.

A shallow embedding of `duckdb/common/bitpacking.hpp` (`BitpackingPrimitives`) and of
`storage/metadata/metadata_writer.cpp` (`MetadataWriter`), followed by theorems about them.

Conventions of the embedding:
* a C++ array `T *p` is a function `Nat → Int` (element index to value) together with the
  element count passed next to it; a byte buffer `data_ptr_t` is a function `Nat → Nat`;
* values of an integer type `T` are mathematical integers inside the range of `T`; a cast to
  `T` is `IntType.cast`, the bit pattern of a value is `IntType.toUnsigned`;
* `idx_t` arithmetic is arithmetic modulo `2 ^ 64`, written out where a wrap could happen;
* a loop that C++ runs until a condition fails is a function with a fuel argument; running
  out of fuel is reported as a result of its own (`none`, `Outcome.diverged`).
-/

namespace duckdb

/-! ## Integer element types -/

/-- The integer element types the codec supports (`UnPackGroup` and `PackGroup` throw for any
other type). -/
inductive IntType where
  | int8_t | int16_t | int32_t | int64_t
  | uint8_t | uint16_t | uint32_t | uint64_t
  deriving DecidableEq, Repr

namespace IntType

/-- The value of `std::is_signed<T>::value`. -/
def is_signed : IntType → Bool
  | int8_t | int16_t | int32_t | int64_t => true
  | uint8_t | uint16_t | uint32_t | uint64_t => false

/-- The value of `sizeof(T)`. -/
def sizeof : IntType → Nat
  | int8_t | uint8_t => 1
  | int16_t | uint16_t => 2
  | int32_t | uint32_t => 4
  | int64_t | uint64_t => 8

/-- The value of `sizeof(T) * 8`, the full bit width of the type. -/
def bits (T : IntType) : Nat := T.sizeof * 8

/-- The value of `NumericLimits<T>::Minimum()`. -/
def Minimum (T : IntType) : Int :=
  if T.is_signed then -(2 ^ (T.bits - 1)) else 0

/-- The value of `NumericLimits<T>::Maximum()`. -/
def Maximum (T : IntType) : Int :=
  if T.is_signed then 2 ^ (T.bits - 1) - 1 else 2 ^ T.bits - 1

/-- A mathematical integer is a value of type `T`. -/
def InRange (T : IntType) (x : Int) : Prop := T.Minimum ≤ x ∧ x ≤ T.Maximum

instance (T : IntType) (x : Int) : Decidable (T.InRange x) := by
  unfold InRange; infer_instance

/-- The bit pattern of `x` as an unsigned number of `T.bits` bits: the cast `(T_U)x`. -/
def toUnsigned (T : IntType) (x : Int) : Nat := (x % 2 ^ T.bits).toNat

/-- The value of type `T` whose bit pattern is `u` (taken modulo `2 ^ T.bits`): what reading
the unsigned number `u` through a `T *` gives. -/
def ofUnsigned (T : IntType) (u : Nat) : Int :=
  let r := u % 2 ^ T.bits
  if T.is_signed ∧ 2 ^ (T.bits - 1) ≤ r then (r : Int) - 2 ^ T.bits else (r : Int)

/-- The cast `(T)x` of an integer to `T` (two's complement wraparound). -/
def cast (T : IntType) (x : Int) : Int := T.ofUnsigned (T.toUnsigned x)

end IntType

/-- A value of `bitpacking_width_t`, which is `uint8_t`. -/
def to_width_t (n : Nat) : Nat := n % 256

/-- The constant `BITPACKING_ALGORITHM_GROUP_SIZE`. -/
def BITPACKING_ALGORITHM_GROUP_SIZE : Nat := 32

/-- The constant `BYTE_ALIGNED`. -/
def BYTE_ALIGNED : Bool := false

/-- The function `MaxValue` of `duckdb/common/helper.hpp`. -/
def MaxValue (a b : Int) : Int := if a > b then a else b

/-! ## Bytes -/

/-- The little-endian bytes of a number, `n` of them. -/
def toLittleEndian : Nat → Nat → List Nat
  | 0, _ => []
  | n + 1, v => v % 256 :: toLittleEndian n (v / 256)

/-- The number a list of little-endian bytes stands for. -/
def fromLittleEndian : List Nat → Nat
  | [] => 0
  | b :: bs => b + 256 * fromLittleEndian bs

/-! ## Sizes -/

/-- The function `RoundUpToAlgorithmGroupSize<idx_t>`: the next multiple of 32, in `idx_t` arithmetic. -/
def RoundUpToAlgorithmGroupSize (num_to_round : Nat) : Nat :=
  let remainder := num_to_round % BITPACKING_ALGORITHM_GROUP_SIZE
  if remainder = 0 then num_to_round
  else (num_to_round + BITPACKING_ALGORITHM_GROUP_SIZE - remainder) % 2 ^ 64

/-- The function `GetRequiredSize`: the number of bytes of a packed buffer, in `idx_t` arithmetic. -/
def GetRequiredSize (count width : Nat) : Nat :=
  let count := RoundUpToAlgorithmGroupSize count
  ((count * width) % 2 ^ 64) / 8

/-! ## Minimum bit width -/

/-- The function `GetEffectiveWidth<T>`: a width too close to the full width of the type is replaced by the
full width. -/
def GetEffectiveWidth (T : IntType) (width : Nat) : Nat :=
  let bits_of_type := T.sizeof * 8
  let type_size := T.sizeof
  if width + type_size > bits_of_type then to_width_t bits_of_type else width

/-- The loop `while (value) { bitwidth++; value >>= 1; }` of `FindMinimumBitWidth`. The shift
of a signed value is arithmetic (division by two rounding down); `none` when the fuel is
used up before `value` reaches zero. -/
def FindMinimumBitWidth.shiftLoop : Nat → Int → Nat → Option Nat
  | 0, value, bitwidth => if value = 0 then some bitwidth else none
  | fuel + 1, value, bitwidth =>
    if value = 0 then some bitwidth
    else FindMinimumBitWidth.shiftLoop fuel (value / 2) (to_width_t (bitwidth + 1))

/-- The assertions of `FindMinimumBitWidth` that are compiled in under `DEBUG`. -/
def FindMinimumBitWidth.debugAssertions (T : IntType) (min_value max_value : Int)
    (bitwidth : Nat) : Bool :=
  if bitwidth < T.sizeof * 8 ∧ bitwidth ≠ 0 then
    if T.is_signed then
      decide (max_value ≤ 2 ^ (bitwidth - 1) - 1) &&
        decide (min_value ≥ -1 * (2 ^ (bitwidth - 1) - 1) - 1)
    else
      decide (max_value ≤ 2 ^ bitwidth - 1)
  else true

/-- The function `FindMinimumBitWidth<T, round_to_next_byte>(T min_value, T max_value)`. The result is
`none` when the function does not return a width: the shift loop does not end or, with
`DEBUG` set, an assertion fails. -/
def FindMinimumBitWidth.ofMinMax (T : IntType) (round_to_next_byte DEBUG : Bool)
    (min_value max_value : Int) : Option Nat :=
  if T.is_signed ∧ min_value = T.Minimum then
    some (to_width_t (T.sizeof * 8))
  else
    let value : Int := if T.is_signed then MaxValue (T.cast (-min_value)) max_value else max_value
    if value = 0 then some 0
    else
      let bitwidth : Nat := if T.is_signed then 1 else 0
      match FindMinimumBitWidth.shiftLoop (T.bits + 1) value bitwidth with
      | none => none
      | some bitwidth =>
        let bitwidth := GetEffectiveWidth T bitwidth
        if DEBUG ∧ FindMinimumBitWidth.debugAssertions T min_value max_value bitwidth = false then
          none
        else if round_to_next_byte then
          some (to_width_t ((bitwidth / 8 + (if bitwidth % 8 ≠ 0 then 1 else 0)) * 8))
        else some bitwidth

/-- The loop `for (idx_t i = 1; i < count; i++)` of `FindMinimumBitWidth(T *values, idx_t
count)`, which tracks the pair `(min_value, max_value)`. -/
def FindMinimumBitWidth.scanLoop (T : IntType) (values : Nat → Int) (count : Nat) :
    Nat → Nat → Int × Int → Int × Int
  | 0, _, acc => acc
  | fuel + 1, i, (min_value, max_value) =>
    if i < count then
      let max_value := if values i > max_value then values i else max_value
      let min_value :=
        if T.is_signed then (if values i < min_value then values i else min_value)
        else min_value
      FindMinimumBitWidth.scanLoop T values count fuel (i + 1) (min_value, max_value)
    else (min_value, max_value)

/-- The function `FindMinimumBitWidth<T, round_to_next_byte>(T *values, idx_t count)`. -/
def FindMinimumBitWidth (T : IntType) (round_to_next_byte DEBUG : Bool)
    (values : Nat → Int) (count : Nat) : Option Nat :=
  let mm := FindMinimumBitWidth.scanLoop T values count count 1 (values 0, values 0)
  FindMinimumBitWidth.ofMinMax T round_to_next_byte DEBUG mm.1 mm.2

/-- The function `MinimumBitWidth<T>(T *values, idx_t count)`. -/
def MinimumBitWidth (T : IntType) (DEBUG : Bool) (values : Nat → Int) (count : Nat) :
    Option Nat :=
  FindMinimumBitWidth T BYTE_ALIGNED DEBUG values count

/-- An array given by a list: element `i` is the `i`-th entry (and `0` past the end). -/
def arrayOf (l : List Int) : Nat → Int := fun i => l.getD i 0

/-! ## Packing and unpacking -/

/-- The effect of writing the bytes `data` into a byte buffer at offset `off`. -/
def writeAt (buffer : Nat → Nat) (off : Nat) (data : List Nat) : Nat → Nat :=
  fun i => if off ≤ i ∧ i < off + data.length then data.getD (i - off) 0 else buffer i

/-- The number whose binary digits are the low `width` bits of the first `n` values, value
`i` at bit positions `[i * width, (i + 1) * width)`. -/
def fastpack.word (values : Nat → Nat) (width : Nat) : Nat → Nat
  | 0 => 0
  | n + 1 => fastpack.word values width n + (values n % 2 ^ width) * 2 ^ (n * width)

/-- Modelled from the spec: `duckdb_fastpforlib::fastpack` (declared in `bitpackinghelpers.h`,
whose code is not among the files at hand) encodes a group of 32 unsigned values at `width`
bits each into `32 * width / 8` bytes; the bits of value `i` are the bits
`[i * width, (i + 1) * width)` of the packed bytes, read as one little-endian number. -/
def fastpack (values : Nat → Nat) (width : Nat) : List Nat :=
  toLittleEndian (32 * width / 8) (fastpack.word values width 32)

/-- Modelled from the spec: `duckdb_fastpforlib::fastunpack` (declared in
`bitpackinghelpers.h`, whose code is not among the files at hand) is the inverse of
`fastpack`: value `i` of the group is the unsigned number in bits
`[i * width, (i + 1) * width)` of the `32 * width / 8` packed bytes. It works on the unsigned
type handed to it and knows nothing of signs. -/
def fastunpack (src : Nat → Nat) (width : Nat) (i : Nat) : Nat :=
  fromLittleEndian ((List.range (32 * width / 8)).map src) / 2 ^ (i * width) % 2 ^ width

/-- The function `PackGroup<T>`: the 32 values at `values` are handed to `fastpack` through a pointer to
the unsigned type of the same size, and the packed bytes go to `dst + dst_off`. -/
def PackGroup (T : IntType) (dst : Nat → Nat) (dst_off : Nat) (values : Nat → Int)
    (width : Nat) : Nat → Nat :=
  writeAt dst dst_off (fastpack (fun i => T.toUnsigned (values i)) width)

/-- The function `ApplyFrameOfReference<T>` on the 32 elements of `dst` that start at element `base`. -/
def ApplyFrameOfReference (T : IntType) (dst : Nat → Int) (base : Nat)
    (frame_of_reference : Int) : Nat → Int :=
  if frame_of_reference = 0 then dst
  else fun k =>
    if base ≤ k ∧ k < base + BITPACKING_ALGORITHM_GROUP_SIZE then
      T.ofUnsigned ((T.toUnsigned (dst k) + T.toUnsigned frame_of_reference) % 2 ^ T.bits)
    else dst k

/-- The function `UnPackGroup<T>`: `fastunpack` fills the 32 elements of `dst` that start at element
`base` from the bytes at `src + src_off`, writing them through a pointer to the unsigned type
of the same size; then `ApplyFrameOfReference` runs. The parameter `skip_sign_extension` is
not used by the function. -/
def UnPackGroup (T : IntType) (dst : Nat → Int) (base : Nat) (src : Nat → Nat)
    (src_off width : Nat) (frame_of_reference : Int) (skip_sign_extension : Bool) :
    Nat → Int :=
  let _unused := skip_sign_extension
  let unpacked : Nat → Int := fun k =>
    if base ≤ k ∧ k < base + 32 then
      T.ofUnsigned (fastunpack (fun j => src (src_off + j)) width (k - base))
    else dst k
  ApplyFrameOfReference T unpacked base frame_of_reference

/-- The loop `for (idx_t i = 0; i < count; i += BITPACKING_ALGORITHM_GROUP_SIZE)` of
`PackBuffer`, started at `i`. -/
def PackBuffer.loop (T : IntType) (src : Nat → Int) (count width : Nat) :
    Nat → Nat → (Nat → Nat) → Nat → Nat
  | 0, _, dst => dst
  | fuel + 1, i, dst =>
    if i < count then
      PackBuffer.loop T src count width fuel (i + BITPACKING_ALGORITHM_GROUP_SIZE)
        (PackGroup T dst ((i * width) / 8) (fun k => src (i + k)) width)
    else dst

/-- The function `PackBuffer<T, ASSUME_INPUT_ALIGNED>`. The array `tmp_buffer` is what the local array of
that name holds when the function is entered. -/
def PackBuffer (T : IntType) (ASSUME_INPUT_ALIGNED : Bool) (tmp_buffer : Nat → Int)
    (dst : Nat → Nat) (src : Nat → Int) (count width : Nat) : Nat → Nat :=
  if ASSUME_INPUT_ALIGNED then
    PackBuffer.loop T src count width count 0 dst
  else
    let misaligned_count := count % BITPACKING_ALGORITHM_GROUP_SIZE
    let count := if misaligned_count ≠ 0 then count - misaligned_count else count
    let dst := PackBuffer.loop T src count width count 0 dst
    if misaligned_count ≠ 0 then
      let tmp_buffer : Nat → Int := fun k =>
        if k < misaligned_count then src (count + k) else tmp_buffer k
      PackGroup T dst ((count * width) / 8) tmp_buffer width
    else dst

/-- The loop of `UnPackBuffer`, started at `i`. -/
def UnPackBuffer.loop (T : IntType) (src : Nat → Nat) (count width : Nat)
    (frame_of_reference : Int) (skip_sign_extension : Bool) :
    Nat → Nat → (Nat → Int) → Nat → Int
  | 0, _, dst => dst
  | fuel + 1, i, dst =>
    if i < count then
      UnPackBuffer.loop T src count width frame_of_reference skip_sign_extension fuel
        (i + BITPACKING_ALGORITHM_GROUP_SIZE)
        (UnPackGroup T dst i src ((i * width) / 8) width frame_of_reference
          skip_sign_extension)
    else dst

/-- The function `UnPackBuffer<T>`; `dst` is seen as an array of `T`. -/
def UnPackBuffer (T : IntType) (dst : Nat → Int) (src : Nat → Nat) (count width : Nat)
    (frame_of_reference : Int) (skip_sign_extension : Bool) : Nat → Int :=
  UnPackBuffer.loop T src count width frame_of_reference skip_sign_extension count 0 dst

/-- The function `PackBlock<T>`: one group, packed by `PackGroup`. -/
def PackBlock (T : IntType) (dst : Nat → Nat) (src : Nat → Int) (width : Nat) : Nat → Nat :=
  PackGroup T dst 0 src width

/-- The function `UnPackBlock<T>`: one group, unpacked by `UnPackGroup`. -/
def UnPackBlock (T : IntType) (dst : Nat → Int) (src : Nat → Nat) (width : Nat)
    (frame_of_reference : Int) (skip_sign_extension : Bool) : Nat → Int :=
  UnPackGroup T dst 0 src 0 width frame_of_reference skip_sign_extension

/-- The layout of a packed buffer of `groups` groups: group `g` of `values` (its 32 elements
from `32 * g` on) is packed into the `4 * width` bytes from byte `g * (4 * width)` on, and the
bytes from `groups * (4 * width)` on are those of `dst`. -/
def packedLayout (T : IntType) (values : Nat → Int) (groups width : Nat) (dst : Nat → Nat) :
    Nat → Nat :=
  fun x =>
    if x < groups * (4 * width) then
      (fastpack (fun k => T.toUnsigned (values (32 * (x / (4 * width)) + k))) width).getD
        (x % (4 * width)) 0
    else dst x

/-! ## Notions used to state the properties of the bit width -/

/-- The value `mx` is the largest of the first `k` elements of `values`. -/
def IsMaxOf (values : Nat → Int) (k : Nat) (mx : Int) : Prop :=
  (∃ j, j < k ∧ values j = mx) ∧ ∀ j, j < k → values j ≤ mx

/-- The value `mn` is the smallest of the first `k` elements of `values`. -/
def IsMinOf (values : Nat → Int) (k : Nat) (mn : Int) : Prop :=
  (∃ j, j < k ∧ values j = mn) ∧ ∀ j, j < k → mn ≤ values j

/-- Every element of the array fits in `b` bits: for an unsigned type it is at most
`2 ^ b - 1`, for a signed type it lies in `[-2 ^ (b - 1), 2 ^ (b - 1) - 1]`; with `b = 0` it
is `0`. -/
def FitsIn (T : IntType) (b : Nat) (x : Int) : Prop :=
  (b = 0 → x = 0) ∧
  (if T.is_signed then 0 < b → -(2 ^ (b - 1)) ≤ x ∧ x ≤ 2 ^ (b - 1) - 1
   else x ≤ 2 ^ b - 1)

instance (T : IntType) (b : Nat) (x : Int) : Decidable (FitsIn T b x) := by
  unfold FitsIn; infer_instance

/-! ## Metadata writer -/

/-- The contents of the metadata blocks: block pointer and byte index to byte. -/
abbrev BlockMemory := Nat → Nat → Nat

/-- The effect of `memcpy(base + off, data, data.length)` on block `blk`. -/
def writeBytes (memory : BlockMemory) (blk off : Nat) (data : List Nat) : BlockMemory :=
  fun b i =>
    if b = blk ∧ off ≤ i ∧ i < off + data.length then data.getD (i - off) 0 else memory b i

/-- The `len` bytes of block `blk` that start at byte `off`. -/
def readBytes (memory : BlockMemory) (blk : Nat) : Nat → Nat → List Nat
  | _, 0 => []
  | off, len + 1 => memory blk off :: readBytes memory blk (off + 1) len

/-- The bytes `Store<idx_t>(v, ptr)` writes: the 8 bytes of `v` as an `idx_t`. -/
def Store_idx_t (v : Nat) : List Nat := toLittleEndian 8 (v % 2 ^ 64)

/-- The value `Load<idx_t>` reads at the start of block `blk`: its forward-link field. -/
def Load_idx_t (memory : BlockMemory) (blk : Nat) : Nat :=
  fromLittleEndian (readBytes memory blk 0 8)

/-- The value `(idx_t)-1` that `NextBlock` stores into the link field of a new block. -/
def NO_SUCCESSOR : Nat := 2 ^ 64 - 1

/-- What `MetadataWriter` uses of the `MetadataManager`, which is declared outside the
files at hand. A metadata block is identified by the `block_pointer` of its disk pointer
(`GetDiskPointer(pointer).block_pointer`, an `idx_t`). `AllocateHandle n` is what the
call of `AllocateHandle()` returns after `n` earlier successful calls: the new block, or
`none` when the call throws. `ToBlockPointer` turns a pair of block and offset (a
`MetaBlockPointer`) into a `BlockPointer`. -/
structure MetadataManager where
  METADATA_BLOCK_SIZE : Nat
  AllocateHandle : Nat → Option Nat
  ToBlockPointer : Nat × Nat → Nat × Nat

/-- The state of a `MetadataWriter` together with the state it can change: the memory of the
metadata blocks and the number of blocks it has taken from the manager. `block` is the block
of the current handle; it has no meaning while `capacity = 0`. -/
structure MetadataWriter where
  memory : BlockMemory
  block : Nat
  capacity : Nat
  offset : Nat
  allocated : Nat

/-- How a call on the writer ends: it returns (`ok`), `AllocateHandle` throws
(`alloc_failed`), a `D_ASSERT` fails (`assert_failed`), each with the writer state at that
point, or the call runs on after the fuel of the model is used up (`diverged`). -/
inductive Outcome (α : Type) where
  | ok (w : MetadataWriter) (value : α)
  | alloc_failed (w : MetadataWriter)
  | assert_failed (w : MetadataWriter)
  | diverged

/-- The constructor `MetadataWriter::MetadataWriter`: `capacity(0), offset(0)`. The memory
and the value of the not yet assigned handle are whatever they are. -/
def MetadataWriter.new (memory : BlockMemory) (block : Nat) : MetadataWriter :=
  { memory := memory, block := block, capacity := 0, offset := 0, allocated := 0 }

/-- The function `MetadataWriter::NextBlock`, with `NextHandle` inlined. -/
def MetadataWriter.NextBlock (manager : MetadataManager) (w : MetadataWriter) :
    Outcome Unit :=
  match manager.AllocateHandle w.allocated with
  | none => Outcome.alloc_failed w
  | some new_handle =>
    let memory :=
      if w.capacity > 0 then writeBytes w.memory w.block 0 (Store_idx_t new_handle)
      else w.memory
    Outcome.ok
      { memory := writeBytes memory new_handle 0 (Store_idx_t NO_SUCCESSOR)
        block := new_handle
        capacity := manager.METADATA_BLOCK_SIZE
        offset := 8
        allocated := w.allocated + 1 } ()

/-- The function `MetadataWriter::GetMetaBlockPointer`; the pointer is the pair of block and offset. -/
def MetadataWriter.GetMetaBlockPointer (manager : MetadataManager) (w : MetadataWriter) :
    Outcome (Nat × Nat) :=
  if w.offset ≥ w.capacity then
    match MetadataWriter.NextBlock manager w with
    | Outcome.ok w1 _ =>
      if w1.capacity > 0 then Outcome.ok w1 (w1.block, w1.offset)
      else Outcome.assert_failed w1
    | Outcome.alloc_failed w1 => Outcome.alloc_failed w1
    | Outcome.assert_failed w1 => Outcome.assert_failed w1
    | Outcome.diverged => Outcome.diverged
  else Outcome.ok w (w.block, w.offset)

/-- The function `MetadataWriter::GetBlockPointer`. -/
def MetadataWriter.GetBlockPointer (manager : MetadataManager) (w : MetadataWriter) :
    Outcome (Nat × Nat) :=
  match MetadataWriter.GetMetaBlockPointer manager w with
  | Outcome.ok w1 p => Outcome.ok w1 (manager.ToBlockPointer p)
  | Outcome.alloc_failed w1 => Outcome.alloc_failed w1
  | Outcome.assert_failed w1 => Outcome.assert_failed w1
  | Outcome.diverged => Outcome.diverged

/-- The loop and the final copy of `MetadataWriter::WriteData`; `buffer` holds the
`write_size` bytes still to write. -/
def MetadataWriter.WriteData.loop (manager : MetadataManager) :
    Nat → MetadataWriter → List Nat → Outcome Unit
  | fuel, w, buffer =>
    if w.offset + buffer.length > w.capacity then
      match fuel with
      | 0 => Outcome.diverged
      | fuel + 1 =>
        if ¬ w.offset ≤ w.capacity then Outcome.assert_failed w
        else
          let copy_amount := w.capacity - w.offset
          let w1 : MetadataWriter :=
            if copy_amount > 0 then
              { w with
                memory := writeBytes w.memory w.block w.offset (buffer.take copy_amount)
                offset := w.offset + copy_amount }
            else w
          let buffer1 := if copy_amount > 0 then buffer.drop copy_amount else buffer
          match MetadataWriter.NextBlock manager w1 with
          | Outcome.ok w2 _ => MetadataWriter.WriteData.loop manager fuel w2 buffer1
          | Outcome.alloc_failed w2 => Outcome.alloc_failed w2
          | Outcome.assert_failed w2 => Outcome.assert_failed w2
          | Outcome.diverged => Outcome.diverged
    else
      Outcome.ok
        { w with
          memory := writeBytes w.memory w.block w.offset buffer
          offset := w.offset + buffer.length } ()

/-- The function `MetadataWriter::WriteData(buffer, write_size)` with `write_size = buffer.length`. With
a block size above 8 the loop body runs at most `write_size + 1` times, which is the fuel. -/
def MetadataWriter.WriteData (manager : MetadataManager) (w : MetadataWriter)
    (buffer : List Nat) : Outcome Unit :=
  MetadataWriter.WriteData.loop manager (buffer.length + 1) w buffer

/-- The function `MetadataWriter::Flush`. -/
def MetadataWriter.Flush (w : MetadataWriter) : MetadataWriter :=
  if w.offset < w.capacity then
    { w with
      memory := writeBytes w.memory w.block w.offset (List.replicate (w.capacity - w.offset) 0) }
  else w

/-- A sequence of `WriteData` calls, one per buffer, stopping at the first that does not
return. -/
def MetadataWriter.WriteAll (manager : MetadataManager) :
    MetadataWriter → List (List Nat) → Outcome Unit
  | w, [] => Outcome.ok w ()
  | w, buffer :: rest =>
    match MetadataWriter.WriteData manager w buffer with
    | Outcome.ok w1 _ => MetadataWriter.WriteAll manager w1 rest
    | other => other

/-- Walking a chain of blocks: from block `blk` along the forward-link fields up to the block
`last`, taking the payload bytes `[8, capacity)` of every block before `last` and the bytes
`[8, last_offset)` of `last`; `none` when `last` is not reached within `fuel` blocks. -/
def readChain (memory : BlockMemory) (capacity last last_offset : Nat) :
    Nat → Nat → Option (List Nat)
  | 0, _ => none
  | fuel + 1, blk =>
    if blk = last then some (readBytes memory blk 8 (last_offset - 8))
    else
      match readChain memory capacity last last_offset fuel (Load_idx_t memory blk) with
      | none => none
      | some tail => some (readBytes memory blk 8 (capacity - 8) ++ tail)

/-! ## Notions used to state the properties of the writer -/

/-- The first `K` calls of `AllocateHandle` succeed and hand out the blocks
`ids 0, ..., ids (K - 1)`, which are pairwise distinct block pointers (values of `idx_t`),
and the block size of the manager exceeds the 8-byte header. -/
def HandsOut (manager : MetadataManager) (ids : Nat → Nat) (K : Nat) : Prop :=
  8 < manager.METADATA_BLOCK_SIZE ∧
  (∀ n, n < K → manager.AllocateHandle n = some (ids n)) ∧
  (∀ i j, i < K → j < K → ids i = ids j → i = j) ∧
  ∀ n, n < K → ids n < 2 ^ 64

/-- The payload bytes `[8, capacity)` of the `k` blocks `ids j, ..., ids (j + k - 1)`. -/
def chainData (memory : BlockMemory) (ids : Nat → Nat) (capacity : Nat) :
    Nat → Nat → List Nat
  | 0, _ => []
  | k + 1, j => readBytes memory (ids j) 8 (capacity - 8) ++ chainData memory ids capacity k (j + 1)

/-- The invariant that ties a writer state to the bytes `D` written so far: at most `K`
blocks are claimed, and either no block is claimed and `D` is empty, or the claimed blocks
`ids 0, ..., ids (allocated - 1)` are linked in this order, the last one is current and ends
the chain, and their payloads up to the write position spell `D`. -/
def ChainInv (manager : MetadataManager) (ids : Nat → Nat) (K : Nat) (w : MetadataWriter)
    (D : List Nat) : Prop :=
  w.allocated ≤ K ∧
  (w.allocated = 0 → w.capacity = 0 ∧ w.offset = 0 ∧ D = []) ∧
  (0 < w.allocated →
    w.capacity = manager.METADATA_BLOCK_SIZE ∧ 8 ≤ w.offset ∧ w.offset ≤ w.capacity ∧
    w.block = ids (w.allocated - 1) ∧
    (∀ j, j + 1 < w.allocated → Load_idx_t w.memory (ids j) = ids (j + 1)) ∧
    Load_idx_t w.memory w.block = NO_SUCCESSOR ∧
    D = chainData w.memory ids manager.METADATA_BLOCK_SIZE (w.allocated - 1) 0 ++
      readBytes w.memory w.block 8 (w.offset - 8))

/-- The shape of a writer state: no block claimed (`capacity = 0` and `offset = 0`), or a
block of the manager's size with the offset between the header and the capacity. -/
def WellShaped (manager : MetadataManager) (w : MetadataWriter) : Prop :=
  (w.capacity = 0 ∧ w.offset = 0) ∨
  (w.capacity = manager.METADATA_BLOCK_SIZE ∧ 8 ≤ w.offset ∧ w.offset ≤ w.capacity)

/-- The writer states that calls can produce: the state the constructor leaves, and the
state after a call of `GetMetaBlockPointer`, `GetBlockPointer`, `WriteData` or `Flush` on
such a state, whether the call returned or `AllocateHandle` threw inside it. -/
inductive Reachable (manager : MetadataManager) : MetadataWriter → Prop where
  | constructed (memory : BlockMemory) (block : Nat) :
      Reachable manager (MetadataWriter.new memory block)
  | get_meta_block_pointer (w w1 : MetadataWriter) (p : Nat × Nat) :
      Reachable manager w →
      MetadataWriter.GetMetaBlockPointer manager w = Outcome.ok w1 p → Reachable manager w1
  | get_block_pointer (w w1 : MetadataWriter) (p : Nat × Nat) :
      Reachable manager w →
      MetadataWriter.GetBlockPointer manager w = Outcome.ok w1 p → Reachable manager w1
  | write_data (w w1 : MetadataWriter) (buffer : List Nat) :
      Reachable manager w →
      MetadataWriter.WriteData manager w buffer = Outcome.ok w1 () → Reachable manager w1
  | write_data_thrown (w w1 : MetadataWriter) (buffer : List Nat) :
      Reachable manager w →
      MetadataWriter.WriteData manager w buffer = Outcome.alloc_failed w1 →
      Reachable manager w1
  | flush (w : MetadataWriter) :
      Reachable manager w → Reachable manager (MetadataWriter.Flush w)

/-- One call after another: the second call runs on the state the first call returns; when
the first call does not return, its outcome is the outcome of the two. -/
def Outcome.andThen (first : Outcome Unit) (second : MetadataWriter → Outcome Unit) :
    Outcome Unit :=
  match first with
  | Outcome.ok w _ => second w
  | Outcome.alloc_failed w => Outcome.alloc_failed w
  | Outcome.assert_failed w => Outcome.assert_failed w
  | Outcome.diverged => Outcome.diverged

/-- The bookkeeping of a stream of `N` bytes: no block is claimed and `N = 0`, or the claimed
blocks but the last are full and the last holds the rest up to the offset. -/
def BlocksFilled (manager : MetadataManager) (w : MetadataWriter) (N : Nat) : Prop :=
  (w.allocated = 0 → w.capacity = 0 ∧ w.offset = 0 ∧ N = 0) ∧
  (0 < w.allocated →
    w.capacity = manager.METADATA_BLOCK_SIZE ∧ 8 ≤ w.offset ∧ w.offset ≤ w.capacity ∧
    N + 8 = (w.allocated - 1) * (manager.METADATA_BLOCK_SIZE - 8) + w.offset)

/-! # Theorems -/

/-! ## Theorems: sizes -/

theorem RoundUpToAlgorithmGroupSize_eq (count : Nat) (h : (count + 31) / 32 * 32 < 2 ^ 64) :
    RoundUpToAlgorithmGroupSize count = (count + 31) / 32 * 32 := by
  unfold RoundUpToAlgorithmGroupSize BITPACKING_ALGORITHM_GROUP_SIZE
  simp only
  split_ifs with hr
  · omega
  · rw [Nat.mod_eq_of_lt] <;> omega

/-- C3: absent 64-bit overflow, `GetRequiredSize(count, width)` is
`ceil(count / 32) * 32 * width / 8`, the division by 8 leaves no remainder, and the result is
`ceil(count / 32)` times `4 * width`, so a multiple of `32 * width / 8 = 4 * width`. -/
theorem GetRequiredSize_exact (count width : Nat)
    (hno : (count + 31) / 32 * 32 * width < 2 ^ 64) :
    GetRequiredSize count width = (count + 31) / 32 * 32 * width / 8 ∧
    (RoundUpToAlgorithmGroupSize count * width % 2 ^ 64) % 8 = 0 ∧
    ((count + 31) / 32 * 32 * width) % 8 = 0 ∧
    GetRequiredSize count width = (count + 31) / 32 * (4 * width) ∧
    32 * width / 8 = 4 * width ∧
    (32 * width / 8) ∣ GetRequiredSize count width := by
  have h8 : (count + 31) / 32 * 32 * width = 8 * ((count + 31) / 32 * (4 * width)) := by ring
  have h4 : 32 * width / 8 = 4 * width := by omega
  rcases Nat.eq_zero_or_pos width with hw | hw
  · subst hw
    simp [GetRequiredSize]
  · have hlt : (count + 31) / 32 * 32 < 2 ^ 64 :=
      lt_of_le_of_lt (Nat.le_mul_of_pos_right _ hw) hno
    have hval : GetRequiredSize count width = (count + 31) / 32 * (4 * width) := by
      unfold GetRequiredSize
      simp only
      rw [RoundUpToAlgorithmGroupSize_eq count hlt, Nat.mod_eq_of_lt hno, h8]
      simp
    refine ⟨?_, ?_, ?_, hval, h4, ?_⟩
    · rw [hval, h8]; simp
    · rw [RoundUpToAlgorithmGroupSize_eq count hlt, Nat.mod_eq_of_lt hno, h8]; simp
    · rw [h8]; simp
    · rw [hval, h4]; exact Dvd.intro_left _ rfl

/-- Witness of C3 at `count = 33`, `width = 3`: two groups, 24 bytes. -/
theorem GetRequiredSize_exact_witness :
    GetRequiredSize 33 3 = (33 + 31) / 32 * 32 * 3 / 8 ∧
    (RoundUpToAlgorithmGroupSize 33 * 3 % 2 ^ 64) % 8 = 0 ∧
    ((33 + 31) / 32 * 32 * 3) % 8 = 0 ∧
    GetRequiredSize 33 3 = (33 + 31) / 32 * (4 * 3) ∧
    32 * 3 / 8 = 4 * 3 ∧
    (32 * 3 / 8) ∣ GetRequiredSize 33 3 :=
  GetRequiredSize_exact 33 3 (by norm_num)

/-! ## Theorems: minimum bit width -/

theorem scanLoop_max (T : IntType) (values : Nat → Int) (count : Nat) :
    ∀ (fuel i : Nat) (acc : Int × Int), i ≤ count → count ≤ i + fuel →
      IsMaxOf values i acc.2 →
      IsMaxOf values count (FindMinimumBitWidth.scanLoop T values count fuel i acc).2 := by
  intro fuel
  induction fuel with
  | zero =>
    intro i acc hi hc h
    have : i = count := by omega
    subst this
    simpa [FindMinimumBitWidth.scanLoop] using h
  | succ fuel ih =>
    intro i acc hi hc h
    obtain ⟨mn, mx⟩ := acc
    unfold FindMinimumBitWidth.scanLoop
    by_cases hlt : i < count
    · simp only [hlt, if_true]
      apply ih (i + 1) _ (by omega) (by omega)
      obtain ⟨⟨j, hj, hjv⟩, hall⟩ := h
      simp only at hjv hall ⊢
      split_ifs with hgt
      · refine ⟨⟨i, by omega, rfl⟩, ?_⟩
        intro k hk
        rcases Nat.lt_succ_iff_lt_or_eq.mp hk with hk | hk
        · have := hall k hk; omega
        · subst hk; exact le_refl _
      · refine ⟨⟨j, by omega, hjv⟩, ?_⟩
        intro k hk
        rcases Nat.lt_succ_iff_lt_or_eq.mp hk with hk | hk
        · exact hall k hk
        · subst hk; omega
    · have : i = count := by omega
      subst this
      simpa [hlt] using h

theorem scanLoop_min (T : IntType) (hs : T.is_signed = true) (values : Nat → Int)
    (count : Nat) :
    ∀ (fuel i : Nat) (acc : Int × Int), i ≤ count → count ≤ i + fuel →
      IsMinOf values i acc.1 →
      IsMinOf values count (FindMinimumBitWidth.scanLoop T values count fuel i acc).1 := by
  intro fuel
  induction fuel with
  | zero =>
    intro i acc hi hc h
    have : i = count := by omega
    subst this
    simpa [FindMinimumBitWidth.scanLoop] using h
  | succ fuel ih =>
    intro i acc hi hc h
    obtain ⟨mn, mx⟩ := acc
    unfold FindMinimumBitWidth.scanLoop
    by_cases hlt : i < count
    · simp only [hlt, if_true, hs]
      apply ih (i + 1) _ (by omega) (by omega)
      obtain ⟨⟨j, hj, hjv⟩, hall⟩ := h
      simp only at hjv hall ⊢
      split_ifs with hgt
      · refine ⟨⟨i, by omega, rfl⟩, ?_⟩
        intro k hk
        rcases Nat.lt_succ_iff_lt_or_eq.mp hk with hk | hk
        · have := hall k hk; omega
        · subst hk; exact le_refl _
      · refine ⟨⟨j, by omega, hjv⟩, ?_⟩
        intro k hk
        rcases Nat.lt_succ_iff_lt_or_eq.mp hk with hk | hk
        · exact hall k hk
        · subst hk; omega
    · have : i = count := by omega
      subst this
      simpa [hlt] using h

theorem scanLoop_min_unsigned (T : IntType) (hs : T.is_signed = false) (values : Nat → Int)
    (count : Nat) :
    ∀ (fuel i : Nat) (acc : Int × Int),
      (FindMinimumBitWidth.scanLoop T values count fuel i acc).1 = acc.1 := by
  intro fuel
  induction fuel with
  | zero => intro i acc; rfl
  | succ fuel ih =>
    intro i acc
    obtain ⟨mn, mx⟩ := acc
    unfold FindMinimumBitWidth.scanLoop
    by_cases hlt : i < count
    · simp only [hlt, if_true, hs]
      rw [ih]; simp
    · simp [hlt]

theorem isMaxOf_unique {values : Nat → Int} {k : Nat} {a b : Int}
    (ha : IsMaxOf values k a) (hb : IsMaxOf values k b) : a = b := by
  obtain ⟨⟨i, hi, hia⟩, hA⟩ := ha
  obtain ⟨⟨j, hj, hjb⟩, hB⟩ := hb
  have h1 := hA j hj
  have h2 := hB i hi
  omega

theorem isMinOf_unique {values : Nat → Int} {k : Nat} {a b : Int}
    (ha : IsMinOf values k a) (hb : IsMinOf values k b) : a = b := by
  obtain ⟨⟨i, hi, hia⟩, hA⟩ := ha
  obtain ⟨⟨j, hj, hjb⟩, hB⟩ := hb
  have h1 := hA j hj
  have h2 := hB i hi
  omega

/-- What the scan of `FindMinimumBitWidth` hands to the two-argument overload: the maximum
of the array and, for a signed type, its minimum (for an unsigned type, element 0). -/
theorem scanLoop_spec (T : IntType) (values : Nat → Int) (count : Nat) (hc : 0 < count) :
    IsMaxOf values count
      (FindMinimumBitWidth.scanLoop T values count count 1 (values 0, values 0)).2 ∧
    (T.is_signed = true → IsMinOf values count
      (FindMinimumBitWidth.scanLoop T values count count 1 (values 0, values 0)).1) ∧
    (T.is_signed = false →
      (FindMinimumBitWidth.scanLoop T values count count 1 (values 0, values 0)).1 =
        values 0) := by
  refine ⟨?_, ?_, ?_⟩
  · apply scanLoop_max T values count count 1 _ (by omega) (by omega)
    refine ⟨⟨0, by omega, rfl⟩, ?_⟩
    intro j hj
    have hj0 : j = 0 := by omega
    subst hj0
    exact le_refl _
  · intro hs
    apply scanLoop_min T hs values count count 1 _ (by omega) (by omega)
    refine ⟨⟨0, by omega, rfl⟩, ?_⟩
    intro j hj
    have hj0 : j = 0 := by omega
    subst hj0
    exact le_refl _
  · intro hs
    rw [scanLoop_min_unsigned T hs]

theorem size_half (m : Nat) (hm : m ≠ 0) : Nat.size m = Nat.size (m / 2) + 1 := by
  apply le_antisymm
  · rw [Nat.size_le]
    have := Nat.lt_size_self (m / 2)
    rw [pow_succ]; omega
  · rw [Nat.succ_le_iff, Nat.lt_size]
    rcases Nat.eq_zero_or_pos (m / 2) with h | h
    · rw [h]; simp; omega
    · have h1 : Nat.size (m / 2) - 1 < Nat.size (m / 2) := by
        have := Nat.size_pos.mpr h; omega
      rw [Nat.lt_size] at h1
      have h2 : 2 ^ Nat.size (m / 2) = 2 * 2 ^ (Nat.size (m / 2) - 1) := by
        have := Nat.size_pos.mpr h
        rw [← pow_succ']; congr 1; omega
      omega

/-- On a non-negative value the shift loop ends and adds the number of binary digits of the
value to the seed. -/
theorem shiftLoop_spec :
    ∀ (fuel m bitwidth : Nat), m < 2 ^ fuel → bitwidth + fuel < 256 →
      FindMinimumBitWidth.shiftLoop fuel (m : Int) bitwidth = some (bitwidth + Nat.size m) := by
  intro fuel
  induction fuel with
  | zero =>
    intro m bw hm _
    have : m = 0 := by simpa using hm
    subst this
    simp [FindMinimumBitWidth.shiftLoop]
  | succ fuel ih =>
    intro m bw hm hbw
    unfold FindMinimumBitWidth.shiftLoop
    by_cases h0 : m = 0
    · subst h0; simp
    · have hne : (m : Int) ≠ 0 := by exact_mod_cast h0
      simp only [hne, if_false]
      have hdiv : (m : Int) / 2 = ((m / 2 : Nat) : Int) := by norm_cast
      have hw : to_width_t (bw + 1) = bw + 1 := by
        unfold to_width_t; omega
      rw [hdiv, hw, ih (m / 2) (bw + 1) (by rw [pow_succ] at hm; omega) (by omega),
        size_half m h0]
      congr 1; omega

theorem cast_of_inRange (T : IntType) (x : Int) (h : T.InRange x) : T.cast x = x := by
  cases T <;>
    simp [IntType.InRange, IntType.Minimum, IntType.Maximum, IntType.is_signed, IntType.bits,
      IntType.sizeof] at h <;>
    simp only [IntType.cast, IntType.toUnsigned, IntType.ofUnsigned, IntType.is_signed,
      IntType.bits, IntType.sizeof, true_and, false_and, if_false, Bool.false_eq_true] <;>
    norm_num <;>
    (try split_ifs) <;> omega

theorem bits_pos (T : IntType) : 8 ≤ T.bits ∧ T.bits ≤ 64 ∧ T.sizeof * 8 = T.bits ∧
    1 ≤ T.sizeof ∧ T.sizeof ≤ 8 := by
  cases T <;> simp [IntType.bits, IntType.sizeof]

theorem getEffectiveWidth_cases (T : IntType) (w : Nat) :
    (w + T.sizeof ≤ T.bits ∧ GetEffectiveWidth T w = w) ∨
    (T.bits < w + T.sizeof ∧ GetEffectiveWidth T w = T.bits) := by
  obtain ⟨h8, h64, hb, _, _⟩ := bits_pos T
  unfold GetEffectiveWidth to_width_t
  simp only [hb]
  by_cases h : w + T.sizeof > T.bits
  · right; rw [if_pos h]; exact ⟨h, by omega⟩
  · left; rw [if_neg h]; exact ⟨by omega, rfl⟩

/-- The two-argument overload on a signed type whose minimum is not the most-negative value:
the magnitude `m = max(-min, max)` decides the width, and no assertion fails. -/
theorem ofMinMax_signed (T : IntType) (hs : T.is_signed = true) (DEBUG : Bool)
    (mn mx : Int) (hmn : T.InRange mn) (hmx : T.InRange mx) (hle : mn ≤ mx)
    (hne : mn ≠ T.Minimum) :
    0 ≤ max (-mn) mx ∧
    FindMinimumBitWidth.ofMinMax T false DEBUG mn mx =
      some (if max (-mn) mx = 0 then 0
            else GetEffectiveWidth T (Nat.size (max (-mn) mx).toNat + 1)) := by
  obtain ⟨h8, h64, hb, _, _⟩ := bits_pos T
  have hmin : T.Minimum = -(2 ^ (T.bits - 1)) := by simp [IntType.Minimum, hs]
  have hmax : T.Maximum = 2 ^ (T.bits - 1) - 1 := by simp [IntType.Maximum, hs]
  obtain ⟨hmn1, hmn2⟩ := hmn
  obtain ⟨hmx1, hmx2⟩ := hmx
  rw [hmin] at hmn1 hmx1 hne
  rw [hmax] at hmn2 hmx2
  have hneg : T.InRange (-mn) := by
    constructor
    · rw [hmin]; omega
    · rw [hmax]; omega
  have hv0 : 0 ≤ max (-mn) mx := by
    rcases le_total mn 0 with h | h
    · exact le_trans (by omega) (le_max_left _ _)
    · exact le_trans (by omega) (le_max_right _ _)
  refine ⟨hv0, ?_⟩
  have hvalue : MaxValue (T.cast (-mn)) mx = max (-mn) mx := by
    rw [cast_of_inRange T _ hneg]
    unfold MaxValue
    split_ifs with h
    · exact (max_eq_left (le_of_lt h)).symm
    · exact (max_eq_right (not_lt.mp h)).symm
  have hvle : max (-mn) mx ≤ 2 ^ (T.bits - 1) - 1 := max_le (by omega) hmx2
  unfold FindMinimumBitWidth.ofMinMax
  have hc1 : ¬ (mn = T.Minimum) := by
    rw [hmin]; exact hne
  simp only [hs, true_and, hc1, if_false, if_true, hvalue]
  by_cases hz : max (-mn) mx = 0
  · simp [hz]
  · simp only [hz, if_false]
    obtain ⟨m, hm⟩ := Int.eq_ofNat_of_zero_le hv0
    rw [hm] at hvle hz ⊢
    have hmlt : m < 2 ^ (T.bits - 1) := by
      have : (m : Int) < ((2 ^ (T.bits - 1) : Nat) : Int) := by push_cast; omega
      exact_mod_cast this
    have hmlt2 : m < 2 ^ (T.bits + 1) :=
      lt_of_lt_of_le hmlt (Nat.pow_le_pow_right (by norm_num) (by omega))
    rw [shiftLoop_spec (T.bits + 1) m 1 hmlt2 (by omega)]
    simp only [Int.toNat_ofNat, Bool.false_eq_true, if_false]
    have hdbg : FindMinimumBitWidth.debugAssertions T mn mx
        (GetEffectiveWidth T (1 + Nat.size m)) = true := by
      unfold FindMinimumBitWidth.debugAssertions
      rw [hb]
      simp only [hs, if_true]
      split_ifs with hcond
      · rcases getEffectiveWidth_cases T (1 + Nat.size m) with ⟨_, he⟩ | ⟨_, he⟩
        · rw [he]
          have hsz := Nat.lt_size_self m
          have hsz2 : (m : Int) < 2 ^ (Nat.size m) := by exact_mod_cast hsz
          have h1 : mx ≤ (m : Int) := by rw [← hm]; exact le_max_right _ _
          have h2 : -mn ≤ (m : Int) := by rw [← hm]; exact le_max_left _ _
          simp only [Nat.add_sub_cancel_left, Bool.and_eq_true, decide_eq_true_eq]
          constructor <;> omega
        · rw [he] at hcond; omega
      · rfl
    rw [hdbg]
    simp [Nat.add_comm]

/-- The two-argument overload on an unsigned type: `max_value` decides the width, and no
assertion fails. -/
theorem ofMinMax_unsigned (T : IntType) (hs : T.is_signed = false) (DEBUG : Bool)
    (mn mx : Int) (hmx : T.InRange mx) :
    0 ≤ mx ∧
    FindMinimumBitWidth.ofMinMax T false DEBUG mn mx =
      some (if mx = 0 then 0 else GetEffectiveWidth T (Nat.size mx.toNat)) := by
  obtain ⟨h8, h64, hb, _, _⟩ := bits_pos T
  have hmin : T.Minimum = 0 := by simp [IntType.Minimum, hs]
  have hmax : T.Maximum = 2 ^ T.bits - 1 := by simp [IntType.Maximum, hs]
  obtain ⟨hmx1, hmx2⟩ := hmx
  rw [hmin] at hmx1
  rw [hmax] at hmx2
  refine ⟨hmx1, ?_⟩
  unfold FindMinimumBitWidth.ofMinMax
  simp only [hs, Bool.false_eq_true, false_and, if_false]
  by_cases hz : mx = 0
  · simp [hz]
  · simp only [hz, if_false]
    obtain ⟨m, hm⟩ := Int.eq_ofNat_of_zero_le hmx1
    rw [hm] at hmx2 hz ⊢
    have hmlt : m < 2 ^ T.bits := by
      have : (m : Int) < ((2 ^ T.bits : Nat) : Int) := by push_cast; omega
      exact_mod_cast this
    have hmlt2 : m < 2 ^ (T.bits + 1) :=
      lt_of_lt_of_le hmlt (Nat.pow_le_pow_right (by norm_num) (by omega))
    rw [shiftLoop_spec (T.bits + 1) m 0 hmlt2 (by omega)]
    simp only [Int.toNat_ofNat, Nat.zero_add]
    have hdbg : FindMinimumBitWidth.debugAssertions T mn (m : Int)
        (GetEffectiveWidth T (Nat.size m)) = true := by
      unfold FindMinimumBitWidth.debugAssertions
      rw [hb]
      simp only [hs, Bool.false_eq_true, if_false]
      split_ifs with hcond
      · rcases getEffectiveWidth_cases T (Nat.size m) with ⟨_, he⟩ | ⟨_, he⟩
        · rw [he]
          have hsz := Nat.lt_size_self m
          have hsz2 : (m : Int) < 2 ^ (Nat.size m) := by exact_mod_cast hsz
          simp only [decide_eq_true_eq]
          omega
        · rw [he] at hcond; omega
      · rfl
    rw [hdbg]
    simp

theorem isMaxOf_inRange {T : IntType} {values : Nat → Int} {count : Nat} {mx : Int}
    (hr : ∀ i, i < count → T.InRange (values i)) (h : IsMaxOf values count mx) :
    T.InRange mx := by
  obtain ⟨⟨j, hj, hjv⟩, _⟩ := h
  rw [← hjv]; exact hr j hj

theorem isMinOf_inRange {T : IntType} {values : Nat → Int} {count : Nat} {mn : Int}
    (hr : ∀ i, i < count → T.InRange (values i)) (h : IsMinOf values count mn) :
    T.InRange mn := by
  obtain ⟨⟨j, hj, hjv⟩, _⟩ := h
  rw [← hjv]; exact hr j hj

theorem isMinOf_le_isMaxOf {values : Nat → Int} {count : Nat} {mn mx : Int}
    (hmn : IsMinOf values count mn) (hmx : IsMaxOf values count mx) : mn ≤ mx := by
  obtain ⟨⟨j, hj, hjv⟩, _⟩ := hmn
  rw [← hjv]; exact hmx.2 j hj

/-- The result of `MinimumBitWidth` on a signed array whose minimum is not the most-negative value. -/
theorem MinimumBitWidth_signed (T : IntType) (hs : T.is_signed = true) (DEBUG : Bool)
    (values : Nat → Int) (count : Nat) (hc : 0 < count)
    (hr : ∀ i, i < count → T.InRange (values i))
    (mn mx : Int) (hmn : IsMinOf values count mn) (hmx : IsMaxOf values count mx)
    (hne : mn ≠ T.Minimum) :
    0 ≤ max (-mn) mx ∧
    MinimumBitWidth T DEBUG values count =
      some (if max (-mn) mx = 0 then 0
            else GetEffectiveWidth T (Nat.size (max (-mn) mx).toNat + 1)) := by
  obtain ⟨h1, h2, _⟩ := scanLoop_spec T values count hc
  have e1 := isMaxOf_unique h1 hmx
  have e2 := isMinOf_unique (h2 hs) hmn
  unfold MinimumBitWidth FindMinimumBitWidth BYTE_ALIGNED
  simp only [e1, e2]
  exact ofMinMax_signed T hs DEBUG mn mx (isMinOf_inRange hr hmn) (isMaxOf_inRange hr hmx)
    (isMinOf_le_isMaxOf hmn hmx) hne

/-- The result of `MinimumBitWidth` on a signed array that contains the most-negative value. -/
theorem MinimumBitWidth_signed_min (T : IntType) (hs : T.is_signed = true) (DEBUG : Bool)
    (values : Nat → Int) (count : Nat)
    (hr : ∀ i, i < count → T.InRange (values i))
    (i : Nat) (hi : i < count) (hv : values i = T.Minimum) :
    MinimumBitWidth T DEBUG values count = some T.bits := by
  obtain ⟨_, h2, _⟩ := scanLoop_spec T values count (by omega)
  have hmn : IsMinOf values count T.Minimum :=
    ⟨⟨i, hi, hv⟩, fun j hj => (hr j hj).1⟩
  have e2 := isMinOf_unique (h2 hs) hmn
  obtain ⟨h8, h64, hb, _, _⟩ := bits_pos T
  unfold MinimumBitWidth FindMinimumBitWidth BYTE_ALIGNED FindMinimumBitWidth.ofMinMax
  simp only [e2, hs, and_self, if_true, hb]
  unfold to_width_t
  congr 1; omega

/-- The result of `MinimumBitWidth` on an unsigned array. -/
theorem MinimumBitWidth_unsigned (T : IntType) (hs : T.is_signed = false) (DEBUG : Bool)
    (values : Nat → Int) (count : Nat) (hc : 0 < count)
    (hr : ∀ i, i < count → T.InRange (values i))
    (mx : Int) (hmx : IsMaxOf values count mx) :
    0 ≤ mx ∧
    MinimumBitWidth T DEBUG values count =
      some (if mx = 0 then 0 else GetEffectiveWidth T (Nat.size mx.toNat)) := by
  obtain ⟨h1, _, _⟩ := scanLoop_spec T values count hc
  have e1 := isMaxOf_unique h1 hmx
  unfold MinimumBitWidth FindMinimumBitWidth BYTE_ALIGNED
  simp only [e1]
  exact ofMinMax_unsigned T hs DEBUG _ mx (isMaxOf_inRange hr hmx)

theorem exists_isMaxOf (values : Nat → Int) (count : Nat) (hc : 0 < count) :
    ∃ mx, IsMaxOf values count mx :=
  ⟨_, (scanLoop_spec .int8_t values count hc).1⟩

theorem exists_isMinOf (values : Nat → Int) (count : Nat) (hc : 0 < count) :
    ∃ mn, IsMinOf values count mn :=
  ⟨_, (scanLoop_spec .int8_t values count hc).2.1 rfl⟩

theorem size_ten : Nat.size 10 = 4 :=
  le_antisymm (Nat.size_le.mpr (by norm_num))
    (Nat.succ_le_of_lt (Nat.lt_size.mpr (by norm_num)))

/-- C4: on a non-empty array of in-range values with minimum `mn` and maximum `mx` that does
not contain the most-negative value of a signed type, `MinimumBitWidth` returns `0` when the
magnitude `m` (`max(-mn, mx)` for a signed type, `mx` for an unsigned one) is `0`, and
otherwise `GetEffectiveWidth` of `h + 1` (signed) or `h` (unsigned), where `h = Nat.size m`
is the 1-based position of the highest set bit of `m`. A signed array with minimum `-5` and
maximum `10` yields `5` for every signed type. -/
theorem MinimumBitWidth_reference (T : IntType) (DEBUG : Bool)
    (values : Nat → Int) (count : Nat) (hc : 0 < count)
    (hr : ∀ i, i < count → T.InRange (values i))
    (mn mx : Int) (hmn : IsMinOf values count mn) (hmx : IsMaxOf values count mx) :
    ((T.is_signed = true → ∀ i, i < count → values i ≠ T.Minimum) →
      MinimumBitWidth T DEBUG values count =
        some (if (if T.is_signed then max (-mn) mx else mx) = 0 then 0
              else GetEffectiveWidth T
                (if T.is_signed then Nat.size (max (-mn) mx).toNat + 1
                 else Nat.size mx.toNat))) ∧
    (T.is_signed = true → mn = -5 → mx = 10 →
      MinimumBitWidth T DEBUG values count = some 5) := by
  constructor
  · intro hno
    cases hs : T.is_signed with
    | true =>
      have hne : mn ≠ T.Minimum := by
        obtain ⟨⟨j, hj, hjv⟩, _⟩ := hmn
        rw [← hjv]; exact hno hs j hj
      simpa using (MinimumBitWidth_signed T hs DEBUG values count hc hr mn mx hmn hmx hne).2
    | false =>
      simpa using (MinimumBitWidth_unsigned T hs DEBUG values count hc hr mx hmx).2
  · intro hs h5 h10
    subst h5 h10
    have hne : (-5 : Int) ≠ T.Minimum := by
      cases T <;> simp [IntType.Minimum, IntType.is_signed, IntType.bits, IntType.sizeof] at hs ⊢
    rw [(MinimumBitWidth_signed T hs DEBUG values count hc hr (-5) 10 hmn hmx hne).2]
    have hm : max (-(-5 : Int)) 10 = 10 := by norm_num
    rw [hm]
    have h10 : (10 : Int).toNat = 10 := rfl
    rw [h10, size_ten]
    cases T <;> simp [GetEffectiveWidth, IntType.sizeof, IntType.is_signed] at hs ⊢

/-- Witness of C4: the `int16_t` array `[-5, 10, 3]`. -/
theorem MinimumBitWidth_reference_witness :
    MinimumBitWidth .int16_t true (arrayOf [-5, 10, 3]) 3 = some 5 :=
  (MinimumBitWidth_reference .int16_t true (arrayOf [-5, 10, 3]) 3 (by decide) (by decide)
    (-5) 10 ⟨⟨0, by decide, rfl⟩, by decide⟩ ⟨⟨1, by decide, rfl⟩, by decide⟩).2 rfl rfl rfl

theorem fitsIn_bits (T : IntType) (x : Int) (h : T.InRange x) : FitsIn T T.bits x := by
  obtain ⟨h8, _, _, _, _⟩ := bits_pos T
  obtain ⟨h1, h2⟩ := h
  unfold FitsIn
  refine ⟨fun h0 => by omega, ?_⟩
  cases hs : T.is_signed with
  | true =>
    simp only [IntType.Minimum, IntType.Maximum, hs, if_true] at h1 h2
    simp only [if_true]
    exact fun _ => ⟨h1, h2⟩
  | false =>
    simp only [IntType.Maximum, hs, Bool.false_eq_true, if_false] at h2
    simpa using h2

/-- C5: on every non-empty array of in-range values `MinimumBitWidth` returns a width `b`,
with the `DEBUG` assertions compiled in as well as without them (so no assertion fails), and
every element fits in `b` bits. -/
theorem MinimumBitWidth_sufficient (T : IntType) (values : Nat → Int) (count : Nat)
    (hc : 0 < count) (hr : ∀ i, i < count → T.InRange (values i)) :
    ∃ b, MinimumBitWidth T true values count = some b ∧
      MinimumBitWidth T false values count = some b ∧
      ∀ i, i < count → FitsIn T b (values i) := by
  obtain ⟨mx, hmx⟩ := exists_isMaxOf values count hc
  obtain ⟨mn, hmn⟩ := exists_isMinOf values count hc
  cases hs : T.is_signed with
  | true =>
    by_cases hmin : mn = T.Minimum
    · obtain ⟨⟨j, hj, hjv⟩, _⟩ := hmn
      refine ⟨T.bits, MinimumBitWidth_signed_min T hs true values count hr j hj (hjv.trans hmin),
        MinimumBitWidth_signed_min T hs false values count hr j hj (hjv.trans hmin), ?_⟩
      exact fun i hi => fitsIn_bits T _ (hr i hi)
    · obtain ⟨hm0, ht⟩ := MinimumBitWidth_signed T hs true values count hc hr mn mx hmn hmx hmin
      obtain ⟨_, hf⟩ := MinimumBitWidth_signed T hs false values count hc hr mn mx hmn hmx hmin
      refine ⟨_, ht, hf, ?_⟩
      intro i hi
      have hlo := hmn.2 i hi
      have hhi := hmx.2 i hi
      have hA : -mn ≤ max (-mn) mx := le_max_left _ _
      have hB : mx ≤ max (-mn) mx := le_max_right _ _
      by_cases hz : max (-mn) mx = 0
      · simp only [hz, if_true]
        rw [hz] at hA hB
        unfold FitsIn
        simp only [hs, if_true]
        exact ⟨fun _ => by omega, fun h => absurd h (lt_irrefl 0)⟩
      · simp only [hz, if_false]
        rcases getEffectiveWidth_cases T (Nat.size (max (-mn) mx).toNat + 1) with
          ⟨_, he⟩ | ⟨_, he⟩
        · rw [he]
          obtain ⟨m, hm⟩ := Int.eq_ofNat_of_zero_le hm0
          rw [hm] at hA hB ⊢
          have hsz := Nat.lt_size_self m
          have hsz2 : (m : Int) < 2 ^ (Nat.size m) := by exact_mod_cast hsz
          unfold FitsIn
          simp only [hs, if_true, Int.toNat_ofNat, Nat.add_sub_cancel]
          exact ⟨fun h => by omega, fun _ => ⟨by omega, by omega⟩⟩
        · rw [he]; exact fitsIn_bits T _ (hr i hi)
  | false =>
    obtain ⟨hm0, ht⟩ := MinimumBitWidth_unsigned T hs true values count hc hr mx hmx
    obtain ⟨_, hf⟩ := MinimumBitWidth_unsigned T hs false values count hc hr mx hmx
    refine ⟨_, ht, hf, ?_⟩
    intro i hi
    have hhi := hmx.2 i hi
    have hlo : 0 ≤ values i := by
      have := (hr i hi).1
      simpa [IntType.Minimum, hs] using this
    by_cases hz : mx = 0
    · simp only [hz, if_true]
      unfold FitsIn
      simp only [hs, Bool.false_eq_true, if_false]
      exact ⟨fun _ => by omega, by omega⟩
    · simp only [hz, if_false]
      rcases getEffectiveWidth_cases T (Nat.size mx.toNat) with ⟨_, he⟩ | ⟨_, he⟩
      · rw [he]
        obtain ⟨m, hm⟩ := Int.eq_ofNat_of_zero_le hm0
        rw [hm] at hhi hz ⊢
        have hsz := Nat.lt_size_self m
        have hsz2 : (m : Int) < 2 ^ (Nat.size m) := by exact_mod_cast hsz
        have hpos : 0 < Nat.size m := Nat.size_pos.mpr (by omega)
        unfold FitsIn
        simp only [hs, Bool.false_eq_true, if_false, Int.toNat_ofNat]
        exact ⟨fun h => by omega, by omega⟩
      · rw [he]; exact fitsIn_bits T _ (hr i hi)

/-- Witness of C5: the `int8_t` array `[-5, 10, -128]`. -/
theorem MinimumBitWidth_sufficient_witness :
    ∃ b, MinimumBitWidth .int8_t true (arrayOf [-5, 10, -128]) 3 = some b ∧
      MinimumBitWidth .int8_t false (arrayOf [-5, 10, -128]) 3 = some b ∧
      ∀ i, i < 3 → FitsIn .int8_t b (arrayOf [-5, 10, -128] i) :=
  MinimumBitWidth_sufficient .int8_t (arrayOf [-5, 10, -128]) 3 (by decide) (by decide)

theorem two_pow_size_pred_le (m : Nat) (hm : m ≠ 0) : 2 ^ (Nat.size m - 1) ≤ m := by
  have hpos : 0 < Nat.size m := Nat.size_pos.mpr (Nat.pos_of_ne_zero hm)
  exact Nat.lt_size.mp (by omega)

/-- C6, counterexample: the `int8_t` array `[-4]` gets width `4`, which is above `0` and below
the full width `8`, although its only element lies inside `[-2 ^ 2, 2 ^ 2 - 1]`, that is, fits
in `3` bits. -/
theorem MinimumBitWidth_minimal_counterexample :
    MinimumBitWidth .int8_t true (arrayOf [-4]) 1 = some 4 ∧
    0 < 4 ∧ 4 < IntType.int8_t.bits ∧
    ¬ ∃ i, i < 1 ∧ (arrayOf [-4] i < -(2 ^ (4 - 2)) ∨ arrayOf [-4] i > 2 ^ (4 - 2) - 1) := by
  decide

/-- C6, amended: when `MinimumBitWidth` returns a width `b` with `0 < b < T.bits`, some
element exceeds `2 ^ (b - 1) - 1` (unsigned type), or some element lies outside the symmetric
range `[-(2 ^ (b - 2) - 1), 2 ^ (b - 2) - 1]` (signed type). -/
theorem MinimumBitWidth_minimal (T : IntType) (DEBUG : Bool) (values : Nat → Int)
    (count : Nat) (hc : 0 < count) (hr : ∀ i, i < count → T.InRange (values i))
    (b : Nat) (hb : MinimumBitWidth T DEBUG values count = some b)
    (h0 : 0 < b) (hlt : b < T.bits) :
    ∃ i, i < count ∧
      (if T.is_signed then
        values i < -(2 ^ (b - 2) - 1) ∨ values i > 2 ^ (b - 2) - 1
       else values i > 2 ^ (b - 1) - 1) := by
  obtain ⟨mx, hmx⟩ := exists_isMaxOf values count hc
  obtain ⟨mn, hmn⟩ := exists_isMinOf values count hc
  cases hs : T.is_signed with
  | true =>
    simp only [if_true]
    by_cases hmin : mn = T.Minimum
    · obtain ⟨⟨j, hj, hjv⟩, _⟩ := hmn
      rw [MinimumBitWidth_signed_min T hs DEBUG values count hr j hj (hjv.trans hmin)] at hb
      injection hb with hb
      omega
    · obtain ⟨hm0, ht⟩ :=
        MinimumBitWidth_signed T hs DEBUG values count hc hr mn mx hmn hmx hmin
      rw [ht] at hb
      injection hb with hb
      by_cases hz : max (-mn) mx = 0
      · simp only [hz, if_true] at hb; omega
      · simp only [hz, if_false] at hb
        rcases getEffectiveWidth_cases T (Nat.size (max (-mn) mx).toNat + 1) with
          ⟨_, he⟩ | ⟨_, he⟩
        · rw [he] at hb
          obtain ⟨m, hm⟩ := Int.eq_ofNat_of_zero_le hm0
          rw [hm] at hb hz
          simp only [Int.toNat_ofNat] at hb
          have hm0 : m ≠ 0 := by exact_mod_cast hz
          have hp := two_pow_size_pred_le m hm0
          have hbe : b - 2 = Nat.size m - 1 := by omega
          rw [hbe]
          have hp2 : ((2 : Int) ^ (Nat.size m - 1)) ≤ (m : Int) := by exact_mod_cast hp
          rcases max_choice (-mn) mx with hch | hch
          · obtain ⟨⟨j, hj, hjv⟩, _⟩ := hmn
            refine ⟨j, hj, Or.inl ?_⟩
            rw [hjv]
            rw [hch] at hm
            have hpos : (0 : Int) < 2 ^ (Nat.size m - 1) := by positivity
            omega
          · obtain ⟨⟨j, hj, hjv⟩, _⟩ := hmx
            refine ⟨j, hj, Or.inr ?_⟩
            rw [hjv]
            rw [hch] at hm
            omega
        · rw [he] at hb; omega
  | false =>
    simp only [Bool.false_eq_true, if_false]
    obtain ⟨hm0, ht⟩ := MinimumBitWidth_unsigned T hs DEBUG values count hc hr mx hmx
    rw [ht] at hb
    injection hb with hb
    by_cases hz : mx = 0
    · simp only [hz, if_true] at hb; omega
    · simp only [hz, if_false] at hb
      rcases getEffectiveWidth_cases T (Nat.size mx.toNat) with ⟨_, he⟩ | ⟨_, he⟩
      · rw [he] at hb
        obtain ⟨m, hm⟩ := Int.eq_ofNat_of_zero_le hm0
        rw [hm] at hb hz
        simp only [Int.toNat_ofNat] at hb
        have hm0 : m ≠ 0 := by exact_mod_cast hz
        have hp := two_pow_size_pred_le m hm0
        have hp2 : ((2 : Int) ^ (Nat.size m - 1)) ≤ (m : Int) := by exact_mod_cast hp
        obtain ⟨⟨j, hj, hjv⟩, _⟩ := hmx
        refine ⟨j, hj, ?_⟩
        rw [hjv, hm, ← hb]
        omega
      · rw [he] at hb; omega

/-- Witness of C6 (amended): the `int8_t` array `[-5, 10]` has width `5` and `10 > 2 ^ 3 - 1`. -/
theorem MinimumBitWidth_minimal_witness :
    ∃ i, i < 2 ∧
      (if IntType.int8_t.is_signed then
        arrayOf [-5, 10] i < -(2 ^ (5 - 2) - 1) ∨ arrayOf [-5, 10] i > 2 ^ (5 - 2) - 1
       else arrayOf [-5, 10] i > 2 ^ (5 - 1) - 1) :=
  MinimumBitWidth_minimal .int8_t true (arrayOf [-5, 10]) 2 (by decide) (by decide) 5
    (by decide) (by decide) (by decide)

/-- C7: on a signed type, an array of in-range values that contains the most-negative value
of the type at some position gets the full bit width `sizeof(T) * 8`. -/
theorem MinimumBitWidth_most_negative (T : IntType) (DEBUG : Bool) (values : Nat → Int)
    (count : Nat) (hs : T.is_signed = true) (hr : ∀ i, i < count → T.InRange (values i))
    (i : Nat) (hi : i < count) (hv : values i = T.Minimum) :
    MinimumBitWidth T DEBUG values count = some (T.sizeof * 8) :=
  MinimumBitWidth_signed_min T hs DEBUG values count hr i hi hv

/-- Witness of C7: an `int8_t` array with `-128` at position 1 yields `8`. -/
theorem MinimumBitWidth_most_negative_witness :
    MinimumBitWidth .int8_t true (arrayOf [3, -128, 7]) 3 = some 8 :=
  MinimumBitWidth_most_negative .int8_t true (arrayOf [3, -128, 7]) 3 rfl (by decide) 1
    (by decide) (by decide)

/-- C8: on a non-empty array of in-range values, `MinimumBitWidth` returns `0` if and only if
every element is zero. -/
theorem MinimumBitWidth_zero_iff (T : IntType) (DEBUG : Bool) (values : Nat → Int)
    (count : Nat) (hc : 0 < count) (hr : ∀ i, i < count → T.InRange (values i)) :
    MinimumBitWidth T DEBUG values count = some 0 ↔ ∀ i, i < count → values i = 0 := by
  obtain ⟨mx, hmx⟩ := exists_isMaxOf values count hc
  obtain ⟨mn, hmn⟩ := exists_isMinOf values count hc
  obtain ⟨h8, _, _, _, _⟩ := bits_pos T
  cases hs : T.is_signed with
  | true =>
    by_cases hmin : mn = T.Minimum
    · obtain ⟨⟨j, hj, hjv⟩, _⟩ := hmn
      rw [MinimumBitWidth_signed_min T hs DEBUG values count hr j hj (hjv.trans hmin)]
      constructor
      · intro h; injection h with h; omega
      · intro h
        have h0 := h j hj
        rw [hjv, hmin] at h0
        simp [IntType.Minimum, hs] at h0
    · obtain ⟨hm0, ht⟩ :=
        MinimumBitWidth_signed T hs DEBUG values count hc hr mn mx hmn hmx hmin
      rw [ht]
      have hA : -mn ≤ max (-mn) mx := le_max_left _ _
      have hB : mx ≤ max (-mn) mx := le_max_right _ _
      constructor
      · intro h
        injection h with h
        by_cases hz : max (-mn) mx = 0
        · intro i hi
          have hlo := hmn.2 i hi
          have hhi := hmx.2 i hi
          omega
        · simp only [hz, if_false] at h
          rcases getEffectiveWidth_cases T (Nat.size (max (-mn) mx).toNat + 1) with
            ⟨_, he⟩ | ⟨_, he⟩ <;> omega
      · intro h
        obtain ⟨⟨j, hj, hjv⟩, _⟩ := hmn
        obtain ⟨⟨k, hk, hkv⟩, _⟩ := hmx
        have hz : max (-mn) mx = 0 := by
          rw [← hjv, ← hkv, h j hj, h k hk]; simp
        simp [hz]
  | false =>
    obtain ⟨hm0, ht⟩ := MinimumBitWidth_unsigned T hs DEBUG values count hc hr mx hmx
    rw [ht]
    constructor
    · intro h
      injection h with h
      by_cases hz : mx = 0
      · intro i hi
        have hhi := hmx.2 i hi
        have hlo : 0 ≤ values i := by
          have := (hr i hi).1
          simpa [IntType.Minimum, hs] using this
        omega
      · simp only [hz, if_false] at h
        obtain ⟨m, hm⟩ := Int.eq_ofNat_of_zero_le hm0
        rw [hm] at h hz
        simp only [Int.toNat_ofNat] at h
        have hm0 : m ≠ 0 := by exact_mod_cast hz
        have hpos : 0 < Nat.size m := Nat.size_pos.mpr (Nat.pos_of_ne_zero hm0)
        rcases getEffectiveWidth_cases T (Nat.size m) with ⟨_, he⟩ | ⟨_, he⟩ <;> omega
    · intro h
      obtain ⟨⟨k, hk, hkv⟩, _⟩ := hmx
      have hz : mx = 0 := by rw [← hkv, h k hk]
      simp [hz]

/-- Witness of C8: the all-zero `uint16_t` array of length 2. -/
theorem MinimumBitWidth_zero_iff_witness :
    MinimumBitWidth .uint16_t true (arrayOf [0, 0]) 2 = some 0 ↔
      ∀ i, i < 2 → arrayOf [0, 0] i = 0 :=
  MinimumBitWidth_zero_iff .uint16_t true (arrayOf [0, 0]) 2 (by decide) (by decide)

/-! ## Theorems: block memory -/

theorem writeBytes_other_block (memory : BlockMemory) (blk off : Nat) (data : List Nat)
    (b i : Nat) (h : b ≠ blk) : writeBytes memory blk off data b i = memory b i := by
  unfold writeBytes
  rw [if_neg]
  exact fun hc => h hc.1

theorem writeBytes_outside (memory : BlockMemory) (blk off : Nat) (data : List Nat)
    (b i : Nat) (h : i < off ∨ off + data.length ≤ i) :
    writeBytes memory blk off data b i = memory b i := by
  unfold writeBytes
  rw [if_neg]
  intro hc
  omega

theorem writeBytes_inside (memory : BlockMemory) (blk off : Nat) (data : List Nat)
    (i : Nat) (h1 : off ≤ i) (h2 : i < off + data.length) :
    writeBytes memory blk off data blk i = data.getD (i - off) 0 := by
  unfold writeBytes
  rw [if_pos ⟨rfl, h1, h2⟩]

theorem readBytes_length (memory : BlockMemory) (blk : Nat) :
    ∀ (len off : Nat), (readBytes memory blk off len).length = len := by
  intro len
  induction len with
  | zero => intro off; rfl
  | succ len ih => intro off; simp [readBytes, ih]

theorem readBytes_congr (m1 m2 : BlockMemory) (blk : Nat) :
    ∀ (len off : Nat), (∀ i, off ≤ i → i < off + len → m1 blk i = m2 blk i) →
      readBytes m1 blk off len = readBytes m2 blk off len := by
  intro len
  induction len with
  | zero => intro off _; rfl
  | succ len ih =>
    intro off h
    simp only [readBytes]
    rw [h off (le_refl _) (by omega), ih (off + 1) (fun i h1 h2 => h i (by omega) (by omega))]

theorem readBytes_append (memory : BlockMemory) (blk : Nat) :
    ∀ (a off b : Nat), readBytes memory blk off (a + b) =
      readBytes memory blk off a ++ readBytes memory blk (off + a) b := by
  intro a
  induction a with
  | zero => intro off b; simp [readBytes]
  | succ a ih =>
    intro off b
    have e : a + 1 + b = (a + b) + 1 := by omega
    rw [e]
    simp only [readBytes, List.cons_append]
    rw [ih (off + 1) b]
    have e2 : off + 1 + a = off + (a + 1) := by omega
    rw [e2]

theorem readBytes_eq_of_forall (memory : BlockMemory) (blk : Nat) :
    ∀ (data : List Nat) (off : Nat),
      (∀ i, i < data.length → memory blk (off + i) = data.getD i 0) →
      readBytes memory blk off data.length = data := by
  intro data
  induction data with
  | nil => intro off _; rfl
  | cons d ds ih =>
    intro off h
    simp only [List.length_cons, readBytes]
    have h0 := h 0 (by simp)
    simp only [Nat.add_zero, List.getD_cons_zero] at h0
    rw [h0, ih (off + 1)]
    intro i hi
    have hi1 := h (i + 1) (by simp; omega)
    simp only [List.getD_cons_succ] at hi1
    rw [← hi1]
    congr 1; omega

theorem readBytes_writeBytes_same (memory : BlockMemory) (blk off : Nat) (data : List Nat) :
    readBytes (writeBytes memory blk off data) blk off data.length = data := by
  apply readBytes_eq_of_forall
  intro i hi
  rw [writeBytes_inside _ _ _ _ _ (by omega) (by omega)]
  congr 1; omega

theorem toLittleEndian_length : ∀ (n v : Nat), (toLittleEndian n v).length = n := by
  intro n
  induction n with
  | zero => intro v; rfl
  | succ n ih => intro v; simp [toLittleEndian, ih]

theorem fromLittleEndian_toLittleEndian :
    ∀ (n v : Nat), fromLittleEndian (toLittleEndian n v) = v % 256 ^ n := by
  intro n
  induction n with
  | zero => intro v; simp [toLittleEndian, fromLittleEndian, Nat.mod_one]
  | succ n ih =>
    intro v
    simp only [toLittleEndian, fromLittleEndian, ih]
    rw [pow_succ, mul_comm (256 ^ n) 256, Nat.mod_mul]

theorem Store_idx_t_length (v : Nat) : (Store_idx_t v).length = 8 :=
  toLittleEndian_length 8 _

/-- Reading the link field of a block right after it was stored gives the stored value. -/
theorem Load_Store_idx_t (memory : BlockMemory) (blk v : Nat) (hv : v < 2 ^ 64) :
    Load_idx_t (writeBytes memory blk 0 (Store_idx_t v)) blk = v := by
  unfold Load_idx_t
  have h := readBytes_writeBytes_same memory blk 0 (Store_idx_t v)
  rw [Store_idx_t_length] at h
  rw [h]
  unfold Store_idx_t
  rw [fromLittleEndian_toLittleEndian, Nat.mod_eq_of_lt hv]
  exact Nat.mod_eq_of_lt (by norm_num at hv ⊢; exact hv)

theorem Load_idx_t_congr (m1 m2 : BlockMemory) (blk : Nat)
    (h : ∀ i, i < 8 → m1 blk i = m2 blk i) : Load_idx_t m1 blk = Load_idx_t m2 blk := by
  unfold Load_idx_t
  rw [readBytes_congr m1 m2 blk 8 0 (fun i _ h2 => h i (by omega))]

/-! ## Theorems: the chain written by `WriteData` -/

theorem chainData_congr (m1 m2 : BlockMemory) (ids : Nat → Nat) (capacity : Nat) :
    ∀ (k j : Nat), (∀ i, j ≤ i → i < j + k → ∀ x, 8 ≤ x → m1 (ids i) x = m2 (ids i) x) →
      chainData m1 ids capacity k j = chainData m2 ids capacity k j := by
  intro k
  induction k with
  | zero => intro j _; rfl
  | succ k ih =>
    intro j h
    simp only [chainData]
    rw [ih (j + 1) (fun i h1 h2 => h i (by omega) (by omega)),
      readBytes_congr m1 m2 (ids j) _ 8 (fun x h1 _ => h j (le_refl _) (by omega) x h1)]

theorem chainData_snoc (memory : BlockMemory) (ids : Nat → Nat) (capacity : Nat) :
    ∀ (k j : Nat), chainData memory ids capacity (k + 1) j =
      chainData memory ids capacity k j ++ readBytes memory (ids (j + k)) 8 (capacity - 8) := by
  intro k
  induction k with
  | zero => intro j; simp [chainData]
  | succ k ih =>
    intro j
    rw [chainData, ih (j + 1), chainData, List.append_assoc]
    have e : j + 1 + k = j + (k + 1) := by omega
    rw [e]

theorem chainData_length (memory : BlockMemory) (ids : Nat → Nat) (capacity : Nat) :
    ∀ (k j : Nat), (chainData memory ids capacity k j).length = k * (capacity - 8) := by
  intro k
  induction k with
  | zero => intro j; simp [chainData]
  | succ k ih =>
    intro j
    simp only [chainData, List.length_append, readBytes_length, ih]
    rw [Nat.succ_mul]; omega

/-- Copying bytes into the room left in the current block extends the written stream. -/
theorem ChainInv_copy (manager : MetadataManager) (ids : Nat → Nat) (K : Nat)
    (hids : HandsOut manager ids K) (w : MetadataWriter) (D data : List Nat)
    (hinv : ChainInv manager ids K w D) (hroom : w.offset + data.length ≤ w.capacity) :
    ChainInv manager ids K
      { w with memory := writeBytes w.memory w.block w.offset data
               offset := w.offset + data.length } (D ++ data) := by
  obtain ⟨hsize, halloc, hinj, hlt⟩ := hids
  obtain ⟨hK, h0, h1⟩ := hinv
  refine ⟨hK, ?_, ?_⟩
  · intro ha
    obtain ⟨hc, ho, hD⟩ := h0 ha
    have hl : data.length = 0 := by omega
    have hd : data = [] := List.length_eq_zero.mp hl
    subst hd
    simp only [List.length_nil, Nat.add_zero, List.append_nil]
    exact ⟨hc, ho, hD⟩
  · intro ha
    obtain ⟨hc, ho8, hoc, hb, hlinks, hlast, hD⟩ := h1 ha
    simp only at ha ⊢
    refine ⟨hc, by omega, by omega, hb, ?_, ?_, ?_⟩
    · intro j hj
      rw [← hlinks j hj]
      apply Load_idx_t_congr
      intro i _
      apply writeBytes_other_block
      rw [hb]
      intro he
      have := hinj _ _ (by omega) (by omega) he
      omega
    · rw [← hlast]
      apply Load_idx_t_congr
      intro i hi
      apply writeBytes_outside
      left; omega
    · have e1 : chainData (writeBytes w.memory w.block w.offset data) ids
          manager.METADATA_BLOCK_SIZE (w.allocated - 1) 0 =
          chainData w.memory ids manager.METADATA_BLOCK_SIZE (w.allocated - 1) 0 := by
        apply chainData_congr
        intro i _ hi x _
        apply writeBytes_other_block
        rw [hb]
        intro he
        have := hinj _ _ (by omega) (by omega) he
        omega
      have e2 : readBytes (writeBytes w.memory w.block w.offset data) w.block 8
          (w.offset - 8) = readBytes w.memory w.block 8 (w.offset - 8) := by
        apply readBytes_congr
        intro i _ hi
        apply writeBytes_outside
        left; omega
      have e3 : w.offset + data.length - 8 = (w.offset - 8) + data.length := by omega
      have e4 : 8 + (w.offset - 8) = w.offset := by omega
      rw [hD, List.append_assoc, e1, e3, readBytes_append, e4, readBytes_writeBytes_same, e2]

/-- When the current block is full (or none is claimed) and the manager has a block left,
`NextBlock` returns, and the new state carries the same written stream. -/
theorem ChainInv_NextBlock (manager : MetadataManager) (ids : Nat → Nat) (K : Nat)
    (hids : HandsOut manager ids K) (w : MetadataWriter) (D : List Nat)
    (hinv : ChainInv manager ids K w D) (hfull : w.offset = w.capacity)
    (hleft : w.allocated < K) :
    ∃ w1, MetadataWriter.NextBlock manager w = Outcome.ok w1 () ∧
      ChainInv manager ids K w1 D ∧ w1.allocated = w.allocated + 1 ∧ w1.offset = 8 ∧
      w1.capacity = manager.METADATA_BLOCK_SIZE := by
  obtain ⟨hsize, halloc, hinj, hlt⟩ := hids
  obtain ⟨hK, h0, h1⟩ := hinv
  unfold MetadataWriter.NextBlock
  rw [halloc _ hleft]
  refine ⟨_, rfl, ?_, rfl, rfl, rfl⟩
  have hsent : NO_SUCCESSOR < 2 ^ 64 := by unfold NO_SUCCESSOR; norm_num
  refine ⟨hleft, ?_, ?_⟩
  · intro ha
    simp at ha
  · intro _
    refine ⟨rfl, le_refl _, Nat.le_of_lt hsize, rfl, ?_, Load_Store_idx_t _ _ _ hsent, ?_⟩
    · intro j hj
      have hj2 : j < w.allocated := by
        have : j + 1 < w.allocated + 1 := hj
        omega
      have hne : ids j ≠ ids w.allocated := by
        intro he
        have := hinj _ _ (by omega) (by omega) he
        omega
      show Load_idx_t (writeBytes _ (ids w.allocated) 0 (Store_idx_t NO_SUCCESSOR)) (ids j) =
        ids (j + 1)
      rw [Load_idx_t_congr _ _ (ids j)
        (fun i _ => writeBytes_other_block _ _ _ _ (ids j) i hne)]
      have hp : 0 < w.allocated := by omega
      obtain ⟨hc, ho8, hoc, hb, hlinks, hlast, hD⟩ := h1 hp
      have hcp : w.capacity > 0 := by omega
      rw [if_pos hcp]
      by_cases hjl : j + 1 = w.allocated
      · have hbj : w.block = ids j := by rw [hb]; congr 1; omega
        rw [hbj, Load_Store_idx_t _ _ _ (hlt _ hleft), hjl]
      · rw [← hlinks j (by omega)]
        apply Load_idx_t_congr
        intro i _
        apply writeBytes_other_block
        rw [hb]
        intro he
        have := hinj _ _ (by omega) (by omega) he
        omega
    · show D = chainData (writeBytes _ (ids w.allocated) 0 (Store_idx_t NO_SUCCESSOR)) ids
        manager.METADATA_BLOCK_SIZE (w.allocated + 1 - 1) 0 ++
        readBytes (writeBytes _ (ids w.allocated) 0 (Store_idx_t NO_SUCCESSOR))
          (ids w.allocated) 8 (8 - 8)
      simp only [Nat.add_sub_cancel, Nat.sub_self, readBytes, List.append_nil]
      rcases Nat.eq_zero_or_pos w.allocated with hz | hp
      · obtain ⟨_, _, hD⟩ := h0 hz
        rw [hz, hD]
        rfl
      · obtain ⟨hc, ho8, hoc, hb, hlinks, hlast, hD⟩ := h1 hp
        have hcp : w.capacity > 0 := by omega
        rw [if_pos hcp]
        obtain ⟨n, hn⟩ : ∃ n, w.allocated = n + 1 := ⟨w.allocated - 1, by omega⟩
        rw [hn] at hb hD hleft ⊢
        simp only [Nat.add_sub_cancel] at hb hD
        have e1 : chainData (writeBytes (writeBytes w.memory w.block 0
            (Store_idx_t (ids (n + 1)))) (ids (n + 1)) 0 (Store_idx_t NO_SUCCESSOR)) ids
            manager.METADATA_BLOCK_SIZE n 0 =
            chainData w.memory ids manager.METADATA_BLOCK_SIZE n 0 := by
          apply chainData_congr
          intro i _ hi x hx
          have hne1 : ids i ≠ ids (n + 1) := by
            intro he
            have := hinj _ _ (by omega) (by omega) he
            omega
          have hne2 : ids i ≠ w.block := by
            rw [hb]
            intro he
            have := hinj _ _ (by omega) (by omega) he
            omega
          rw [writeBytes_other_block _ _ _ _ _ _ hne1, writeBytes_other_block _ _ _ _ _ _ hne2]
        have e2 : readBytes (writeBytes (writeBytes w.memory w.block 0
            (Store_idx_t (ids (n + 1)))) (ids (n + 1)) 0 (Store_idx_t NO_SUCCESSOR)) (ids n) 8
            (manager.METADATA_BLOCK_SIZE - 8) =
            readBytes w.memory w.block 8 (w.offset - 8) := by
          rw [hfull, hc, ← hb]
          apply readBytes_congr
          intro i hi _
          have hne1 : w.block ≠ ids (n + 1) := by
            rw [hb]
            intro he
            have := hinj _ _ (by omega) (by omega) he
            omega
          rw [writeBytes_other_block _ _ _ _ _ _ hne1]
          apply writeBytes_outside
          right
          rw [Store_idx_t_length]; omega
        rw [chainData_snoc, Nat.zero_add, e1, e2, hD]

theorem ChainInv_offset_le (manager : MetadataManager) (ids : Nat → Nat) (K : Nat)
    (w : MetadataWriter) (D : List Nat) (hinv : ChainInv manager ids K w D) :
    w.offset ≤ w.capacity := by
  obtain ⟨_, h0, h1⟩ := hinv
  rcases Nat.eq_zero_or_pos w.allocated with hz | hp
  · obtain ⟨hc, ho, _⟩ := h0 hz
    omega
  · exact (h1 hp).2.2.1

/-- The number of bytes written so far, counted from the blocks in use. -/
theorem ChainInv_length (manager : MetadataManager) (ids : Nat → Nat) (K : Nat)
    (w : MetadataWriter) (D : List Nat) (hinv : ChainInv manager ids K w D) :
    (w.allocated = 0 → D.length = 0) ∧
    (0 < w.allocated →
      D.length + 8 = (w.allocated - 1) * (manager.METADATA_BLOCK_SIZE - 8) + w.offset) := by
  obtain ⟨_, h0, h1⟩ := hinv
  constructor
  · intro hz
    rw [(h0 hz).2.2]; rfl
  · intro hp
    obtain ⟨hc, ho8, hoc, _, _, _, hD⟩ := h1 hp
    rw [hD, List.length_append, chainData_length, readBytes_length]
    omega

/-- A full current block (or none) with bytes still to come means the manager has a block
left, when the blocks it hands out can hold the whole stream. -/
theorem ChainInv_block_left (manager : MetadataManager) (ids : Nat → Nat) (K : Nat)
    (hsize : 8 < manager.METADATA_BLOCK_SIZE)
    (w : MetadataWriter) (D : List Nat) (hinv : ChainInv manager ids K w D)
    (hfull : w.offset = w.capacity) (extra : Nat) (hextra : 0 < extra)
    (hK : D.length + extra ≤ K * (manager.METADATA_BLOCK_SIZE - 8)) :
    w.allocated < K := by
  obtain ⟨hl0, hl1⟩ := ChainInv_length manager ids K w D hinv
  by_contra hnot
  have hge : K ≤ w.allocated := by omega
  have hmul := Nat.mul_le_mul_right (manager.METADATA_BLOCK_SIZE - 8) hge
  rcases Nat.eq_zero_or_pos w.allocated with hz | hp
  · rw [hz] at hmul
    simp only [Nat.zero_mul] at hmul
    omega
  · have hcap := (hinv.2.2 hp).1
    have hl := hl1 hp
    obtain ⟨n, hn⟩ : ∃ n, w.allocated = n + 1 := ⟨w.allocated - 1, by omega⟩
    rw [hn, Nat.succ_mul] at hmul
    rw [hn] at hl
    simp only [Nat.add_sub_cancel] at hl
    omega

theorem WriteData_loop_no_rollover (manager : MetadataManager) (fuel : Nat)
    (w : MetadataWriter) (buffer : List Nat) (h : w.offset + buffer.length ≤ w.capacity) :
    MetadataWriter.WriteData.loop manager fuel w buffer =
      Outcome.ok { w with memory := writeBytes w.memory w.block w.offset buffer
                          offset := w.offset + buffer.length } () := by
  unfold MetadataWriter.WriteData.loop
  rw [if_neg (by omega)]

theorem WriteData_loop_rollover (manager : MetadataManager) (fuel : Nat)
    (w : MetadataWriter) (buffer : List Nat) (h : w.offset + buffer.length > w.capacity)
    (hle : w.offset ≤ w.capacity) :
    MetadataWriter.WriteData.loop manager (fuel + 1) w buffer =
      match MetadataWriter.NextBlock manager
        (if w.capacity - w.offset > 0 then
          { w with
            memory := writeBytes w.memory w.block w.offset (buffer.take (w.capacity - w.offset))
            offset := w.offset + (w.capacity - w.offset) }
         else w) with
      | Outcome.ok w2 _ =>
        MetadataWriter.WriteData.loop manager fuel w2
          (if w.capacity - w.offset > 0 then buffer.drop (w.capacity - w.offset) else buffer)
      | Outcome.alloc_failed w2 => Outcome.alloc_failed w2
      | Outcome.assert_failed w2 => Outcome.assert_failed w2
      | Outcome.diverged => Outcome.diverged := by
  rw [MetadataWriter.WriteData.loop]
  rw [if_pos h]
  simp only [not_le, if_neg (not_lt.mpr hle)]

/-- Under a manager that hands out enough distinct blocks, the loop of `WriteData` returns
and appends the buffer to the written stream. -/
theorem ChainInv_loop (manager : MetadataManager) (ids : Nat → Nat) (K : Nat)
    (hids : HandsOut manager ids K) :
    ∀ (fuel : Nat) (w : MetadataWriter) (buffer D : List Nat),
      ChainInv manager ids K w D →
      buffer.length + (if w.offset = w.capacity then 1 else 0) ≤ fuel →
      D.length + buffer.length ≤ K * (manager.METADATA_BLOCK_SIZE - 8) →
      ∃ w1, MetadataWriter.WriteData.loop manager fuel w buffer = Outcome.ok w1 () ∧
        ChainInv manager ids K w1 (D ++ buffer) := by
  have hsize := hids.1
  intro fuel
  induction fuel with
  | zero =>
    intro w buffer D hinv hfuel _
    have hle := ChainInv_offset_le manager ids K w D hinv
    have hroom : w.offset + buffer.length ≤ w.capacity := by
      split_ifs at hfuel <;> omega
    rw [WriteData_loop_no_rollover manager 0 w buffer hroom]
    exact ⟨_, rfl, ChainInv_copy manager ids K hids w D buffer hinv hroom⟩
  | succ fuel ih =>
    intro w buffer D hinv hfuel hK
    have hle := ChainInv_offset_le manager ids K w D hinv
    by_cases hroom : w.offset + buffer.length ≤ w.capacity
    · rw [WriteData_loop_no_rollover manager _ w buffer hroom]
      exact ⟨_, rfl, ChainInv_copy manager ids K hids w D buffer hinv hroom⟩
    · rw [WriteData_loop_rollover manager fuel w buffer (by omega) hle]
      by_cases hcopy : w.capacity - w.offset > 0
      · simp only [if_pos hcopy]
        have htake : (buffer.take (w.capacity - w.offset)).length = w.capacity - w.offset := by
          rw [List.length_take]; omega
        have hinv1 := ChainInv_copy manager ids K hids w D (buffer.take (w.capacity - w.offset))
          hinv (by rw [htake]; omega)
        rw [htake] at hinv1
        have hK1 : (D ++ buffer.take (w.capacity - w.offset)).length +
            (buffer.length - (w.capacity - w.offset)) ≤
            K * (manager.METADATA_BLOCK_SIZE - 8) := by
          rw [List.length_append, htake]; omega
        have hleft := ChainInv_block_left manager ids K hsize _ _ hinv1 (by simp only; omega)
          (buffer.length - (w.capacity - w.offset)) (by omega) hK1
        obtain ⟨w2, hnb, hinv2, _, ho2, hc2⟩ :=
          ChainInv_NextBlock manager ids K hids _ _ hinv1 (by simp only; omega) hleft
        rw [hnb]
        simp only
        have hfuel2 : (buffer.drop (w.capacity - w.offset)).length +
            (if w2.offset = w2.capacity then 1 else 0) ≤ fuel := by
          rw [List.length_drop, ho2, hc2, if_neg (by omega)]
          split_ifs at hfuel <;> omega
        obtain ⟨w3, hloop, hinv3⟩ := ih w2 _ _ hinv2 hfuel2
          (by rw [List.length_append, htake, List.length_drop]; omega)
        refine ⟨w3, hloop, ?_⟩
        rw [List.append_assoc, List.take_append_drop] at hinv3
        exact hinv3
      · simp only [if_neg hcopy]
        have hfull : w.offset = w.capacity := by omega
        have hleft : w.allocated < K :=
          ChainInv_block_left manager ids K hsize w D hinv hfull buffer.length (by omega) hK
        obtain ⟨w2, hnb, hinv2, _, ho2, hc2⟩ :=
          ChainInv_NextBlock manager ids K hids w D hinv hfull hleft
        rw [hnb]
        simp only
        have hfuel2 : buffer.length + (if w2.offset = w2.capacity then 1 else 0) ≤ fuel := by
          rw [ho2, hc2, if_neg (by omega)]
          rw [if_pos hfull] at hfuel
          omega
        exact ih w2 buffer D hinv2 hfuel2 hK

/-- A sequence of `WriteData` calls returns and appends all the buffers in order. -/
theorem ChainInv_WriteAll (manager : MetadataManager) (ids : Nat → Nat) (K : Nat)
    (hids : HandsOut manager ids K) :
    ∀ (writes : List (List Nat)) (w : MetadataWriter) (D : List Nat),
      ChainInv manager ids K w D →
      D.length + writes.flatten.length ≤ K * (manager.METADATA_BLOCK_SIZE - 8) →
      ∃ w1, MetadataWriter.WriteAll manager w writes = Outcome.ok w1 () ∧
        ChainInv manager ids K w1 (D ++ writes.flatten) := by
  intro writes
  induction writes with
  | nil =>
    intro w D hinv _
    exact ⟨w, rfl, by simpa using hinv⟩
  | cons buffer rest ih =>
    intro w D hinv hK
    simp only [List.flatten_cons, List.length_append] at hK
    obtain ⟨w1, h1, hinv1⟩ := ChainInv_loop manager ids K hids (buffer.length + 1) w buffer D
      hinv (by split_ifs <;> omega) (by omega)
    obtain ⟨w2, h2, hinv2⟩ := ih w1 _ hinv1 (by rw [List.length_append]; omega)
    refine ⟨w2, ?_, ?_⟩
    · simp only [MetadataWriter.WriteAll, MetadataWriter.WriteData, h1]
      exact h2
    · simpa [List.append_assoc] using hinv2

/-- Following the forward links from block `ids j` reaches the last of `n` linked blocks
and collects the payloads on the way. -/
theorem readChain_of_links (memory : BlockMemory) (ids : Nat → Nat) (capacity n off : Nat)
    (hinj : ∀ i j, i < n → j < n → ids i = ids j → i = j)
    (hlinks : ∀ j, j + 1 < n → Load_idx_t memory (ids j) = ids (j + 1)) :
    ∀ (k j : Nat), j + k + 1 = n →
      readChain memory capacity (ids (n - 1)) off (k + 1) (ids j) =
        some (chainData memory ids capacity k j ++ readBytes memory (ids (n - 1)) 8 (off - 8)) := by
  intro k
  induction k with
  | zero =>
    intro j hj
    have hjn : j = n - 1 := by omega
    rw [hjn]
    simp [readChain, chainData]
  | succ k ih =>
    intro j hj
    have hne : ids j ≠ ids (n - 1) := by
      intro he
      have := hinj _ _ (by omega) (by omega) he
      omega
    rw [readChain, if_neg hne, hlinks j (by omega), ih (j + 1) (by omega)]
    simp [chainData, List.append_assoc]

theorem ChainInv_new (manager : MetadataManager) (ids : Nat → Nat) (K : Nat)
    (memory : BlockMemory) (block : Nat) :
    ChainInv manager ids K (MetadataWriter.new memory block) [] :=
  ⟨Nat.zero_le _, fun _ => ⟨rfl, rfl, rfl⟩, fun h => absurd h (lt_irrefl 0)⟩

/-- C2: start from a freshly constructed writer whose manager hands out `K` pairwise
distinct blocks `ids 0, ids 1, ...`, and make any sequence of `WriteData` calls whose inputs
concatenate to `D`, with `D` no longer than the payload of `K` blocks. Every call returns.
If no block was claimed, `D` is empty. Otherwise walking the chain from the first claimed
block `ids 0` along the forward-link fields up to the current block, taking the payload
bytes `[8, capacity)` of every block before it and `[8, offset)` of the current block,
yields exactly `D`, and the forward-link field of the current block holds the all-ones
value. -/
theorem WriteData_stream_fidelity (manager : MetadataManager) (ids : Nat → Nat) (K : Nat)
    (hids : HandsOut manager ids K) (memory : BlockMemory) (block : Nat)
    (writes : List (List Nat))
    (hK : writes.flatten.length ≤ K * (manager.METADATA_BLOCK_SIZE - 8)) :
    ∃ w, MetadataWriter.WriteAll manager (MetadataWriter.new memory block) writes =
        Outcome.ok w () ∧
      (w.allocated = 0 → writes.flatten = []) ∧
      (writes.flatten ≠ [] → 0 < w.allocated) ∧
      (0 < w.allocated →
        w.capacity = manager.METADATA_BLOCK_SIZE ∧
        readChain w.memory w.capacity w.block w.offset w.allocated (ids 0) =
          some writes.flatten ∧
        Load_idx_t w.memory w.block = 2 ^ 64 - 1) := by
  obtain ⟨w, hw, hinv⟩ := ChainInv_WriteAll manager ids K hids writes
    (MetadataWriter.new memory block) [] (ChainInv_new manager ids K memory block)
    (by simpa using hK)
  simp only [List.nil_append] at hinv
  obtain ⟨hle, h0, h1⟩ := hinv
  refine ⟨w, hw, fun hz => (h0 hz).2.2, ?_, ?_⟩
  · intro hne
    rcases Nat.eq_zero_or_pos w.allocated with hz | hp
    · exact absurd (h0 hz).2.2 hne
    · exact hp
  · intro hp
    obtain ⟨hc, ho8, hoc, hb, hlinks, hlast, hD⟩ := h1 hp
    refine ⟨hc, ?_, hlast⟩
    obtain ⟨n, hn⟩ : ∃ n, w.allocated = n + 1 := ⟨w.allocated - 1, by omega⟩
    have hinj : ∀ i j, i < w.allocated → j < w.allocated → ids i = ids j → i = j :=
      fun i j hi hj => hids.2.2.1 i j (by omega) (by omega)
    have := readChain_of_links w.memory ids w.capacity w.allocated w.offset hinj hlinks
      n 0 (by omega)
    rw [hD, hb, hc]
    rw [hn] at this ⊢
    rw [hc] at this
    simpa using this

/-- Witness of C2: blocks of 10 bytes (2 payload bytes each), the manager hands out the
blocks 100, 101, ..., and the calls write `[1, 2, 3]` and then `[4, 5]`: three blocks. -/
theorem WriteData_stream_fidelity_witness :
    ∃ w, MetadataWriter.WriteAll ⟨10, fun n => some (n + 100), id⟩
        (MetadataWriter.new (fun _ _ => 0) 0) [[1, 2, 3], [4, 5]] = Outcome.ok w () ∧
      (w.allocated = 0 → [[1, 2, 3], [4, 5]].flatten = ([] : List Nat)) ∧
      ([[1, 2, 3], [4, 5]].flatten ≠ ([] : List Nat) → 0 < w.allocated) ∧
      (0 < w.allocated →
        w.capacity = 10 ∧
        readChain w.memory w.capacity w.block w.offset w.allocated (0 + 100) =
          some [[1, 2, 3], [4, 5]].flatten ∧
        Load_idx_t w.memory w.block = 2 ^ 64 - 1) :=
  WriteData_stream_fidelity ⟨10, fun n => some (n + 100), id⟩ (fun n => n + 100) 5
    ⟨by decide, fun _ _ => rfl, fun i j _ _ h => by simpa using h,
      fun n hn => by
        have : n + 100 < 105 := by omega
        exact lt_trans this (by norm_num)⟩
    (fun _ _ => 0) 0 [[1, 2, 3], [4, 5]] (by decide)

/-! ## Theorems: pointers and rollover -/

theorem writeBytes_nil (memory : BlockMemory) (blk off : Nat) :
    writeBytes memory blk off [] = memory := by
  funext b i
  apply writeBytes_outside
  simp only [List.length_nil, Nat.add_zero]
  omega

theorem NextBlock_some (manager : MetadataManager) (w : MetadataWriter) (id : Nat)
    (h : manager.AllocateHandle w.allocated = some id) :
    ∃ w1, MetadataWriter.NextBlock manager w = Outcome.ok w1 () ∧
      w1.allocated = w.allocated + 1 ∧ w1.block = id ∧ w1.offset = 8 ∧
      w1.capacity = manager.METADATA_BLOCK_SIZE := by
  unfold MetadataWriter.NextBlock
  rw [h]
  exact ⟨_, rfl, rfl, rfl, rfl, rfl⟩

theorem NextBlock_none (manager : MetadataManager) (w : MetadataWriter)
    (h : manager.AllocateHandle w.allocated = none) :
    MetadataWriter.NextBlock manager w = Outcome.alloc_failed w := by
  unfold MetadataWriter.NextBlock
  rw [h]

/-- With a block size above 8 and enough fuel, the loop of `WriteData` on a well-shaped state
either returns or stops at a failed allocation; it never claims fewer blocks than it had, and
the state stays well-shaped. -/
theorem WriteData_loop_outcome (manager : MetadataManager)
    (hsize : 8 < manager.METADATA_BLOCK_SIZE) :
    ∀ (fuel : Nat) (w : MetadataWriter) (buffer : List Nat),
      WellShaped manager w →
      buffer.length + (if w.offset = w.capacity then 1 else 0) ≤ fuel →
      ∃ w1, (MetadataWriter.WriteData.loop manager fuel w buffer = Outcome.ok w1 () ∨
          MetadataWriter.WriteData.loop manager fuel w buffer = Outcome.alloc_failed w1) ∧
        WellShaped manager w1 ∧ w.allocated ≤ w1.allocated := by
  intro fuel
  induction fuel with
  | zero =>
    intro w buffer hw hfuel
    have hroom : w.offset + buffer.length ≤ w.capacity := by
      rcases hw with ⟨h1, h2⟩ | ⟨h1, h2, h3⟩ <;> split_ifs at hfuel <;> omega
    rw [WriteData_loop_no_rollover manager 0 w buffer hroom]
    refine ⟨_, Or.inl rfl, ?_, le_refl _⟩
    rcases hw with ⟨h1, h2⟩ | ⟨h1, h2, h3⟩
    · left; exact ⟨h1, by simp only; omega⟩
    · right; exact ⟨h1, by simp only; omega, by simp only; omega⟩
  | succ fuel ih =>
    intro w buffer hw hfuel
    have hle : w.offset ≤ w.capacity := by
      rcases hw with ⟨h1, h2⟩ | ⟨h1, h2, h3⟩ <;> omega
    by_cases hroom : w.offset + buffer.length ≤ w.capacity
    · rw [WriteData_loop_no_rollover manager _ w buffer hroom]
      refine ⟨_, Or.inl rfl, ?_, le_refl _⟩
      rcases hw with ⟨h1, h2⟩ | ⟨h1, h2, h3⟩
      · left; exact ⟨h1, by simp only; omega⟩
      · right; exact ⟨h1, by simp only; omega, by simp only; omega⟩
    · rw [WriteData_loop_rollover manager fuel w buffer (by omega) hle]
      by_cases hcopy : w.capacity - w.offset > 0
      · simp only [if_pos hcopy]
        have hcap : w.capacity = manager.METADATA_BLOCK_SIZE := by
          rcases hw with ⟨h1, h2⟩ | ⟨h1, h2, h3⟩
          · omega
          · exact h1
        cases hal : manager.AllocateHandle w.allocated with
        | none =>
          rw [NextBlock_none manager
            { w with
              memory := writeBytes w.memory w.block w.offset (buffer.take (w.capacity - w.offset))
              offset := w.offset + (w.capacity - w.offset) } hal]
          refine ⟨_, Or.inr rfl, ?_, le_refl _⟩
          right
          rcases hw with ⟨h1, h2⟩ | ⟨h1, h2, h3⟩
          · omega
          · exact ⟨h1, by simp only; omega, by simp only; omega⟩
        | some id =>
          obtain ⟨w2, hnb, ha2, _, ho2, hc2⟩ := NextBlock_some manager
            { w with
              memory := writeBytes w.memory w.block w.offset (buffer.take (w.capacity - w.offset))
              offset := w.offset + (w.capacity - w.offset) } id hal
          rw [hnb]
          simp only
          have hfuel2 : (buffer.drop (w.capacity - w.offset)).length +
              (if w2.offset = w2.capacity then 1 else 0) ≤ fuel := by
            rw [List.length_drop, ho2, hc2, if_neg (by omega)]
            split_ifs at hfuel <;> omega
          obtain ⟨w3, hloop, hw3, ha3⟩ := ih w2 _ (Or.inr ⟨hc2, by omega, by omega⟩) hfuel2
          exact ⟨w3, hloop, hw3, by simp only at ha2; omega⟩
      · simp only [if_neg hcopy]
        have hfull : w.offset = w.capacity := by omega
        cases hal : manager.AllocateHandle w.allocated with
        | none =>
          rw [NextBlock_none manager _ hal]
          exact ⟨_, Or.inr rfl, hw, le_refl _⟩
        | some id =>
          obtain ⟨w2, hnb, ha2, _, ho2, hc2⟩ := NextBlock_some manager w id hal
          rw [hnb]
          simp only
          have hfuel2 : buffer.length + (if w2.offset = w2.capacity then 1 else 0) ≤ fuel := by
            rw [ho2, hc2, if_neg (by omega)]
            rw [if_pos hfull] at hfuel
            omega
          obtain ⟨w3, hloop, hw3, ha3⟩ := ih w2 _ (Or.inr ⟨hc2, by omega, by omega⟩) hfuel2
          exact ⟨w3, hloop, hw3, by omega⟩

/-- C9: with a block size above the 8-byte header, in every writer state: when a call of
`GetMetaBlockPointer` returns a pointer, a second call right after it returns the same
pointer and leaves the whole state (offset, capacity, current block, block contents, number
of allocated blocks) as it is; and the first call returns whenever the block has room or the
manager hands out a block. -/
theorem GetMetaBlockPointer_idempotent (manager : MetadataManager) (w : MetadataWriter)
    (hsize : 8 < manager.METADATA_BLOCK_SIZE) :
    (∀ w1 p, MetadataWriter.GetMetaBlockPointer manager w = Outcome.ok w1 p →
      MetadataWriter.GetMetaBlockPointer manager w1 = Outcome.ok w1 p) ∧
    (w.offset < w.capacity ∨ (manager.AllocateHandle w.allocated).isSome →
      ∃ w1 p, MetadataWriter.GetMetaBlockPointer manager w = Outcome.ok w1 p) := by
  constructor
  · intro w1 p h
    unfold MetadataWriter.GetMetaBlockPointer at h
    by_cases hfull : w.offset ≥ w.capacity
    · rw [if_pos hfull] at h
      cases hal : manager.AllocateHandle w.allocated with
      | none =>
        rw [NextBlock_none manager w hal] at h
        simp at h
      | some id =>
        obtain ⟨w2, hnb, _, _, ho2, hc2⟩ := NextBlock_some manager w id hal
        rw [hnb] at h
        simp only at h
        rw [if_pos (by omega)] at h
        injection h with hw hp
        subst hw hp
        unfold MetadataWriter.GetMetaBlockPointer
        rw [if_neg (by omega)]
    · rw [if_neg hfull] at h
      injection h with hw hp
      subst hw hp
      unfold MetadataWriter.GetMetaBlockPointer
      rw [if_neg hfull]
  · intro h
    unfold MetadataWriter.GetMetaBlockPointer
    by_cases hfull : w.offset ≥ w.capacity
    · rw [if_pos hfull]
      rcases h with h | h
      · omega
      · obtain ⟨id, hal⟩ := Option.isSome_iff_exists.mp h
        obtain ⟨w2, hnb, _, _, ho2, hc2⟩ := NextBlock_some manager w id hal
        rw [hnb]
        simp only
        rw [if_pos (by omega)]
        exact ⟨_, _, rfl⟩
    · rw [if_neg hfull]
      exact ⟨_, _, rfl⟩

/-- Witness of C9: the first call on a fresh writer claims block 100 and returns the pointer
`(100, 8)`; so does the second call, without claiming a block. -/
theorem GetMetaBlockPointer_idempotent_witness :
    ∃ w1 p, MetadataWriter.GetMetaBlockPointer ⟨10, fun n => some (n + 100), id⟩
        (MetadataWriter.new (fun _ _ => 0) 0) = Outcome.ok w1 p ∧
      MetadataWriter.GetMetaBlockPointer ⟨10, fun n => some (n + 100), id⟩ w1 =
        Outcome.ok w1 p ∧ p = (100, 8) ∧ w1.allocated = 1 := by
  have h := GetMetaBlockPointer_idempotent ⟨10, fun n => some (n + 100), id⟩
    (MetadataWriter.new (fun _ _ => 0) 0) (by decide)
  exact ⟨_, _, rfl, h.1 _ _ rfl, rfl, rfl⟩

/-- C10: in a state with `offset ≤ capacity` (every state with a claimed block is one), a
`WriteData` call of exactly `capacity - offset` bytes returns, allocates no block, keeps the
current block and ends with `offset = capacity`. In that state a `WriteData` of no bytes
and a `Flush` still claim nothing, while (with a block size above 8 and a manager that hands
out a block `id`) the next `GetMetaBlockPointer` claims exactly `id`, and the next
`WriteData` of at least one byte claims at least that one block. -/
theorem WriteData_exact_fill (manager : MetadataManager) (w : MetadataWriter)
    (buffer : List Nat) (hle : w.offset ≤ w.capacity)
    (hlen : buffer.length = w.capacity - w.offset) :
    ∃ w1, MetadataWriter.WriteData manager w buffer = Outcome.ok w1 () ∧
      w1.allocated = w.allocated ∧ w1.block = w.block ∧ w1.capacity = w.capacity ∧
      w1.offset = w1.capacity ∧
      MetadataWriter.WriteData manager w1 [] = Outcome.ok w1 () ∧
      (MetadataWriter.Flush w1).allocated = w.allocated ∧
      (8 < manager.METADATA_BLOCK_SIZE →
        ∀ id, manager.AllocateHandle w.allocated = some id →
        (∃ w2 p, MetadataWriter.GetMetaBlockPointer manager w1 = Outcome.ok w2 p ∧
          w2.allocated = w.allocated + 1 ∧ w2.block = id ∧ p = (id, 8)) ∧
        (∀ next, next ≠ [] →
          ∃ w2, (MetadataWriter.WriteData manager w1 next = Outcome.ok w2 () ∨
              MetadataWriter.WriteData manager w1 next = Outcome.alloc_failed w2) ∧
            w.allocated + 1 ≤ w2.allocated)) := by
  refine ⟨{ w with memory := writeBytes w.memory w.block w.offset buffer
                   offset := w.offset + buffer.length }, ?_, rfl, rfl, rfl, ?_, ?_, ?_, ?_⟩
  · unfold MetadataWriter.WriteData
    exact WriteData_loop_no_rollover manager _ w buffer (by omega)
  · simp only; omega
  · unfold MetadataWriter.WriteData
    rw [WriteData_loop_no_rollover manager _ _ [] (by simp only [List.length_nil]; omega)]
    simp only [writeBytes_nil, List.length_nil, Nat.add_zero]
  · unfold MetadataWriter.Flush
    split_ifs <;> rfl
  · intro hsize id hal
    constructor
    · obtain ⟨w2, hnb, ha2, hb2, ho2, hc2⟩ := NextBlock_some manager
        { w with memory := writeBytes w.memory w.block w.offset buffer
                 offset := w.offset + buffer.length } id hal
      refine ⟨w2, (id, 8), ?_, ha2, hb2, rfl⟩
      unfold MetadataWriter.GetMetaBlockPointer
      rw [if_pos (by simp only; omega), hnb]
      simp only
      rw [if_pos (by omega), hb2, ho2]
    · intro next hnext
      have hpos : 0 < next.length := List.length_pos.mpr hnext
      unfold MetadataWriter.WriteData
      rw [WriteData_loop_rollover manager next.length _ next (by simp only; omega)
        (by simp only; omega)]
      have hz : ¬ (w.capacity - (w.offset + buffer.length) > 0) := by omega
      simp only [if_neg hz]
      obtain ⟨w2, hnb, ha2, hb2, ho2, hc2⟩ := NextBlock_some manager
        { w with memory := writeBytes w.memory w.block w.offset buffer
                 offset := w.offset + buffer.length } id hal
      rw [hnb]
      simp only
      obtain ⟨w3, hloop, _, ha3⟩ := WriteData_loop_outcome manager hsize next.length w2 next
        (Or.inr ⟨hc2, by omega, by omega⟩) (by rw [ho2, hc2, if_neg (by omega)]; omega)
      exact ⟨w3, hloop, by simp only at ha2; omega⟩

/-- Witness of C10: blocks of 10 bytes, a claimed block 100 holding one payload byte
(`offset = 9`), and a write of exactly the one byte that is left. -/
theorem WriteData_exact_fill_witness :
    ∃ w1, MetadataWriter.WriteData ⟨10, fun n => some (n + 100), id⟩
        ⟨fun _ _ => 0, 100, 10, 9, 1⟩ [42] = Outcome.ok w1 () ∧
      w1.allocated = 1 ∧ w1.block = 100 ∧ w1.capacity = 10 ∧ w1.offset = w1.capacity :=
  let ⟨w1, h1, h2, h3, h4, h5, _⟩ :=
    WriteData_exact_fill ⟨10, fun n => some (n + 100), id⟩ ⟨fun _ _ => 0, 100, 10, 9, 1⟩ [42]
      (by decide) (by decide)
  ⟨w1, h1, h2, h3, h4, h5⟩

/-! ## Theorems: packing and unpacking -/

theorem fastpack_word_lt (values : Nat → Nat) (width : Nat) :
    ∀ n, fastpack.word values width n < 2 ^ (n * width) := by
  intro n
  induction n with
  | zero => simp [fastpack.word]
  | succ n ih =>
    simp only [fastpack.word]
    have hd : values n % 2 ^ width < 2 ^ width := Nat.mod_lt _ (by positivity)
    have e : 2 ^ ((n + 1) * width) = 2 ^ width * 2 ^ (n * width) := by
      rw [← pow_add]; congr 1; ring
    rw [e]
    calc fastpack.word values width n + values n % 2 ^ width * 2 ^ (n * width)
        < 2 ^ (n * width) + values n % 2 ^ width * 2 ^ (n * width) := by omega
      _ = (values n % 2 ^ width + 1) * 2 ^ (n * width) := by ring
      _ ≤ 2 ^ width * 2 ^ (n * width) := Nat.mul_le_mul_right _ hd

/-- The bits `[r * width, (r + 1) * width)` of the packed number are the low bits of value
`r`. -/
theorem fastpack_word_digit (values : Nat → Nat) (width : Nat) :
    ∀ n r, r < n →
      fastpack.word values width n / 2 ^ (r * width) % 2 ^ width = values r % 2 ^ width := by
  intro n
  induction n with
  | zero => intro r hr; omega
  | succ n ih =>
    intro r hr
    simp only [fastpack.word]
    rcases Nat.lt_succ_iff_lt_or_eq.mp hr with hlt | heq
    · have e : 2 ^ (n * width) = 2 ^ (r * width) * (2 ^ width * 2 ^ ((n - r - 1) * width)) := by
        rw [← pow_add, ← pow_add]; congr 1
        have : n = r + (n - r - 1) + 1 := by omega
        calc n * width = (r + (n - r - 1) + 1) * width := by rw [← this]
          _ = r * width + (width + (n - r - 1) * width) := by ring
      rw [e, ← mul_assoc, mul_comm (values n % 2 ^ width) (2 ^ (r * width)), mul_assoc,
        Nat.add_mul_div_left _ _ (by positivity), ← mul_assoc,
        mul_comm (values n % 2 ^ width) (2 ^ width), mul_assoc, Nat.add_mul_mod_self_left]
      exact ih r hlt
    · subst heq
      rw [Nat.add_mul_div_right _ _ (by positivity),
        Nat.div_eq_of_lt (fastpack_word_lt values width r), Nat.zero_add, Nat.mod_mod]

theorem fastpack_length (values : Nat → Nat) (width : Nat) :
    (fastpack values width).length = 4 * width := by
  unfold fastpack
  rw [toLittleEndian_length]
  omega

theorem map_range_eq_of_getD (l : List Nat) (f : Nat → Nat)
    (h : ∀ j, j < l.length → f j = l.getD j 0) : (List.range l.length).map f = l := by
  apply List.ext_getElem
  · simp
  · intro n h1 h2
    simp only [List.getElem_map, List.getElem_range]
    rw [h n h2, List.getD_eq_getElem _ _ h2]

/-- Modelled `fastunpack` inverts modelled `fastpack` up to the mask of `width` bits. -/
theorem fastunpack_fastpack (values : Nat → Nat) (width : Nat) (src : Nat → Nat)
    (h : ∀ j, j < 4 * width → src j = (fastpack values width).getD j 0)
    (r : Nat) (hr : r < 32) :
    fastunpack src width r = values r % 2 ^ width := by
  unfold fastunpack
  have e4 : 32 * width / 8 = 4 * width := by omega
  have hmap : (List.range (32 * width / 8)).map src = fastpack values width := by
    have := map_range_eq_of_getD (fastpack values width) src
      (by rw [fastpack_length]; exact h)
    rw [fastpack_length] at this
    rw [e4]; exact this
  rw [hmap]
  unfold fastpack
  rw [fromLittleEndian_toLittleEndian, e4]
  have hpow : 256 ^ (4 * width) = 2 ^ (32 * width) := by
    have : (256 : Nat) = 2 ^ 8 := by norm_num
    rw [this, ← pow_mul]; congr 1; ring
  rw [hpow, Nat.mod_eq_of_lt (fastpack_word_lt values width 32)]
  exact fastpack_word_digit values width 32 r hr

theorem writeAt_inside (buffer : Nat → Nat) (off : Nat) (data : List Nat) (i : Nat)
    (h1 : off ≤ i) (h2 : i < off + data.length) :
    writeAt buffer off data i = data.getD (i - off) 0 := by
  unfold writeAt
  rw [if_pos ⟨h1, h2⟩]

theorem writeAt_outside (buffer : Nat → Nat) (off : Nat) (data : List Nat) (i : Nat)
    (h : i < off ∨ off + data.length ≤ i) : writeAt buffer off data i = buffer i := by
  unfold writeAt
  rw [if_neg]
  intro hc
  omega

/-- What `PackGroup` leaves in the buffer: the packed group at `dst_off`, the rest as it
was. -/
theorem PackGroup_spec (T : IntType) (dst : Nat → Nat) (dst_off : Nat) (values : Nat → Int)
    (width : Nat) :
    (∀ j, j < 4 * width → PackGroup T dst dst_off values width (dst_off + j) =
      (fastpack (fun i => T.toUnsigned (values i)) width).getD j 0) ∧
    (∀ x, x < dst_off ∨ dst_off + 4 * width ≤ x →
      PackGroup T dst dst_off values width x = dst x) := by
  constructor
  · intro j hj
    unfold PackGroup
    rw [writeAt_inside _ _ _ _ (by omega) (by rw [fastpack_length]; omega)]
    congr 1; omega
  · intro x hx
    unfold PackGroup
    apply writeAt_outside
    rw [fastpack_length]
    exact hx

theorem group_offset (g width : Nat) : 32 * g * width / 8 = g * (4 * width) := by
  have e : 32 * g * width = 8 * (g * (4 * width)) := by ring
  rw [e, Nat.mul_div_cancel_left _ (by norm_num)]

/-- The loop of `PackBuffer` started at group `g`: every group from `g` on that begins
before `count` is packed at byte offset `g' * (4 * width)`; the bytes before group `g` and
the bytes behind the last group stay as they were. -/
theorem PackBuffer_loop_spec (T : IntType) (src : Nat → Int) (count width : Nat) :
    ∀ (fuel g : Nat) (dst : Nat → Nat), count ≤ 32 * g + 32 * fuel →
      (∀ g', g ≤ g' → 32 * g' < count → ∀ j, j < 4 * width →
        PackBuffer.loop T src count width fuel (32 * g) dst (g' * (4 * width) + j) =
          (fastpack (fun i => T.toUnsigned (src (32 * g' + i))) width).getD j 0) ∧
      (∀ x, x < g * (4 * width) →
        PackBuffer.loop T src count width fuel (32 * g) dst x = dst x) ∧
      (∀ x G, count ≤ 32 * G → G * (4 * width) ≤ x →
        PackBuffer.loop T src count width fuel (32 * g) dst x = dst x) := by
  intro fuel
  induction fuel with
  | zero =>
    intro g dst hfuel
    refine ⟨fun g' hg hlt => by omega, fun x _ => rfl, fun x G _ _ => rfl⟩
  | succ fuel ih =>
    intro g dst hfuel
    unfold PackBuffer.loop
    by_cases hlt : 32 * g < count
    · rw [if_pos hlt]
      have e1 : 32 * g + BITPACKING_ALGORITHM_GROUP_SIZE = 32 * (g + 1) := by
        unfold BITPACKING_ALGORITHM_GROUP_SIZE; omega
      rw [e1, group_offset]
      obtain ⟨ih1, ih2, ih3⟩ := ih (g + 1)
        (PackGroup T dst (g * (4 * width)) (fun k => src (32 * g + k)) width) (by omega)
      obtain ⟨pg1, pg2⟩ := PackGroup_spec T dst (g * (4 * width))
        (fun k => src (32 * g + k)) width
      have hsucc : (g + 1) * (4 * width) = g * (4 * width) + 4 * width := Nat.succ_mul _ _
      refine ⟨?_, ?_, ?_⟩
      · intro g' hg hg' j hj
        rcases Nat.eq_or_lt_of_le hg with heq | hgt
        · subst heq
          rw [ih2 _ (by omega), pg1 j hj]
        · exact ih1 g' (by omega) hg' j hj
      · intro x hx
        rw [ih2 x (by omega), pg2 x (Or.inl hx)]
      · intro x G hG hx
        rw [ih3 x G hG hx]
        apply pg2
        right
        have hgG : g + 1 ≤ G := by omega
        have := Nat.mul_le_mul_right (4 * width) hgG
        omega
    · rw [if_neg hlt]
      refine ⟨fun g' hg hlt' => by omega, fun x _ => rfl, fun x G _ _ => rfl⟩

/-- Every group of the input that begins before `count` is found packed at byte offset
`g * (4 * width)` of the output of `PackBuffer`, in both modes; its values are the input
values as far as the input goes. -/
theorem PackBuffer_group (T : IntType) (aligned : Bool) (tmp_buffer : Nat → Int)
    (dst : Nat → Nat) (src : Nat → Int) (count width : Nat) (g : Nat)
    (hg : 32 * g < count) :
    ∃ values : Nat → Int, (∀ k, 32 * g + k < count → values k = src (32 * g + k)) ∧
      ∀ j, j < 4 * width →
        PackBuffer T aligned tmp_buffer dst src count width (g * (4 * width) + j) =
          (fastpack (fun i => T.toUnsigned (values i)) width).getD j 0 := by
  cases aligned with
  | true =>
    refine ⟨fun k => src (32 * g + k), fun k _ => rfl, ?_⟩
    intro j hj
    unfold PackBuffer
    rw [if_pos rfl]
    exact (PackBuffer_loop_spec T src count width count 0 dst (by omega)).1 g (by omega) hg j hj
  | false =>
    unfold PackBuffer BITPACKING_ALGORITHM_GROUP_SIZE
    simp only [Bool.false_eq_true, if_false]
    have hcount : (if count % 32 ≠ 0 then count - count % 32 else count) = 32 * (count / 32) := by
      split_ifs <;> omega
    rw [hcount, group_offset]
    obtain ⟨l1, l2, l3⟩ := PackBuffer_loop_spec T src (32 * (count / 32)) width
      (32 * (count / 32)) 0 dst (by omega)
    by_cases hfull : 32 * g < 32 * (count / 32)
    · refine ⟨fun k => src (32 * g + k), fun k _ => rfl, ?_⟩
      intro j hj
      have hle : (g + 1) * (4 * width) ≤ count / 32 * (4 * width) :=
        Nat.mul_le_mul_right _ (by omega)
      rw [Nat.succ_mul] at hle
      split_ifs with hmis
      · rw [(PackGroup_spec T _ _ _ width).2 _ (Or.inl (by omega))]
        exact l1 g (by omega) hfull j hj
      · exact l1 g (by omega) hfull j hj
    · have hgeq : g = count / 32 := by omega
      have hmis : count % 32 ≠ 0 := by omega
      rw [if_pos hmis]
      refine ⟨fun k => if k < count % 32 then src (32 * (count / 32) + k) else tmp_buffer k,
        ?_, ?_⟩
      · intro k hk
        have hkm : k < count % 32 := by omega
        simp only [if_pos hkm, hgeq]
      · intro j hj
        rw [hgeq]
        exact (PackGroup_spec T _ _ _ width).1 j hj

theorem ApplyFrameOfReference_zero (T : IntType) (dst : Nat → Int) (base : Nat) :
    ApplyFrameOfReference T dst base 0 = dst := by
  unfold ApplyFrameOfReference
  rw [if_pos rfl]

/-- The loop of `UnPackBuffer` with frame of reference 0, started at group `g`: every
element from `32 * g` up to the end of the last group is the unsigned number unpacked from
its group; the elements before stay as they were. -/
theorem UnPackBuffer_loop_spec (T : IntType) (src : Nat → Nat) (count width : Nat)
    (skip : Bool) :
    ∀ (fuel g : Nat) (dst : Nat → Int), count ≤ 32 * g + 32 * fuel →
      (∀ k, 32 * g ≤ k → k < 32 * ((count + 31) / 32) →
        UnPackBuffer.loop T src count width 0 skip fuel (32 * g) dst k =
          T.ofUnsigned (fastunpack (fun j => src (k / 32 * (4 * width) + j)) width (k % 32))) ∧
      (∀ k, k < 32 * g →
        UnPackBuffer.loop T src count width 0 skip fuel (32 * g) dst k = dst k) := by
  intro fuel
  induction fuel with
  | zero =>
    intro g dst hfuel
    exact ⟨fun k h1 h2 => by omega, fun k _ => rfl⟩
  | succ fuel ih =>
    intro g dst hfuel
    unfold UnPackBuffer.loop
    by_cases hlt : 32 * g < count
    · rw [if_pos hlt]
      have e1 : 32 * g + BITPACKING_ALGORITHM_GROUP_SIZE = 32 * (g + 1) := by
        unfold BITPACKING_ALGORITHM_GROUP_SIZE; omega
      rw [e1, group_offset]
      obtain ⟨ih1, ih2⟩ := ih (g + 1)
        (UnPackGroup T dst (32 * g) src (g * (4 * width)) width 0 skip) (by omega)
      refine ⟨?_, ?_⟩
      · intro k h1 h2
        by_cases hk : k < 32 * (g + 1)
        · rw [ih2 k hk]
          unfold UnPackGroup
          simp only [ApplyFrameOfReference_zero]
          rw [if_pos ⟨h1, by omega⟩]
          have hq : k / 32 = g := by omega
          have hr : k % 32 = k - 32 * g := by omega
          rw [hq, hr]
        · exact ih1 k (by omega) h2
      · intro k hk
        rw [ih2 k (by omega)]
        unfold UnPackGroup
        simp only [ApplyFrameOfReference_zero]
        rw [if_neg (by omega)]
    · rw [if_neg hlt]
      exact ⟨fun k h1 h2 => by omega, fun k _ => rfl⟩

/-- What a round trip through `PackBuffer` and `UnPackBuffer` (frame of reference 0) gives
for each of the first `count` elements, for every type, width and mode: the low `width` bits
of the element's bit pattern, zero-extended and read as a `T`. -/
theorem UnPackBuffer_PackBuffer (T : IntType) (aligned skip : Bool)
    (tmp_buffer : Nat → Int) (dst : Nat → Nat) (out : Nat → Int) (src : Nat → Int)
    (count width : Nat) (i : Nat) (hi : i < count) :
    UnPackBuffer T out (PackBuffer T aligned tmp_buffer dst src count width) count width 0
      skip i = T.ofUnsigned (T.toUnsigned (src i) % 2 ^ width) := by
  unfold UnPackBuffer
  rw [(UnPackBuffer_loop_spec T _ count width skip count 0 out (by omega)).1 i (by omega)
    (by omega)]
  obtain ⟨values, hv, hp⟩ := PackBuffer_group T aligned tmp_buffer dst src count width (i / 32)
    (by omega)
  rw [fastunpack_fastpack (fun k => T.toUnsigned (values k)) width _ hp (i % 32)
    (Nat.mod_lt _ (by norm_num))]
  have hidx : 32 * (i / 32) + i % 32 = i := by omega
  rw [hv (i % 32) (by omega), hidx]

theorem toUnsigned_of_nonneg (T : IntType) (x : Int) (h0 : 0 ≤ x) (hr : T.InRange x) :
    T.toUnsigned x = x.toNat := by
  cases T <;>
    simp [IntType.InRange, IntType.Minimum, IntType.Maximum, IntType.is_signed, IntType.bits,
      IntType.sizeof] at hr <;>
    simp only [IntType.toUnsigned, IntType.bits, IntType.sizeof] <;>
    norm_num <;> omega

/-- A non-negative value below `2 ^ width` survives masking to `width` bits and
zero extension. -/
theorem ofUnsigned_mask_of_nonneg (T : IntType) (x : Int) (width : Nat) (h0 : 0 ≤ x)
    (hw : x < 2 ^ width) (hr : T.InRange x) :
    T.ofUnsigned (T.toUnsigned x % 2 ^ width) = x := by
  have hlt : T.toUnsigned x < 2 ^ width := by
    rw [toUnsigned_of_nonneg T x h0 hr]
    have : ((x.toNat : Nat) : Int) < ((2 ^ width : Nat) : Int) := by
      rw [Int.toNat_of_nonneg h0]; push_cast; exact hw
    exact_mod_cast this
  rw [Nat.mod_eq_of_lt hlt]
  exact cast_of_inRange T x hr

/-- Below the full width of the type, masking to `width` bits and zero extension never
give a negative value. -/
theorem ofUnsigned_mask_nonneg (T : IntType) (u width : Nat) (hw : width < T.bits) :
    0 ≤ T.ofUnsigned (u % 2 ^ width) := by
  have hlt : u % 2 ^ width < 2 ^ width := Nat.mod_lt _ (by positivity)
  have hle : 2 ^ width ≤ 2 ^ (T.bits - 1) := Nat.pow_le_pow_right (by norm_num) (by omega)
  have hle2 : 2 ^ (T.bits - 1) ≤ 2 ^ T.bits := Nat.pow_le_pow_right (by norm_num) (by omega)
  unfold IntType.ofUnsigned
  simp only
  rw [Nat.mod_eq_of_lt (by omega), if_neg (by intro hc; omega)]
  exact Int.natCast_nonneg _

/-- The round trip holds for every element that is non-negative and below `2 ^ width`, for
every type and in both modes of `PackBuffer`. -/
theorem UnPackBuffer_PackBuffer_of_nonneg (T : IntType) (aligned skip : Bool)
    (tmp_buffer : Nat → Int) (dst : Nat → Nat) (out : Nat → Int) (src : Nat → Int)
    (count width : Nat) (i : Nat) (hi : i < count) (hr : T.InRange (src i))
    (h0 : 0 ≤ src i) (hw : src i < 2 ^ width) :
    UnPackBuffer T out (PackBuffer T aligned tmp_buffer dst src count width) count width 0
      skip i = src i := by
  rw [UnPackBuffer_PackBuffer T aligned skip tmp_buffer dst out src count width i hi]
  exact ofUnsigned_mask_of_nonneg T (src i) width h0 hw hr

/-- The round trip of C1 holds for the unsigned types: at every width from
`MinimumBitWidth` up, unpacking the packed array with frame of reference 0 gives back each of
the first `count` elements. -/
theorem UnPackBuffer_PackBuffer_unsigned (T : IntType) (hs : T.is_signed = false)
    (DEBUG aligned skip : Bool) (tmp_buffer : Nat → Int) (dst : Nat → Nat) (out : Nat → Int)
    (src : Nat → Int) (count width : Nat) (hc : 0 < count)
    (hr : ∀ i, i < count → T.InRange (src i))
    (b : Nat) (hb : MinimumBitWidth T DEBUG src count = some b) (hbw : b ≤ width) :
    ∀ i, i < count →
      UnPackBuffer T out (PackBuffer T aligned tmp_buffer dst src count width) count width 0
        skip i = src i := by
  intro i hi
  obtain ⟨mx, hmx⟩ := exists_isMaxOf src count hc
  obtain ⟨hm0, ht⟩ := MinimumBitWidth_unsigned T hs DEBUG src count hc hr mx hmx
  rw [ht] at hb
  injection hb with hb
  have h0 : 0 ≤ src i := by
    have := (hr i hi).1
    simpa [IntType.Minimum, hs] using this
  have hle := hmx.2 i hi
  have hpow : (2 : Int) ^ b ≤ 2 ^ width := pow_le_pow_right₀ (by norm_num) hbw
  apply UnPackBuffer_PackBuffer_of_nonneg T aligned skip tmp_buffer dst out src count width i hi
    (hr i hi) h0
  by_cases hz : mx = 0
  · have hone : (0 : Int) < 2 ^ width := by positivity
    omega
  · simp only [hz, if_false] at hb
    obtain ⟨m, hm⟩ := Int.eq_ofNat_of_zero_le hm0
    rw [hm] at hb hle
    simp only [Int.toNat_ofNat] at hb
    have hsz := Nat.lt_size_self m
    rcases getEffectiveWidth_cases T (Nat.size m) with ⟨_, he⟩ | ⟨_, he⟩
    · rw [he] at hb
      have hsz2 : (m : Int) < 2 ^ b := by rw [← hb]; exact_mod_cast hsz
      omega
    · rw [he] at hb
      have hmax := (hr i hi).2
      simp only [IntType.Maximum, hs, Bool.false_eq_true, if_false] at hmax
      rw [hb] at hmax
      omega

/-- The round trip of C1 fails for every negative element at every width below the full
width of the type: the decoded element is not negative. -/
theorem UnPackBuffer_PackBuffer_of_neg (T : IntType) (aligned skip : Bool)
    (tmp_buffer : Nat → Int) (dst : Nat → Nat) (out : Nat → Int) (src : Nat → Int)
    (count width : Nat) (i : Nat) (hi : i < count) (hneg : src i < 0)
    (hw : width < T.bits) :
    UnPackBuffer T out (PackBuffer T aligned tmp_buffer dst src count width) count width 0
      skip i ≠ src i := by
  rw [UnPackBuffer_PackBuffer T aligned skip tmp_buffer dst out src count width i hi]
  have := ofUnsigned_mask_nonneg T (T.toUnsigned (src i)) width hw
  omega

/-- C1 at a failing input: the `int8_t` array `[-1]` has minimum bit width 2; packed with
`PackBuffer` at width 2 and decoded with `UnPackBuffer` at width 2, frame of reference 0 and
`skip_sign_extension = false`, its element comes back as `3`, the two packed bits without a
sign extension, and not as `-1`. -/
theorem PackBuffer_UnPackBuffer_negative :
    MinimumBitWidth .int8_t true (arrayOf [-1]) 1 = some 2 ∧
    2 ≤ IntType.int8_t.bits ∧
    arrayOf [-1] 0 = -1 ∧
    UnPackBuffer .int8_t (fun _ => 0)
      (PackBuffer .int8_t false (fun _ => 0) (fun _ => 0) (arrayOf [-1]) 1 2) 1 2 0 false 0 = 3 ∧
    UnPackBuffer .int8_t (fun _ => 0)
      (PackBuffer .int8_t true (fun _ => 0) (fun _ => 0) (arrayOf [-1]) 1 2) 1 2 0 false 0 = 3 := by
  decide

/-! ## Theorems: the write cursor -/

theorem GetMetaBlockPointer_cases (manager : MetadataManager) (w : MetadataWriter) :
    (w.offset < w.capacity ∧
      MetadataWriter.GetMetaBlockPointer manager w = Outcome.ok w (w.block, w.offset)) ∨
    (w.capacity ≤ w.offset ∧ manager.AllocateHandle w.allocated = none ∧
      MetadataWriter.GetMetaBlockPointer manager w = Outcome.alloc_failed w) ∨
    (w.capacity ≤ w.offset ∧ ∃ id w1, manager.AllocateHandle w.allocated = some id ∧
      MetadataWriter.NextBlock manager w = Outcome.ok w1 () ∧
      w1.allocated = w.allocated + 1 ∧ w1.block = id ∧ w1.offset = 8 ∧
      w1.capacity = manager.METADATA_BLOCK_SIZE ∧
      MetadataWriter.GetMetaBlockPointer manager w =
        (if manager.METADATA_BLOCK_SIZE > 0 then Outcome.ok w1 (id, 8)
         else Outcome.assert_failed w1)) := by
  unfold MetadataWriter.GetMetaBlockPointer
  by_cases hfull : w.offset ≥ w.capacity
  · rw [if_pos hfull]
    cases hal : manager.AllocateHandle w.allocated with
    | none =>
      right; left
      rw [NextBlock_none manager w hal]
      exact ⟨hfull, rfl, rfl⟩
    | some id =>
      right; right
      obtain ⟨w1, hnb, ha, hb, ho, hc⟩ := NextBlock_some manager w id hal
      refine ⟨hfull, id, w1, rfl, hnb, ha, hb, ho, hc, ?_⟩
      rw [hnb]
      simp only [hc, hb, ho]
  · left
    rw [if_neg hfull]
    exact ⟨by omega, rfl⟩

/-- A call of `GetMetaBlockPointer` that returns leaves a well-shaped state. -/
theorem GetMetaBlockPointer_wellShaped (manager : MetadataManager)
    (hsize : 8 < manager.METADATA_BLOCK_SIZE) (w w1 : MetadataWriter) (p : Nat × Nat)
    (hw : WellShaped manager w)
    (h : MetadataWriter.GetMetaBlockPointer manager w = Outcome.ok w1 p) :
    WellShaped manager w1 := by
  rcases GetMetaBlockPointer_cases manager w with ⟨_, he⟩ | ⟨_, _, he⟩ |
    ⟨_, id, w2, _, _, _, _, ho, hc, he⟩
  · rw [he] at h
    injection h with h1 _
    rw [← h1]; exact hw
  · rw [he] at h
    exact absurd h (by simp)
  · rw [he, if_pos (by omega)] at h
    injection h with h1 _
    rw [← h1]
    right
    exact ⟨hc, by omega, by omega⟩

theorem Flush_fields (w : MetadataWriter) :
    (MetadataWriter.Flush w).block = w.block ∧ (MetadataWriter.Flush w).capacity = w.capacity ∧
    (MetadataWriter.Flush w).offset = w.offset ∧
    (MetadataWriter.Flush w).allocated = w.allocated := by
  unfold MetadataWriter.Flush
  split_ifs <;> exact ⟨rfl, rfl, rfl, rfl⟩

/-- With a block size above 8, every reachable writer state is well-shaped. -/
theorem Reachable_wellShaped (manager : MetadataManager)
    (hsize : 8 < manager.METADATA_BLOCK_SIZE) (w : MetadataWriter)
    (hw : Reachable manager w) : WellShaped manager w := by
  induction hw with
  | constructed memory block => left; exact ⟨rfl, rfl⟩
  | get_meta_block_pointer w w1 p _ h ih =>
    exact GetMetaBlockPointer_wellShaped manager hsize w w1 p ih h
  | get_block_pointer w w1 p _ h ih =>
    unfold MetadataWriter.GetBlockPointer at h
    cases hg : MetadataWriter.GetMetaBlockPointer manager w with
    | ok w2 q =>
      rw [hg] at h
      injection h with h1 _
      rw [← h1]
      exact GetMetaBlockPointer_wellShaped manager hsize w w2 q ih hg
    | alloc_failed w2 => rw [hg] at h; exact absurd h (by simp)
    | assert_failed w2 => rw [hg] at h; exact absurd h (by simp)
    | diverged => rw [hg] at h; exact absurd h (by simp)
  | write_data w w1 buffer _ h ih =>
    obtain ⟨w2, hout, hshape, _⟩ := WriteData_loop_outcome manager hsize (buffer.length + 1)
      w buffer ih (by split_ifs <;> omega)
    unfold MetadataWriter.WriteData at h
    rcases hout with hout | hout
    · rw [hout] at h
      injection h with h1 _
      rw [← h1]; exact hshape
    · rw [hout] at h
      exact absurd h (by simp)
  | write_data_thrown w w1 buffer _ h ih =>
    obtain ⟨w2, hout, hshape, _⟩ := WriteData_loop_outcome manager hsize (buffer.length + 1)
      w buffer ih (by split_ifs <;> omega)
    unfold MetadataWriter.WriteData at h
    rcases hout with hout | hout
    · rw [hout] at h
      exact absurd h (by simp)
    · rw [hout] at h
      injection h with h1
      rw [← h1]; exact hshape
  | flush w _ ih =>
    obtain ⟨_, hc, ho, _⟩ := Flush_fields w
    unfold WellShaped
    rw [hc, ho]
    exact ih

theorem WellShaped_offset_le (manager : MetadataManager) (w : MetadataWriter)
    (hw : WellShaped manager w) : w.offset ≤ w.capacity := by
  rcases hw with ⟨h1, h2⟩ | ⟨_, _, h3⟩
  · omega
  · exact h3

/-- C18: with a block size above the 8-byte header, every writer state reachable from the
constructor by calls of `GetMetaBlockPointer`, `GetBlockPointer`, `WriteData` and `Flush` has
either `capacity = 0` and `offset = 0`, or `capacity = METADATA_BLOCK_SIZE` and
`8 ≤ offset ≤ capacity`; and in such a state no call of `WriteData`, `GetMetaBlockPointer` or
`GetBlockPointer` ends in a failed assertion (nor does `WriteData` run on for ever). -/
theorem Reachable_cursor_invariant (manager : MetadataManager)
    (hsize : 8 < manager.METADATA_BLOCK_SIZE) (w : MetadataWriter)
    (hw : Reachable manager w) :
    ((w.capacity = 0 ∧ w.offset = 0) ∨
      (w.capacity = manager.METADATA_BLOCK_SIZE ∧ 8 ≤ w.offset ∧ w.offset ≤ w.capacity)) ∧
    (∀ buffer w1, MetadataWriter.WriteData manager w buffer ≠ Outcome.assert_failed w1) ∧
    (∀ buffer, MetadataWriter.WriteData manager w buffer ≠ Outcome.diverged) ∧
    (∀ w1, MetadataWriter.GetMetaBlockPointer manager w ≠ Outcome.assert_failed w1) ∧
    (∀ w1, MetadataWriter.GetBlockPointer manager w ≠ Outcome.assert_failed w1) := by
  have hshape := Reachable_wellShaped manager hsize w hw
  have hmeta : ∀ w1, MetadataWriter.GetMetaBlockPointer manager w ≠ Outcome.assert_failed w1 := by
    intro w1 h
    rcases GetMetaBlockPointer_cases manager w with ⟨_, he⟩ | ⟨_, _, he⟩ |
      ⟨_, id, w2, _, _, _, _, _, _, he⟩
    · rw [he] at h; exact absurd h (by simp)
    · rw [he] at h; exact absurd h (by simp)
    · rw [he, if_pos (by omega)] at h; exact absurd h (by simp)
  refine ⟨hshape, ?_, ?_, hmeta, ?_⟩
  · intro buffer w1 h
    obtain ⟨w2, hout, _, _⟩ := WriteData_loop_outcome manager hsize (buffer.length + 1)
      w buffer hshape (by split_ifs <;> omega)
    unfold MetadataWriter.WriteData at h
    rcases hout with hout | hout <;> rw [hout] at h <;> exact absurd h (by simp)
  · intro buffer h
    obtain ⟨w2, hout, _, _⟩ := WriteData_loop_outcome manager hsize (buffer.length + 1)
      w buffer hshape (by split_ifs <;> omega)
    unfold MetadataWriter.WriteData at h
    rcases hout with hout | hout <;> rw [hout] at h <;> exact absurd h (by simp)
  · intro w1 h
    unfold MetadataWriter.GetBlockPointer at h
    cases hg : MetadataWriter.GetMetaBlockPointer manager w with
    | ok w2 q => rw [hg] at h; exact absurd h (by simp)
    | alloc_failed w2 => rw [hg] at h; exact absurd h (by simp)
    | assert_failed w2 => exact hmeta w2 hg
    | diverged => rw [hg] at h; exact absurd h (by simp)

/-- Witness of C18: the state after `GetMetaBlockPointer` on a fresh writer, with blocks of
10 bytes. -/
theorem Reachable_cursor_invariant_witness :
    ∃ w1 p, MetadataWriter.GetMetaBlockPointer ⟨10, fun n => some (n + 100), id⟩
        (MetadataWriter.new (fun _ _ => 0) 0) = Outcome.ok w1 p ∧
      w1.capacity = 10 ∧ 8 ≤ w1.offset ∧ w1.offset ≤ w1.capacity :=
  ⟨_, _, rfl,
    ((Reachable_cursor_invariant ⟨10, fun n => some (n + 100), id⟩ (by decide) _
      (Reachable.get_meta_block_pointer _ _ _ (Reachable.constructed (fun _ _ => 0) 0)
        rfl)).1.resolve_left (by decide))⟩

theorem WriteData_nil_of_le (manager : MetadataManager) (w : MetadataWriter)
    (h : w.offset ≤ w.capacity) :
    MetadataWriter.WriteData manager w [] = Outcome.ok w () := by
  unfold MetadataWriter.WriteData
  rw [WriteData_loop_no_rollover manager _ w [] (by simp only [List.length_nil]; omega)]
  simp only [writeBytes_nil, List.length_nil, Nat.add_zero]

/-- C11: with a block size above the 8-byte header, `WriteData` with no bytes returns and
leaves every reachable writer state exactly as it is (block contents, current block,
capacity, offset, number of claimed blocks); so it does in the state the constructor leaves
and in every state with `offset = capacity`. -/
theorem WriteData_nothing (manager : MetadataManager)
    (hsize : 8 < manager.METADATA_BLOCK_SIZE) :
    (∀ w, Reachable manager w → MetadataWriter.WriteData manager w [] = Outcome.ok w ()) ∧
    (∀ memory block, MetadataWriter.WriteData manager (MetadataWriter.new memory block) [] =
      Outcome.ok (MetadataWriter.new memory block) ()) ∧
    (∀ w, w.offset = w.capacity → MetadataWriter.WriteData manager w [] = Outcome.ok w ()) :=
  ⟨fun w hw => WriteData_nil_of_le manager w
      (WellShaped_offset_le manager w (Reachable_wellShaped manager hsize w hw)),
    fun _ _ => WriteData_nil_of_le manager _ (le_refl 0),
    fun w h => WriteData_nil_of_le manager w (le_of_eq h)⟩

/-- Witness of C11: blocks of 10 bytes and the full block 100. -/
theorem WriteData_nothing_witness :
    MetadataWriter.WriteData ⟨10, fun n => some (n + 100), id⟩
      ⟨fun _ _ => 0, 100, 10, 10, 1⟩ [] = Outcome.ok ⟨fun _ _ => 0, 100, 10, 10, 1⟩ () :=
  (WriteData_nothing ⟨10, fun n => some (n + 100), id⟩ (by decide)).2.2 _ rfl

/-! ## Theorems: rollover linkage and flush -/

theorem Store_idx_t_NO_SUCCESSOR : Store_idx_t NO_SUCCESSOR = List.replicate 8 255 := by
  decide

theorem readBytes_Store_idx_t (memory : BlockMemory) (blk v : Nat) :
    readBytes (writeBytes memory blk 0 (Store_idx_t v)) blk 0 8 = Store_idx_t v := by
  have h := readBytes_writeBytes_same memory blk 0 (Store_idx_t v)
  rw [Store_idx_t_length] at h
  exact h

/-- C12: when `NextBlock` runs and the manager hands out a block `id` (a value of `idx_t`,
other than the current block when there is one), it returns; afterwards `id` is the current
block, its first 8 bytes are all ones, `offset = 8` and `capacity = METADATA_BLOCK_SIZE`.
With a block claimed before (`capacity > 0`), the first 8 bytes of that block now hold `id`,
its bytes from 8 on are unchanged, and so is every byte of every block other than these two;
with no block claimed before (`capacity = 0`), every byte of every block other than `id` is
unchanged. The bytes of `id` from 8 on are unchanged in both cases. -/
theorem NextBlock_linkage (manager : MetadataManager) (w : MetadataWriter) (id : Nat)
    (hal : manager.AllocateHandle w.allocated = some id) (hid : id < 2 ^ 64)
    (hfresh : 0 < w.capacity → id ≠ w.block) :
    ∃ w1, MetadataWriter.NextBlock manager w = Outcome.ok w1 () ∧
      w1.block = id ∧ w1.offset = 8 ∧ w1.capacity = manager.METADATA_BLOCK_SIZE ∧
      w1.allocated = w.allocated + 1 ∧
      readBytes w1.memory id 0 8 = List.replicate 8 255 ∧
      Load_idx_t w1.memory id = 2 ^ 64 - 1 ∧
      (∀ i, 8 ≤ i → w1.memory id i = w.memory id i) ∧
      (0 < w.capacity →
        readBytes w1.memory w.block 0 8 = Store_idx_t id ∧
        Load_idx_t w1.memory w.block = id ∧
        (∀ i, 8 ≤ i → w1.memory w.block i = w.memory w.block i) ∧
        (∀ b i, b ≠ w.block → b ≠ id → w1.memory b i = w.memory b i)) ∧
      (w.capacity = 0 → ∀ b i, b ≠ id → w1.memory b i = w.memory b i) := by
  have hsent : NO_SUCCESSOR < 2 ^ 64 := by unfold NO_SUCCESSOR; norm_num
  unfold MetadataWriter.NextBlock
  rw [hal]
  refine ⟨_, rfl, rfl, rfl, rfl, rfl, ?_, Load_Store_idx_t _ _ _ hsent, ?_, ?_, ?_⟩
  · show readBytes (writeBytes _ id 0 (Store_idx_t NO_SUCCESSOR)) id 0 8 = _
    rw [readBytes_Store_idx_t, Store_idx_t_NO_SUCCESSOR]
  · intro i hi
    show writeBytes _ id 0 (Store_idx_t NO_SUCCESSOR) id i = _
    rw [writeBytes_outside _ _ _ _ _ _ (Or.inr (by rw [Store_idx_t_length]; omega))]
    split_ifs with hc
    · rw [writeBytes_outside _ _ _ _ _ _ (Or.inr (by rw [Store_idx_t_length]; omega))]
    · rfl
  · intro hc
    have hne : w.block ≠ id := fun h => hfresh hc h.symm
    have hif : (if w.capacity > 0 then writeBytes w.memory w.block 0 (Store_idx_t id)
        else w.memory) = writeBytes w.memory w.block 0 (Store_idx_t id) := if_pos hc
    refine ⟨?_, ?_, ?_, ?_⟩
    · show readBytes (writeBytes _ id 0 (Store_idx_t NO_SUCCESSOR)) w.block 0 8 = _
      rw [hif, readBytes_congr _ (writeBytes w.memory w.block 0 (Store_idx_t id)) w.block 8 0
        (fun i _ _ => writeBytes_other_block _ _ _ _ _ i hne), readBytes_Store_idx_t]
    · show Load_idx_t (writeBytes _ id 0 (Store_idx_t NO_SUCCESSOR)) w.block = _
      rw [hif, Load_idx_t_congr _ (writeBytes w.memory w.block 0 (Store_idx_t id)) w.block
        (fun i _ => writeBytes_other_block _ _ _ _ _ i hne), Load_Store_idx_t _ _ _ hid]
    · intro i hi
      show writeBytes _ id 0 (Store_idx_t NO_SUCCESSOR) w.block i = _
      rw [hif, writeBytes_other_block _ _ _ _ _ _ hne,
        writeBytes_outside _ _ _ _ _ _ (Or.inr (by rw [Store_idx_t_length]; omega))]
    · intro b i hb1 hb2
      show writeBytes _ id 0 (Store_idx_t NO_SUCCESSOR) b i = _
      rw [hif, writeBytes_other_block _ _ _ _ _ _ hb2, writeBytes_other_block _ _ _ _ _ _ hb1]
  · intro hc b i hb
    have hif : (if w.capacity > 0 then writeBytes w.memory w.block 0 (Store_idx_t id)
        else w.memory) = w.memory := if_neg (by omega)
    show writeBytes _ id 0 (Store_idx_t NO_SUCCESSOR) b i = _
    rw [hif, writeBytes_other_block _ _ _ _ _ _ hb]

/-- Witness of C12: blocks of 10 bytes, the current block 100 is full, and the manager hands
out block 101. -/
theorem NextBlock_linkage_witness :
    ∃ w1, MetadataWriter.NextBlock ⟨10, fun n => some (n + 100), id⟩
        ⟨fun _ _ => 7, 100, 10, 10, 1⟩ = Outcome.ok w1 () ∧
      w1.block = 101 ∧ w1.offset = 8 ∧ w1.capacity = 10 ∧ w1.allocated = 2 ∧
      readBytes w1.memory 101 0 8 = List.replicate 8 255 ∧
      Load_idx_t w1.memory 100 = 101 :=
  let ⟨w1, h1, h2, h3, h4, h5, h6, _, _, h9, _⟩ :=
    NextBlock_linkage ⟨10, fun n => some (n + 100), id⟩ ⟨fun _ _ => 7, 100, 10, 10, 1⟩ 101
      rfl (by norm_num) (fun _ => by decide)
  ⟨w1, h1, h2, h3, h4, h5, h6, (h9 (by decide)).2.1⟩

theorem getD_replicate_zero (n k : Nat) : (List.replicate n 0).getD k 0 = 0 := by
  by_cases h : k < n
  · rw [List.getD_eq_getElem _ _ (by simpa using h)]
    simp
  · rw [List.getD_eq_default _ _ (by simpa using h)]

theorem writeBytes_writeBytes_same (memory : BlockMemory) (blk off : Nat) (data : List Nat) :
    writeBytes (writeBytes memory blk off data) blk off data = writeBytes memory blk off data := by
  funext b i
  unfold writeBytes
  split_ifs <;> rfl

/-- C13: in a state with `offset < capacity`, `Flush` sets the bytes `[offset, capacity)` of
the current block to 0 and leaves every other byte of that block, every byte of every other
block, the current block, the offset, the capacity and the number of claimed blocks as they
are; in a state with `offset ≥ capacity` it changes nothing; and `Flush` after `Flush` is
`Flush`. -/
theorem Flush_zero_fills (w : MetadataWriter) :
    (w.offset < w.capacity →
      (∀ i, w.offset ≤ i → i < w.capacity → (MetadataWriter.Flush w).memory w.block i = 0) ∧
      (∀ i, i < w.offset → (MetadataWriter.Flush w).memory w.block i = w.memory w.block i) ∧
      (∀ i, w.capacity ≤ i → (MetadataWriter.Flush w).memory w.block i = w.memory w.block i) ∧
      (∀ b i, b ≠ w.block → (MetadataWriter.Flush w).memory b i = w.memory b i)) ∧
    (w.capacity ≤ w.offset → MetadataWriter.Flush w = w) ∧
    (MetadataWriter.Flush w).block = w.block ∧
    (MetadataWriter.Flush w).capacity = w.capacity ∧
    (MetadataWriter.Flush w).offset = w.offset ∧
    (MetadataWriter.Flush w).allocated = w.allocated ∧
    MetadataWriter.Flush (MetadataWriter.Flush w) = MetadataWriter.Flush w := by
  obtain ⟨hb, hc, ho, ha⟩ := Flush_fields w
  refine ⟨?_, ?_, hb, hc, ho, ha, ?_⟩
  · intro hlt
    have hF : (MetadataWriter.Flush w).memory =
        writeBytes w.memory w.block w.offset (List.replicate (w.capacity - w.offset) 0) := by
      unfold MetadataWriter.Flush
      rw [if_pos hlt]
    rw [hF]
    refine ⟨?_, ?_, ?_, ?_⟩
    · intro i h1 h2
      rw [writeBytes_inside _ _ _ _ _ h1 (by rw [List.length_replicate]; omega)]
      exact getD_replicate_zero _ _
    · intro i hi
      exact writeBytes_outside _ _ _ _ _ _ (Or.inl hi)
    · intro i hi
      exact writeBytes_outside _ _ _ _ _ _ (Or.inr (by rw [List.length_replicate]; omega))
    · intro b i hne
      exact writeBytes_other_block _ _ _ _ _ _ hne
  · intro hge
    unfold MetadataWriter.Flush
    rw [if_neg (by omega)]
  · by_cases hlt : w.offset < w.capacity
    · have hF : MetadataWriter.Flush w =
          { w with memory := writeBytes w.memory w.block w.offset
                     (List.replicate (w.capacity - w.offset) 0) } := by
        unfold MetadataWriter.Flush
        rw [if_pos hlt]
      rw [hF]
      unfold MetadataWriter.Flush
      simp only [if_pos hlt, writeBytes_writeBytes_same]
    · have hF : MetadataWriter.Flush w = w := by
        unfold MetadataWriter.Flush
        rw [if_neg hlt]
      rw [hF, hF]

/-- Witness of C13: block 100 of 10 bytes with `offset = 9`; byte 9 is cleared, byte 8 is
kept. -/
theorem Flush_zero_fills_witness :
    (MetadataWriter.Flush ⟨fun _ _ => 7, 100, 10, 9, 1⟩).memory 100 9 = 0 ∧
    (MetadataWriter.Flush ⟨fun _ _ => 7, 100, 10, 9, 1⟩).memory 100 8 = 7 :=
  let h := (Flush_zero_fills ⟨fun _ _ => 7, 100, 10, 9, 1⟩).1 (by decide)
  ⟨h.1 9 (by decide) (by decide), h.2.1 8 (by decide)⟩

/-! ## Theorems: a failing allocation -/

/-- The room left in the current block and the bytes written fill the claimed blocks. -/
theorem ChainInv_room (manager : MetadataManager) (ids : Nat → Nat) (K : Nat)
    (w : MetadataWriter) (D : List Nat) (hinv : ChainInv manager ids K w D) :
    D.length + (w.capacity - w.offset) = w.allocated * (manager.METADATA_BLOCK_SIZE - 8) := by
  obtain ⟨hl0, hl1⟩ := ChainInv_length manager ids K w D hinv
  rcases Nat.eq_zero_or_pos w.allocated with hz | hp
  · obtain ⟨hc, ho, _⟩ := hinv.2.1 hz
    rw [hz, hl0 hz, hc, ho]
    simp
  · obtain ⟨hc, ho8, hoc, _⟩ := hinv.2.2 hp
    have hl := hl1 hp
    obtain ⟨n, hn⟩ : ∃ n, w.allocated = n + 1 := ⟨w.allocated - 1, by omega⟩
    rw [hn] at hl ⊢
    rw [Nat.succ_mul]
    simp only [Nat.add_sub_cancel] at hl
    omega

/-- What the invariant says to a reader of the chain. -/
theorem ChainInv_readChain (manager : MetadataManager) (ids : Nat → Nat) (K : Nat)
    (hids : HandsOut manager ids K) (w : MetadataWriter) (D : List Nat)
    (hinv : ChainInv manager ids K w D) (hp : 0 < w.allocated) :
    w.block = ids (w.allocated - 1) ∧
    readChain w.memory w.capacity w.block w.offset w.allocated (ids 0) = some D ∧
    Load_idx_t w.memory w.block = 2 ^ 64 - 1 := by
  obtain ⟨hle, _, h1⟩ := hinv
  obtain ⟨hc, ho8, hoc, hb, hlinks, hlast, hD⟩ := h1 hp
  refine ⟨hb, ?_, hlast⟩
  obtain ⟨n, hn⟩ : ∃ n, w.allocated = n + 1 := ⟨w.allocated - 1, by omega⟩
  have hinj : ∀ i j, i < w.allocated → j < w.allocated → ids i = ids j → i = j :=
    fun i j hi hj => hids.2.2.1 i j (by omega) (by omega)
  have := readChain_of_links w.memory ids w.capacity w.allocated w.offset hinj hlinks
    n 0 (by omega)
  rw [hD, hb, hc]
  rw [hn] at this ⊢
  rw [hc] at this
  simpa using this

/-- When the stream does not fit into the `K` blocks the manager can hand out, the loop of
`WriteData` stops at the failing allocation: all `K` blocks are claimed, the current block is
full, and the chain holds the written bytes and the part of the buffer that fitted. -/
theorem ChainInv_loop_thrown (manager : MetadataManager) (ids : Nat → Nat) (K : Nat)
    (hids : HandsOut manager ids K) (hfail : manager.AllocateHandle K = none) :
    ∀ (fuel : Nat) (w : MetadataWriter) (buffer D : List Nat),
      ChainInv manager ids K w D →
      buffer.length + (if w.offset = w.capacity then 1 else 0) ≤ fuel →
      K * (manager.METADATA_BLOCK_SIZE - 8) < D.length + buffer.length →
      ∃ w1, MetadataWriter.WriteData.loop manager fuel w buffer = Outcome.alloc_failed w1 ∧
        ChainInv manager ids K w1
          (D ++ buffer.take (K * (manager.METADATA_BLOCK_SIZE - 8) - D.length)) ∧
        w1.allocated = K ∧ w1.offset = w1.capacity := by
  have hsize := hids.1
  intro fuel
  induction fuel with
  | zero =>
    intro w buffer D hinv hfuel hlong
    have hle := ChainInv_offset_le manager ids K w D hinv
    have hroom := ChainInv_room manager ids K w D hinv
    have hmul := Nat.mul_le_mul_right (manager.METADATA_BLOCK_SIZE - 8) hinv.1
    split_ifs at hfuel <;> omega
  | succ fuel ih =>
    intro w buffer D hinv hfuel hlong
    have hle := ChainInv_offset_le manager ids K w D hinv
    have hroom := ChainInv_room manager ids K w D hinv
    have hmul := Nat.mul_le_mul_right (manager.METADATA_BLOCK_SIZE - 8) hinv.1
    rw [WriteData_loop_rollover manager fuel w buffer (by omega) hle]
    by_cases hcopy : w.capacity - w.offset > 0
    · simp only [if_pos hcopy]
      have htake : (buffer.take (w.capacity - w.offset)).length = w.capacity - w.offset := by
        rw [List.length_take]; omega
      have hinv1 := ChainInv_copy manager ids K hids w D (buffer.take (w.capacity - w.offset))
        hinv (by rw [htake]; omega)
      rw [htake] at hinv1
      by_cases hleft : w.allocated < K
      · obtain ⟨w2, hnb, hinv2, _, ho2, hc2⟩ :=
          ChainInv_NextBlock manager ids K hids _ _ hinv1 (by simp only; omega) hleft
        rw [hnb]
        simp only
        have hfuel2 : (buffer.drop (w.capacity - w.offset)).length +
            (if w2.offset = w2.capacity then 1 else 0) ≤ fuel := by
          rw [List.length_drop, ho2, hc2, if_neg (by omega)]
          split_ifs at hfuel <;> omega
        obtain ⟨w3, hloop, hinv3, ha3, ho3⟩ := ih w2 _ _ hinv2 hfuel2
          (by rw [List.length_append, htake, List.length_drop]; omega)
        refine ⟨w3, hloop, ?_, ha3, ho3⟩
        have hsplit : K * (manager.METADATA_BLOCK_SIZE - 8) - D.length =
            (w.capacity - w.offset) +
              (K * (manager.METADATA_BLOCK_SIZE - 8) -
                (D ++ buffer.take (w.capacity - w.offset)).length) := by
          rw [List.length_append, htake]; omega
        rw [hsplit, List.take_add, ← List.append_assoc]
        exact hinv3
      · have hK : w.allocated = K := by have := hinv.1; omega
        rw [NextBlock_none manager
          { w with
            memory := writeBytes w.memory w.block w.offset (buffer.take (w.capacity - w.offset))
            offset := w.offset + (w.capacity - w.offset) } (by simp only [hK]; exact hfail)]
        simp only
        refine ⟨_, rfl, ?_, hK, by simp only; omega⟩
        have hpre : K * (manager.METADATA_BLOCK_SIZE - 8) - D.length = w.capacity - w.offset := by
          rw [hK] at hroom; omega
        rw [hpre]
        exact hinv1
    · simp only [if_neg hcopy]
      have hfull : w.offset = w.capacity := by omega
      by_cases hleft : w.allocated < K
      · obtain ⟨w2, hnb, hinv2, _, ho2, hc2⟩ :=
          ChainInv_NextBlock manager ids K hids w D hinv hfull hleft
        rw [hnb]
        simp only
        have hfuel2 : buffer.length + (if w2.offset = w2.capacity then 1 else 0) ≤ fuel := by
          rw [ho2, hc2, if_neg (by omega)]
          rw [if_pos hfull] at hfuel
          omega
        exact ih w2 buffer D hinv2 hfuel2 hlong
      · have hK : w.allocated = K := by have := hinv.1; omega
        rw [NextBlock_none manager w (by rw [hK]; exact hfail)]
        simp only
        refine ⟨w, rfl, ?_, hK, hfull⟩
        have hpre : K * (manager.METADATA_BLOCK_SIZE - 8) - D.length = 0 := by
          rw [hK] at hroom; omega
        rw [hpre, List.take_zero, List.append_nil]
        exact hinv

/-- C17: let the manager hand out `K` pairwise distinct blocks and throw at the next
`AllocateHandle`, and let a `WriteData` call in a state that holds the stream `D` bring more
bytes than the `K` blocks can take. The call ends with the failure of `AllocateHandle`, in
the very state in which `NextBlock` was entered (a repeated `NextBlock` fails without a
change again): all `K` blocks are claimed, `offset = capacity`, and, when `K > 0`, the current
block is the last block handed out, its forward-link field holds all ones, and the chain
spells `D` followed by the part of the input that fitted. -/
theorem WriteData_allocation_failure (manager : MetadataManager) (ids : Nat → Nat) (K : Nat)
    (hids : HandsOut manager ids K) (hfail : manager.AllocateHandle K = none)
    (w : MetadataWriter) (D : List Nat) (hinv : ChainInv manager ids K w D)
    (buffer : List Nat)
    (hlong : K * (manager.METADATA_BLOCK_SIZE - 8) < D.length + buffer.length) :
    ∃ w1, MetadataWriter.WriteData manager w buffer = Outcome.alloc_failed w1 ∧
      MetadataWriter.NextBlock manager w1 = Outcome.alloc_failed w1 ∧
      w1.allocated = K ∧ w1.offset = w1.capacity ∧
      (0 < K →
        w1.block = ids (K - 1) ∧
        (w.allocated = K → w1.block = w.block) ∧
        Load_idx_t w1.memory w1.block = 2 ^ 64 - 1 ∧
        readChain w1.memory w1.capacity w1.block w1.offset K (ids 0) =
          some (D ++ buffer.take (K * (manager.METADATA_BLOCK_SIZE - 8) - D.length))) := by
  obtain ⟨w1, hloop, hinv1, ha1, ho1⟩ := ChainInv_loop_thrown manager ids K hids hfail
    (buffer.length + 1) w buffer D hinv (by split_ifs <;> omega) hlong
  refine ⟨w1, hloop, NextBlock_none manager w1 (by rw [ha1]; exact hfail), ha1, ho1, ?_⟩
  intro hp
  obtain ⟨hb, hr, hl⟩ := ChainInv_readChain manager ids K hids w1 _ hinv1 (by omega)
  rw [ha1] at hb hr
  refine ⟨hb, ?_, hl, hr⟩
  intro hK
  have hbw := (hinv.2.2 (by omega)).2.2.2.1
  rw [hb, hbw, hK]

/-- Witness of C17: blocks of 10 bytes (2 payload bytes), a manager that hands out block 100
and then throws, and a first write of 3 bytes: the bytes 1 and 2 are in block 100. -/
theorem WriteData_allocation_failure_witness :
    ∃ w1, MetadataWriter.WriteData ⟨10, fun n => if n = 0 then some 100 else none, id⟩
        (MetadataWriter.new (fun _ _ => 0) 0) [1, 2, 3] = Outcome.alloc_failed w1 ∧
      w1.allocated = 1 ∧ w1.offset = w1.capacity ∧ w1.block = 100 ∧
      Load_idx_t w1.memory w1.block = 2 ^ 64 - 1 ∧
      readChain w1.memory w1.capacity w1.block w1.offset 1 100 = some [1, 2] :=
  let ⟨w1, h1, _, h3, h4, h5⟩ :=
    WriteData_allocation_failure ⟨10, fun n => if n = 0 then some 100 else none, id⟩
      (fun _ => 100) 1
      ⟨by decide, fun n hn => by have hn0 : n = 0 := by omega
                                 subst hn0; rfl,
        fun i j hi hj _ => by omega, fun _ _ => by norm_num⟩
      rfl (MetadataWriter.new (fun _ _ => 0) 0) []
      (ChainInv_new _ _ _ _ _) [1, 2, 3] (by decide)
  ⟨w1, h1, h3, h4, (h5 (by decide)).1, (h5 (by decide)).2.2.1, (h5 (by decide)).2.2.2⟩

/-! ## Theorems: effective widths -/

theorem GetEffectiveWidth_eq (T : IntType) (w : Nat) :
    GetEffectiveWidth T w = if w + T.sizeof > T.sizeof * 8 then T.sizeof * 8 else w := by
  obtain ⟨_, h64, hb, _, _⟩ := bits_pos T
  unfold GetEffectiveWidth to_width_t
  simp only
  split_ifs
  · omega
  · rfl

/-- C19: with `n = sizeof(T) * 8`, the width `MinimumBitWidth` returns for a non-empty array
of in-range values is at most `n - sizeof(T)` or exactly `n`, and never above `n`; and
`GetEffectiveWidth` replaces a computed width `w` by `n` exactly when `w + sizeof(T) > n` and
returns it unchanged otherwise. -/
theorem MinimumBitWidth_effective (T : IntType) (DEBUG : Bool) (values : Nat → Int)
    (count : Nat) (hc : 0 < count) (hr : ∀ i, i < count → T.InRange (values i)) :
    (∃ b, MinimumBitWidth T DEBUG values count = some b ∧
      (b ≤ T.sizeof * 8 - T.sizeof ∨ b = T.sizeof * 8) ∧ b ≤ T.sizeof * 8) ∧
    (∀ w, GetEffectiveWidth T w = if w + T.sizeof > T.sizeof * 8 then T.sizeof * 8 else w) ∧
    (∀ w, (GetEffectiveWidth T w = T.sizeof * 8 ∧ w ≠ T.sizeof * 8 ↔
        w + T.sizeof > T.sizeof * 8 ∧ w ≠ T.sizeof * 8)) := by
  obtain ⟨h8, h64, hb, hs1, hs8⟩ := bits_pos T
  have hgew : ∀ w, (GetEffectiveWidth T w ≤ T.sizeof * 8 - T.sizeof ∨
      GetEffectiveWidth T w = T.sizeof * 8) ∧ GetEffectiveWidth T w ≤ T.sizeof * 8 := by
    intro w
    rw [GetEffectiveWidth_eq]
    split_ifs <;> omega
  refine ⟨?_, GetEffectiveWidth_eq T, ?_⟩
  · obtain ⟨mx, hmx⟩ := exists_isMaxOf values count hc
    obtain ⟨mn, hmn⟩ := exists_isMinOf values count hc
    cases hs : T.is_signed with
    | true =>
      by_cases hmin : mn = T.Minimum
      · obtain ⟨⟨j, hj, hjv⟩, _⟩ := hmn
        exact ⟨T.bits, MinimumBitWidth_signed_min T hs DEBUG values count hr j hj
          (hjv.trans hmin), Or.inr hb.symm, by omega⟩
      · obtain ⟨_, ht⟩ :=
          MinimumBitWidth_signed T hs DEBUG values count hc hr mn mx hmn hmx hmin
        refine ⟨_, ht, ?_⟩
        split_ifs
        · exact ⟨Or.inl (Nat.zero_le _), Nat.zero_le _⟩
        · exact hgew _
    | false =>
      obtain ⟨_, ht⟩ := MinimumBitWidth_unsigned T hs DEBUG values count hc hr mx hmx
      refine ⟨_, ht, ?_⟩
      split_ifs
      · exact ⟨Or.inl (Nat.zero_le _), Nat.zero_le _⟩
      · exact hgew _
  · intro w
    rw [GetEffectiveWidth_eq]
    split_ifs <;> omega

/-- Witness of C19: the `int16_t` array `[-5, 10, 3]`. -/
theorem MinimumBitWidth_effective_witness :
    ∃ b, MinimumBitWidth .int16_t true (arrayOf [-5, 10, 3]) 3 = some b ∧
      (b ≤ IntType.int16_t.sizeof * 8 - IntType.int16_t.sizeof ∨
        b = IntType.int16_t.sizeof * 8) ∧ b ≤ IntType.int16_t.sizeof * 8 :=
  (MinimumBitWidth_effective .int16_t true (arrayOf [-5, 10, 3]) 3 (by decide) (by decide)).1

/-! ## Theorems: frame of reference -/

theorem ofUnsigned_inRange (T : IntType) (u : Nat) : T.InRange (T.ofUnsigned u) := by
  cases T <;>
    simp only [IntType.InRange, IntType.Minimum, IntType.Maximum, IntType.ofUnsigned,
      IntType.is_signed, IntType.bits, IntType.sizeof, true_and, false_and, if_false,
      if_true, Bool.false_eq_true] <;>
    norm_num <;>
    (try split_ifs) <;> omega

/-- Adding two bit patterns modulo `2 ^ bits` is adding the values and casting to `T`. -/
theorem ofUnsigned_add_toUnsigned (T : IntType) (x f : Int) :
    T.ofUnsigned ((T.toUnsigned x + T.toUnsigned f) % 2 ^ T.bits) = T.cast (x + f) := by
  have h : (T.toUnsigned x + T.toUnsigned f) % 2 ^ T.bits = T.toUnsigned (x + f) := by
    cases T <;>
      simp only [IntType.toUnsigned, IntType.bits, IntType.sizeof] <;>
      norm_num <;> omega
  rw [h]
  rfl

/-- What `ApplyFrameOfReference` makes of an element of the group that holds a value of
`T`: the sum with the frame of reference, cast to `T`. -/
theorem ApplyFrameOfReference_inside (T : IntType) (dst : Nat → Int) (base : Nat) (f : Int)
    (k : Nat) (h1 : base ≤ k) (h2 : k < base + 32) (hr : T.InRange (dst k)) :
    ApplyFrameOfReference T dst base f k = T.cast (dst k + f) := by
  unfold ApplyFrameOfReference BITPACKING_ALGORITHM_GROUP_SIZE
  by_cases hf : f = 0
  · rw [if_pos hf, hf, Int.add_zero, cast_of_inRange T _ hr]
  · rw [if_neg hf]
    simp only [if_pos (And.intro h1 h2)]
    exact ofUnsigned_add_toUnsigned T _ _

theorem ApplyFrameOfReference_outside (T : IntType) (dst : Nat → Int) (base : Nat) (f : Int)
    (k : Nat) (h : k < base ∨ base + 32 ≤ k) :
    ApplyFrameOfReference T dst base f k = dst k := by
  unfold ApplyFrameOfReference BITPACKING_ALGORITHM_GROUP_SIZE
  split_ifs with hf
  · rfl
  · have hno : ¬ (base ≤ k ∧ k < base + 32) := by omega
    simp only [if_neg hno]

theorem UnPackGroup_inside (T : IntType) (dst : Nat → Int) (base : Nat) (src : Nat → Nat)
    (src_off width : Nat) (f : Int) (skip : Bool) (k : Nat) (h1 : base ≤ k)
    (h2 : k < base + 32) :
    UnPackGroup T dst base src src_off width f skip k =
      T.cast (T.ofUnsigned (fastunpack (fun j => src (src_off + j)) width (k - base)) + f) := by
  unfold UnPackGroup
  rw [ApplyFrameOfReference_inside T _ base f k h1 h2
    (by simp only [if_pos (And.intro h1 h2)]; exact ofUnsigned_inRange T _)]
  simp only [if_pos (And.intro h1 h2)]

theorem UnPackGroup_outside (T : IntType) (dst : Nat → Int) (base : Nat) (src : Nat → Nat)
    (src_off width : Nat) (f : Int) (skip : Bool) (k : Nat) (h : k < base ∨ base + 32 ≤ k) :
    UnPackGroup T dst base src src_off width f skip k = dst k := by
  unfold UnPackGroup
  rw [ApplyFrameOfReference_outside T _ base f k h]
  have hno : ¬ (base ≤ k ∧ k < base + 32) := by omega
  simp only [if_neg hno]

/-- The loop of `UnPackBuffer` with any frame of reference, started at group `g`: every
element from `32 * g` up to the end of the last group is the number unpacked from its group
plus the frame of reference, cast to `T`; all other elements stay as they were. -/
theorem UnPackBuffer_loop_frame_spec (T : IntType) (src : Nat → Nat) (count width : Nat)
    (f : Int) (skip : Bool) :
    ∀ (fuel g : Nat) (dst : Nat → Int), count ≤ 32 * g + 32 * fuel →
      (∀ k, 32 * g ≤ k → k < 32 * ((count + 31) / 32) →
        UnPackBuffer.loop T src count width f skip fuel (32 * g) dst k =
          T.cast (T.ofUnsigned
            (fastunpack (fun j => src (k / 32 * (4 * width) + j)) width (k % 32)) + f)) ∧
      (∀ k, k < 32 * g ∨ 32 * ((count + 31) / 32) ≤ k →
        UnPackBuffer.loop T src count width f skip fuel (32 * g) dst k = dst k) := by
  intro fuel
  induction fuel with
  | zero =>
    intro g dst hfuel
    exact ⟨fun k h1 h2 => by omega, fun k _ => rfl⟩
  | succ fuel ih =>
    intro g dst hfuel
    unfold UnPackBuffer.loop
    by_cases hlt : 32 * g < count
    · rw [if_pos hlt]
      have e1 : 32 * g + BITPACKING_ALGORITHM_GROUP_SIZE = 32 * (g + 1) := by
        unfold BITPACKING_ALGORITHM_GROUP_SIZE; omega
      rw [e1, group_offset]
      obtain ⟨ih1, ih2⟩ := ih (g + 1)
        (UnPackGroup T dst (32 * g) src (g * (4 * width)) width f skip) (by omega)
      refine ⟨?_, ?_⟩
      · intro k h1 h2
        by_cases hk : k < 32 * (g + 1)
        · rw [ih2 k (Or.inl hk), UnPackGroup_inside T dst _ src _ width f skip k h1 (by omega)]
          have hq : k / 32 = g := by omega
          have hr : k % 32 = k - 32 * g := by omega
          rw [hq, hr]
        · exact ih1 k (by omega) h2
      · intro k hk
        rw [ih2 k (by omega), UnPackGroup_outside T dst _ src _ width f skip k (by omega)]
    · rw [if_neg hlt]
      exact ⟨fun k h1 h2 => by omega, fun k _ => rfl⟩

/-- C14: for every type `T` of `bits` bits, every packed group, width and frame of reference
`f`, each of the 32 elements that `UnPackGroup` produces with frame `f` is the element it
produces with frame 0 plus `f`, taken modulo `2 ^ bits` and read as a `T`; the same holds
for every element `UnPackBuffer` produces; and with `f = 0` `ApplyFrameOfReference` leaves
the decoded group as it is. -/
theorem frame_of_reference_wraps (T : IntType) (dst : Nat → Int) (src : Nat → Nat)
    (width : Nat) (f : Int) (skip : Bool) :
    (∀ base src_off k, base ≤ k → k < base + 32 →
      UnPackGroup T dst base src src_off width f skip k =
        T.ofUnsigned
          ((UnPackGroup T dst base src src_off width 0 skip k + f) % 2 ^ T.bits).toNat) ∧
    (∀ count k, k < 32 * ((count + 31) / 32) →
      UnPackBuffer T dst src count width f skip k =
        T.ofUnsigned ((UnPackBuffer T dst src count width 0 skip k + f) % 2 ^ T.bits).toNat) ∧
    (∀ base, ApplyFrameOfReference T dst base 0 = dst) ∧
    (∀ base src_off k, base ≤ k → k < base + 32 →
      T.InRange (UnPackGroup T dst base src src_off width 0 skip k)) := by
  refine ⟨?_, ?_, fun base => ApplyFrameOfReference_zero T dst base, ?_⟩
  · intro base src_off k h1 h2
    rw [UnPackGroup_inside T dst base src src_off width f skip k h1 h2,
      UnPackGroup_inside T dst base src src_off width 0 skip k h1 h2, Int.add_zero,
      cast_of_inRange T _ (ofUnsigned_inRange T _)]
    rfl
  · intro count k hk
    unfold UnPackBuffer
    rw [(UnPackBuffer_loop_frame_spec T src count width f skip count 0 dst (by omega)).1 k
        (by omega) hk,
      (UnPackBuffer_loop_frame_spec T src count width 0 skip count 0 dst (by omega)).1 k
        (by omega) hk, Int.add_zero, cast_of_inRange T _ (ofUnsigned_inRange T _)]
    rfl
  · intro base src_off k h1 h2
    rw [UnPackGroup_inside T dst base src src_off width 0 skip k h1 h2, Int.add_zero,
      cast_of_inRange T _ (ofUnsigned_inRange T _)]
    exact ofUnsigned_inRange T _

/-- Witness of C14: `uint8_t`, a group whose first byte is 255 at width 8, and frame 1: the
element 255 wraps to 0. -/
theorem frame_of_reference_wraps_witness :
    UnPackGroup .uint8_t (fun _ => 0) 0 (fun _ => 255) 0 8 1 false 0 = 0 ∧
    UnPackGroup .uint8_t (fun _ => 0) 0 (fun _ => 255) 0 8 0 false 0 = 255 := by
  have h := (frame_of_reference_wraps .uint8_t (fun _ => 0) (fun _ => 255) 8 1 false).1 0 0 0
    (by decide) (by decide)
  have h0 : UnPackGroup .uint8_t (fun _ => 0) 0 (fun _ => 255) 0 8 0 false 0 = 255 := by
    decide
  rw [h0] at h
  exact ⟨h.trans (by decide), h0⟩

/-! ## Theorems: the layout of a packed buffer -/

theorem fastpack_word_congr (v1 v2 : Nat → Nat) (width : Nat) :
    ∀ n, (∀ k, k < n → v1 k = v2 k) → fastpack.word v1 width n = fastpack.word v2 width n := by
  intro n
  induction n with
  | zero => intro _; rfl
  | succ n ih =>
    intro h
    simp only [fastpack.word]
    rw [ih (fun k hk => h k (by omega)), h n (by omega)]

/-- Modelled `fastpack` looks at the 32 values of the group only. -/
theorem fastpack_congr (v1 v2 : Nat → Nat) (width : Nat) (h : ∀ k, k < 32 → v1 k = v2 k) :
    fastpack v1 width = fastpack v2 width := by
  unfold fastpack
  rw [fastpack_word_congr v1 v2 width 32 h]

/-- Modelled `fastunpack` looks at the `4 * width` bytes of the group only. -/
theorem fastunpack_congr (s1 s2 : Nat → Nat) (width i : Nat)
    (h : ∀ j, j < 4 * width → s1 j = s2 j) : fastunpack s1 width i = fastunpack s2 width i := by
  unfold fastunpack
  have e4 : 32 * width / 8 = 4 * width := by omega
  have hmap : (List.range (32 * width / 8)).map s1 = (List.range (32 * width / 8)).map s2 := by
    apply List.map_congr_left
    intro j hj
    rw [List.mem_range, e4] at hj
    exact h j hj
  rw [hmap]

/-- A buffer whose groups are packed one after the other and whose rest is `dst` has the
packed layout. -/
theorem layout_eq (T : IntType) (values : Nat → Int) (G width : Nat) (dst out : Nat → Nat)
    (hgrp : ∀ g, g < G → ∀ j, j < 4 * width → out (g * (4 * width) + j) =
      (fastpack (fun k => T.toUnsigned (values (32 * g + k))) width).getD j 0)
    (hrest : ∀ x, G * (4 * width) ≤ x → out x = dst x) :
    out = packedLayout T values G width dst := by
  funext x
  unfold packedLayout
  by_cases hx : x < G * (4 * width)
  · rw [if_pos hx]
    have hpos : 0 < 4 * width := by
      rcases Nat.eq_zero_or_pos (4 * width) with h0 | h0
      · rw [h0, Nat.mul_zero] at hx; omega
      · exact h0
    have hg : x / (4 * width) < G := (Nat.div_lt_iff_lt_mul hpos).mpr hx
    have hj : x % (4 * width) < 4 * width := Nat.mod_lt _ hpos
    have hsplit : x / (4 * width) * (4 * width) + x % (4 * width) = x := by
      rw [Nat.mul_comm]; exact Nat.div_add_mod x (4 * width)
    have := hgrp (x / (4 * width)) hg (x % (4 * width)) hj
    rw [hsplit] at this
    exact this
  · rw [if_neg hx]
    exact hrest x (by omega)

theorem packedLayout_congr (T : IntType) (v1 v2 : Nat → Int) (G width : Nat)
    (dst : Nat → Nat) (h : ∀ k, k < 32 * G → v1 k = v2 k) :
    packedLayout T v1 G width dst = packedLayout T v2 G width dst := by
  funext x
  unfold packedLayout
  by_cases hx : x < G * (4 * width)
  · rw [if_pos hx, if_pos hx]
    have hpos : 0 < 4 * width := by
      rcases Nat.eq_zero_or_pos (4 * width) with h0 | h0
      · rw [h0, Nat.mul_zero] at hx; omega
      · exact h0
    have hg : x / (4 * width) < G := (Nat.div_lt_iff_lt_mul hpos).mpr hx
    rw [fastpack_congr _ _ width (fun k hk => by rw [h (32 * (x / (4 * width)) + k) (by omega)])]
  · rw [if_neg hx, if_neg hx]

theorem packedLayout_group (T : IntType) (values : Nat → Int) (G width : Nat)
    (dst : Nat → Nat) (g : Nat) (hg : g < G) (j : Nat) (hj : j < 4 * width) :
    packedLayout T values G width dst (g * (4 * width) + j) =
      (fastpack (fun k => T.toUnsigned (values (32 * g + k))) width).getD j 0 := by
  unfold packedLayout
  have hle : (g + 1) * (4 * width) ≤ G * (4 * width) := Nat.mul_le_mul_right _ (by omega)
  rw [Nat.succ_mul] at hle
  rw [if_pos (by omega)]
  have hq : (g * (4 * width) + j) / (4 * width) = g := by
    rw [Nat.add_comm, Nat.add_mul_div_right _ _ (by omega), Nat.div_eq_of_lt hj, Nat.zero_add]
  have hr : (g * (4 * width) + j) % (4 * width) = j := by
    rw [Nat.add_comm, Nat.add_mul_mod_self_right, Nat.mod_eq_of_lt hj]
  rw [hq, hr]

theorem packedLayout_rest (T : IntType) (values : Nat → Int) (G width : Nat)
    (dst : Nat → Nat) (x : Nat) (hx : G * (4 * width) ≤ x) :
    packedLayout T values G width dst x = dst x := by
  unfold packedLayout
  rw [if_neg (by omega)]

/-- The output of `PackBuffer` on aligned input assumed: the groups of `src`, one for each
started 32 elements of `count`. -/
theorem PackBuffer_aligned_layout (T : IntType) (tmp_buffer : Nat → Int) (dst : Nat → Nat)
    (src : Nat → Int) (count width : Nat) :
    PackBuffer T true tmp_buffer dst src count width =
      packedLayout T src ((count + 31) / 32) width dst := by
  obtain ⟨l1, _, l3⟩ := PackBuffer_loop_spec T src count width count 0 dst (by omega)
  apply layout_eq
  · intro g hg j hj
    unfold PackBuffer
    rw [if_pos rfl]
    exact l1 g (by omega) (by omega) j hj
  · intro x hx
    unfold PackBuffer
    rw [if_pos rfl]
    exact l3 x ((count + 31) / 32) (by omega) hx

/-- The output of `PackBuffer` in its default mode: the groups of the input, the last one
filled up from position `count % 32` on with what `tmp_buffer` holds there. -/
theorem PackBuffer_unaligned_layout (T : IntType) (tmp_buffer : Nat → Int) (dst : Nat → Nat)
    (src : Nat → Int) (count width : Nat) :
    PackBuffer T false tmp_buffer dst src count width =
      packedLayout T
        (fun k => if k < count then src k else tmp_buffer (k - 32 * (count / 32)))
        ((count + 31) / 32) width dst := by
  have hcount : (if count % 32 ≠ 0 then count - count % 32 else count) = 32 * (count / 32) := by
    split_ifs <;> omega
  obtain ⟨l1, _, l3⟩ := PackBuffer_loop_spec T src (32 * (count / 32)) width
    (32 * (count / 32)) 0 dst (by omega)
  have hout : PackBuffer T false tmp_buffer dst src count width =
      if count % 32 ≠ 0 then
        PackGroup T (PackBuffer.loop T src (32 * (count / 32)) width (32 * (count / 32)) 0 dst)
          (count / 32 * (4 * width))
          (fun k => if k < count % 32 then src (32 * (count / 32) + k) else tmp_buffer k) width
      else PackBuffer.loop T src (32 * (count / 32)) width (32 * (count / 32)) 0 dst := by
    unfold PackBuffer BITPACKING_ALGORITHM_GROUP_SIZE
    simp only [Bool.false_eq_true, if_false]
    rw [hcount, group_offset]
  rw [hout]
  apply layout_eq
  · intro g hg j hj
    have hfp : ∀ g', 32 * g' < 32 * (count / 32) →
        fastpack (fun i => T.toUnsigned (src (32 * g' + i))) width =
        fastpack (fun k => T.toUnsigned
          ((fun k => if k < count then src k else tmp_buffer (k - 32 * (count / 32)))
            (32 * g' + k))) width := by
      intro g' hg'
      apply fastpack_congr
      intro k hk
      have hlt : 32 * g' + k < count := by omega
      simp only [if_pos hlt]
    by_cases hfull : 32 * g < 32 * (count / 32)
    · have hle : (g + 1) * (4 * width) ≤ count / 32 * (4 * width) :=
        Nat.mul_le_mul_right _ (by omega)
      rw [Nat.succ_mul] at hle
      split_ifs with hmis
      · rw [(PackGroup_spec T _ _ _ width).2 _ (Or.inl (by omega)),
          l1 g (by omega) hfull j hj, hfp g hfull]
      · rw [l1 g (by omega) hfull j hj, hfp g hfull]
    · have hgeq : g = count / 32 := by omega
      have hmis : count % 32 ≠ 0 := by omega
      rw [if_pos hmis, hgeq, (PackGroup_spec T _ _ _ width).1 j hj]
      congr 2
      funext k
      by_cases hk : k < count % 32
      · have hlt : 32 * (count / 32) + k < count := by omega
        simp only [if_pos hk, if_pos hlt]
      · have hlt : ¬ 32 * (count / 32) + k < count := by omega
        simp only [if_neg hk, if_neg hlt, Nat.add_sub_cancel_left]
  · intro x hx
    split_ifs with hmis
    · have hceil : (count + 31) / 32 = count / 32 + 1 := by omega
      rw [hceil, Nat.succ_mul] at hx
      rw [(PackGroup_spec T _ _ _ width).2 _ (Or.inr hx)]
      exact l3 x (count / 32) (le_refl _) (by omega)
    · have hceil : (count + 31) / 32 = count / 32 := by omega
      rw [hceil] at hx
      exact l3 x (count / 32) (le_refl _) hx

/-! ## Theorems: the trailing group, sign extension and the required size -/

/-- C15, counterexample: one `uint8_t` element `5` at width 8, so `count % 32 = 1`. With a
scratch buffer that holds ones when `PackBuffer` is entered, byte 1 of the output is `1`,
while packing the input extended with zeros to 32 elements gives `0` there; with a scratch
buffer that holds zeros the same input and width give `0`. -/
theorem PackBuffer_trailing_group_counterexample :
    1 % 32 ≠ 0 ∧
    PackBuffer .uint8_t false (fun _ => 1) (fun _ => 0) (arrayOf [5]) 1 8 1 = 1 ∧
    (∀ k, 1 ≤ k → k < 32 → arrayOf [5] k = 0) ∧
    PackBuffer .uint8_t false (fun _ => 1) (fun _ => 0) (arrayOf [5]) 32 8 1 = 0 ∧
    PackBuffer .uint8_t false (fun _ => 0) (fun _ => 0) (arrayOf [5]) 1 8 1 = 0 := by
  decide

/-- C15, amended: for every count that is not a multiple of 32, the output of `PackBuffer`
in its default mode equals the output of packing the input extended to the next multiple of
32 with the elements the scratch buffer holds at the positions from `count % 32` on (so with
zeros, when the scratch buffer holds zeros there); and it is determined by the first `count`
input elements, the width, the scratch buffer and the destination. -/
theorem PackBuffer_trailing_group (T : IntType) (tmp_buffer : Nat → Int) (dst : Nat → Nat)
    (src : Nat → Int) (count width : Nat) (hmis : count % 32 ≠ 0) :
    PackBuffer T false tmp_buffer dst src count width =
      PackBuffer T false tmp_buffer dst
        (fun k => if k < count then src k else tmp_buffer (k - 32 * (count / 32)))
        (32 * (count / 32) + 32) width ∧
    ((∀ k, count % 32 ≤ k → k < 32 → tmp_buffer k = 0) →
      PackBuffer T false tmp_buffer dst src count width =
        PackBuffer T false tmp_buffer dst (fun k => if k < count then src k else 0)
          (32 * (count / 32) + 32) width) ∧
    (∀ src' : Nat → Int, (∀ k, k < count → src' k = src k) →
      PackBuffer T false tmp_buffer dst src' count width =
        PackBuffer T false tmp_buffer dst src count width) := by
  have hceil : (count + 31) / 32 = count / 32 + 1 := by omega
  have hceil2 : (32 * (count / 32) + 32 + 31) / 32 = count / 32 + 1 := by omega
  refine ⟨?_, ?_, ?_⟩
  · rw [PackBuffer_unaligned_layout, PackBuffer_unaligned_layout, hceil, hceil2]
    apply packedLayout_congr
    intro k hk
    have hlt : k < 32 * (count / 32) + 32 := by omega
    simp only [if_pos hlt]
  · intro hzero
    rw [PackBuffer_unaligned_layout, PackBuffer_unaligned_layout, hceil, hceil2]
    apply packedLayout_congr
    intro k hk
    have hlt : k < 32 * (count / 32) + 32 := by omega
    simp only [if_pos hlt]
    by_cases hkc : k < count
    · simp only [if_pos hkc]
    · simp only [if_neg hkc]
      exact hzero _ (by omega) (by omega)
  · intro src' hsrc
    rw [PackBuffer_unaligned_layout, PackBuffer_unaligned_layout]
    apply packedLayout_congr
    intro k _
    by_cases hkc : k < count
    · simp only [if_pos hkc]
      exact hsrc k hkc
    · simp only [if_neg hkc]

/-- Witness of C15 (amended): one `uint8_t` element at width 8 and a scratch buffer of
ones. -/
theorem PackBuffer_trailing_group_witness :
    PackBuffer .uint8_t false (fun _ => 1) (fun _ => 0) (arrayOf [5]) 1 8 =
      PackBuffer .uint8_t false (fun _ => 1) (fun _ => 0)
        (fun k => if k < 1 then arrayOf [5] k else (fun _ => 1) (k - 32 * (1 / 32)))
        (32 * (1 / 32) + 32) 8 :=
  (PackBuffer_trailing_group .uint8_t (fun _ => 1) (fun _ => 0) (arrayOf [5]) 1 8
    (by decide)).1

theorem UnPackGroup_skip (T : IntType) (dst : Nat → Int) (base : Nat) (src : Nat → Nat)
    (src_off width : Nat) (f : Int) (skip : Bool) :
    UnPackGroup T dst base src src_off width f skip =
      UnPackGroup T dst base src src_off width f false := rfl

/-- Whatever `skip_sign_extension` says, below the full width of the type `UnPackBuffer`
with frame of reference 0 produces no negative element. -/
theorem UnPackBuffer_nonneg (T : IntType) (dst : Nat → Int) (src : Nat → Nat)
    (count width : Nat) (skip : Bool) (hw : width < T.bits) (k : Nat)
    (hk : k < 32 * ((count + 31) / 32)) :
    0 ≤ UnPackBuffer T dst src count width 0 skip k := by
  unfold UnPackBuffer
  rw [(UnPackBuffer_loop_frame_spec T src count width 0 skip count 0 dst (by omega)).1 k
    (by omega) hk, Int.add_zero, cast_of_inRange T _ (ofUnsigned_inRange T _)]
  unfold fastunpack
  exact ofUnsigned_mask_nonneg T _ width hw

/-- C16 at a failing input: `int8_t`, width 2, and a packed group whose first field is the
pattern `0b11`, with bit `width - 1` set. `UnPackBuffer` and `UnPackBlock` with frame of
reference 0 decode it to `3`, with `skip_sign_extension = false` as with `true`; a sign
extension would give `-1`. -/
theorem UnPackBuffer_sign_bit_set :
    fastunpack (fun j => if j = 0 then 3 else 0) 2 0 = 3 ∧
    3 / 2 ^ (2 - 1) % 2 = 1 ∧
    2 < IntType.int8_t.bits ∧
    UnPackBuffer .int8_t (fun _ => 0) (fun j => if j = 0 then 3 else 0) 1 2 0 false 0 = 3 ∧
    UnPackBlock .int8_t (fun _ => 0) (fun j => if j = 0 then 3 else 0) 2 0 false 0 = 3 ∧
    UnPackBuffer .int8_t (fun _ => 0) (fun j => if j = 0 then 3 else 0) 1 2 0 true 0 = 3 ∧
    UnPackBlock .int8_t (fun _ => 0) (fun j => if j = 0 then 3 else 0) 2 0 true 0 = 3 := by
  decide

theorem GetRequiredSize_eq_groups (count width : Nat)
    (hno : (count + 31) / 32 * 32 * width < 2 ^ 64) :
    GetRequiredSize count width = (count + 31) / 32 * (4 * width) := by
  have h8 : (count + 31) / 32 * 32 * width = 8 * ((count + 31) / 32 * (4 * width)) := by ring
  rcases Nat.eq_zero_or_pos width with hw | hw
  · subst hw
    simp [GetRequiredSize]
  · have hlt : (count + 31) / 32 * 32 < 2 ^ 64 :=
      lt_of_le_of_lt (Nat.le_mul_of_pos_right _ hw) hno
    unfold GetRequiredSize
    simp only
    rw [RoundUpToAlgorithmGroupSize_eq count hlt, Nat.mod_eq_of_lt hno, h8]
    simp

/-- C20: absent 64-bit overflow, for every count and width: `PackBuffer` in both modes
leaves the packed layout of `ceil(count / 32)` groups, group `g` in the `4 * width` bytes
from byte `32 * g * width / 8 = g * (4 * width)` on, one group right after the other, the
last one ending at `GetRequiredSize(count, width)`, and every byte from there on as it was;
`UnPackBuffer` fills exactly the elements of these groups, each from the bytes of its group,
and its result does not depend on the bytes from `GetRequiredSize(count, width)` on. -/
theorem packed_layout_within_required_size (T : IntType) (count width : Nat)
    (hno : (count + 31) / 32 * 32 * width < 2 ^ 64) :
    (count + 31) / 32 * (4 * width) = GetRequiredSize count width ∧
    (∀ g, 32 * g * width / 8 = g * (4 * width) ∧
      (g + 1) * (4 * width) = g * (4 * width) + 4 * width) ∧
    (∀ aligned tmp_buffer dst src, ∃ values : Nat → Int,
      (∀ i, i < count → values i = src i) ∧
      PackBuffer T aligned tmp_buffer dst src count width =
        packedLayout T values ((count + 31) / 32) width dst) ∧
    (∀ aligned tmp_buffer dst src x, GetRequiredSize count width ≤ x →
      PackBuffer T aligned tmp_buffer dst src count width x = dst x) ∧
    (∀ dst src f skip k, k < 32 * ((count + 31) / 32) →
      UnPackBuffer T dst src count width f skip k =
        T.cast (T.ofUnsigned
          (fastunpack (fun j => src (k / 32 * (4 * width) + j)) width (k % 32)) + f)) ∧
    (∀ dst src f skip k, 32 * ((count + 31) / 32) ≤ k →
      UnPackBuffer T dst src count width f skip k = dst k) ∧
    (∀ dst src src' f skip, (∀ x, x < GetRequiredSize count width → src x = src' x) →
      UnPackBuffer T dst src count width f skip =
        UnPackBuffer T dst src' count width f skip) := by
  have hreq := GetRequiredSize_eq_groups count width hno
  have hpack : ∀ aligned tmp_buffer dst src, ∃ values : Nat → Int,
      (∀ i, i < count → values i = src i) ∧
      PackBuffer T aligned tmp_buffer dst src count width =
        packedLayout T values ((count + 31) / 32) width dst := by
    intro aligned tmp_buffer dst src
    cases aligned with
    | true => exact ⟨src, fun _ _ => rfl, PackBuffer_aligned_layout T tmp_buffer dst src count width⟩
    | false =>
      exact ⟨_, fun i hi => by simp only [if_pos hi],
        PackBuffer_unaligned_layout T tmp_buffer dst src count width⟩
  refine ⟨hreq.symm, fun g => ⟨group_offset g width, Nat.succ_mul _ _⟩, hpack, ?_, ?_, ?_, ?_⟩
  · intro aligned tmp_buffer dst src x hx
    obtain ⟨values, _, hv⟩ := hpack aligned tmp_buffer dst src
    rw [hv]
    exact packedLayout_rest T values _ width dst x (by rw [← hreq]; exact hx)
  · intro dst src f skip k hk
    unfold UnPackBuffer
    exact (UnPackBuffer_loop_frame_spec T src count width f skip count 0 dst (by omega)).1 k
      (by omega) hk
  · intro dst src f skip k hk
    unfold UnPackBuffer
    exact (UnPackBuffer_loop_frame_spec T src count width f skip count 0 dst (by omega)).2 k
      (Or.inr hk)
  · intro dst src src' f skip hsrc
    funext k
    unfold UnPackBuffer
    obtain ⟨a1, a2⟩ := UnPackBuffer_loop_frame_spec T src count width f skip count 0 dst
      (by omega)
    obtain ⟨b1, b2⟩ := UnPackBuffer_loop_frame_spec T src' count width f skip count 0 dst
      (by omega)
    by_cases hk : k < 32 * ((count + 31) / 32)
    · rw [a1 k (by omega) hk, b1 k (by omega) hk]
      have hcong := fastunpack_congr (fun j => src (k / 32 * (4 * width) + j))
        (fun j => src' (k / 32 * (4 * width) + j)) width (k % 32)
        (by
          intro j hj
          apply hsrc
          rw [hreq]
          have hle : (k / 32 + 1) * (4 * width) ≤ (count + 31) / 32 * (4 * width) :=
            Nat.mul_le_mul_right _ (by omega)
          rw [Nat.succ_mul] at hle
          omega)
      rw [hcong]
    · rw [a2 k (Or.inr (by omega)), b2 k (Or.inr (by omega))]

/-- Witness of C20: 33 elements of `uint8_t` at width 3 take two groups and 24 bytes; byte 24
of the destination is not touched. -/
theorem packed_layout_within_required_size_witness :
    GetRequiredSize 33 3 = 24 ∧
    PackBuffer .uint8_t false (fun _ => 0) (fun _ => 9) (fun i => i) 33 3 24 = 9 :=
  let h := packed_layout_within_required_size .uint8_t 33 3 (by norm_num)
  ⟨h.1.symm.trans (by norm_num), h.2.2.2.1 false (fun _ => 0) (fun _ => 9) (fun i => i) 24
    (by rw [← h.1])⟩

/-! ## Theorems: writes of concatenated buffers -/

theorem writeBytes_append (memory : BlockMemory) (blk off : Nat) (a b : List Nat) :
    writeBytes (writeBytes memory blk off a) blk (off + a.length) b =
      writeBytes memory blk off (a ++ b) := by
  funext b' i
  unfold writeBytes
  simp only [List.length_append]
  by_cases h1 : b' = blk ∧ off + a.length ≤ i ∧ i < off + a.length + b.length
  · rw [if_pos h1, if_pos ⟨h1.1, by omega, by omega⟩,
      List.getD_append_right _ _ _ _ (by omega)]
    congr 1; omega
  · rw [if_neg h1]
    by_cases h2 : b' = blk ∧ off ≤ i ∧ i < off + a.length
    · rw [if_pos h2, if_pos ⟨h2.1, h2.2.1, by omega⟩, List.getD_append _ _ _ _ (by omega)]
    · rw [if_neg h2, if_neg]
      intro h3
      apply h1
      refine ⟨h3.1, ?_, by omega⟩
      by_contra h4
      exact h2 ⟨h3.1, h3.2.1, by omega⟩

/-- The rollover step of `WriteData` without the test `copy_amount > 0`: copying no byte
changes nothing. -/
theorem WriteData_loop_step (manager : MetadataManager) (fuel : Nat)
    (w : MetadataWriter) (buffer : List Nat) (h : w.offset + buffer.length > w.capacity)
    (hle : w.offset ≤ w.capacity) :
    MetadataWriter.WriteData.loop manager (fuel + 1) w buffer =
      (MetadataWriter.NextBlock manager
        { w with
          memory := writeBytes w.memory w.block w.offset (buffer.take (w.capacity - w.offset))
          offset := w.offset + (w.capacity - w.offset) }).andThen
        (fun w2 => MetadataWriter.WriteData.loop manager fuel w2
          (buffer.drop (w.capacity - w.offset))) := by
  rw [WriteData_loop_rollover manager fuel w buffer h hle]
  by_cases hc : w.capacity - w.offset > 0
  · simp only [if_pos hc]
    unfold Outcome.andThen
    rfl
  · have hz : w.capacity - w.offset = 0 := by omega
    simp only [if_neg hc, hz, List.take_zero, List.drop_zero, writeBytes_nil, Nat.add_zero]
    unfold Outcome.andThen
    rfl

theorem NextBlock_wellShaped (manager : MetadataManager)
    (hsize : 8 < manager.METADATA_BLOCK_SIZE) (w w1 : MetadataWriter)
    (h : MetadataWriter.NextBlock manager w = Outcome.ok w1 ()) :
    WellShaped manager w1 ∧ w1.offset = 8 ∧ w1.capacity = manager.METADATA_BLOCK_SIZE ∧
      w1.allocated = w.allocated + 1 := by
  cases hal : manager.AllocateHandle w.allocated with
  | none =>
    rw [NextBlock_none manager w hal] at h
    exact absurd h (by simp)
  | some id =>
    obtain ⟨w2, hnb, ha, _, ho, hc⟩ := NextBlock_some manager w id hal
    rw [hnb] at h
    injection h with h1 _
    rw [← h1]
    exact ⟨Or.inr ⟨hc, by omega, by omega⟩, ho, hc, ha⟩

theorem NextBlock_cases (manager : MetadataManager) (w : MetadataWriter) :
    (manager.AllocateHandle w.allocated = none ∧
      MetadataWriter.NextBlock manager w = Outcome.alloc_failed w) ∨
    ∃ w1, MetadataWriter.NextBlock manager w = Outcome.ok w1 () := by
  cases hal : manager.AllocateHandle w.allocated with
  | none => exact Or.inl ⟨rfl, NextBlock_none manager w hal⟩
  | some id =>
    obtain ⟨w2, hnb, _⟩ := NextBlock_some manager w id hal
    exact Or.inr ⟨w2, hnb⟩

/-- With a block size above 8, the loop of `WriteData` on a well-shaped state gives the same
outcome for every amount of fuel that is enough. -/
theorem WriteData_loop_fuel (manager : MetadataManager)
    (hsize : 8 < manager.METADATA_BLOCK_SIZE) :
    ∀ (f1 f2 : Nat) (w : MetadataWriter) (buffer : List Nat), WellShaped manager w →
      buffer.length + (if w.offset = w.capacity then 1 else 0) ≤ f1 →
      buffer.length + (if w.offset = w.capacity then 1 else 0) ≤ f2 →
      MetadataWriter.WriteData.loop manager f1 w buffer =
        MetadataWriter.WriteData.loop manager f2 w buffer := by
  intro f1
  induction f1 with
  | zero =>
    intro f2 w buffer hw h1 h2
    have hle := WellShaped_offset_le manager w hw
    have hroom : w.offset + buffer.length ≤ w.capacity := by
      split_ifs at h1 <;> omega
    rw [WriteData_loop_no_rollover manager 0 w buffer hroom,
      WriteData_loop_no_rollover manager f2 w buffer hroom]
  | succ f1 ih =>
    intro f2 w buffer hw h1 h2
    have hle := WellShaped_offset_le manager w hw
    by_cases hroom : w.offset + buffer.length ≤ w.capacity
    · rw [WriteData_loop_no_rollover manager _ w buffer hroom,
        WriteData_loop_no_rollover manager f2 w buffer hroom]
    · obtain ⟨f2', hf2⟩ : ∃ f2', f2 = f2' + 1 := ⟨f2 - 1, by split_ifs at h2 <;> omega⟩
      rw [hf2, WriteData_loop_step manager f1 w buffer (by omega) hle,
        WriteData_loop_step manager f2' w buffer (by omega) hle]
      rcases NextBlock_cases manager
        { w with
          memory := writeBytes w.memory w.block w.offset (buffer.take (w.capacity - w.offset))
          offset := w.offset + (w.capacity - w.offset) } with ⟨_, hnb⟩ | ⟨w2, hnb⟩
      · rw [hnb]
        rfl
      · rw [hnb]
        obtain ⟨hw2, ho2, hc2, _⟩ := NextBlock_wellShaped manager hsize _ w2 hnb
        show MetadataWriter.WriteData.loop manager f1 w2 _ =
          MetadataWriter.WriteData.loop manager f2' w2 _
        apply ih f2' w2 _ hw2
        · rw [List.length_drop, ho2, hc2, if_neg (by omega)]
          split_ifs at h1 <;> omega
        · rw [List.length_drop, ho2, hc2, if_neg (by omega)]
          rw [hf2] at h2
          split_ifs at h2 <;> omega

/-- With a block size above 8, on a well-shaped state the loop of `WriteData` on `a ++ b`
ends as the loop on `a` followed by the loop on `b`. -/
theorem WriteData_loop_append (manager : MetadataManager)
    (hsize : 8 < manager.METADATA_BLOCK_SIZE) (b : List Nat) :
    ∀ (n : Nat) (w : MetadataWriter) (a : List Nat) (f1 f2 : Nat), WellShaped manager w →
      a.length + (if w.offset = w.capacity then 1 else 0) ≤ n →
      (a ++ b).length + (if w.offset = w.capacity then 1 else 0) ≤ f1 →
      a.length + (if w.offset = w.capacity then 1 else 0) ≤ f2 →
      MetadataWriter.WriteData.loop manager f1 w (a ++ b) =
        (MetadataWriter.WriteData.loop manager f2 w a).andThen
          (fun w1 => MetadataWriter.WriteData.loop manager (b.length + 1) w1 b) := by
  intro n
  induction n with
  | zero =>
    intro w a f1 f2 hw hn h1 h2
    have hle := WellShaped_offset_le manager w hw
    have ha : a = [] := List.length_eq_zero.mp (by omega)
    subst ha
    rw [WriteData_loop_no_rollover manager f2 w [] (by simp only [List.length_nil]; omega)]
    simp only [writeBytes_nil, List.length_nil, Nat.add_zero, List.nil_append]
    show MetadataWriter.WriteData.loop manager f1 w b =
      MetadataWriter.WriteData.loop manager (b.length + 1) w b
    exact WriteData_loop_fuel manager hsize f1 (b.length + 1) w b hw
      (by simpa using h1) (by split_ifs <;> omega)
  | succ n ih =>
    intro w a f1 f2 hw hn h1 h2
    have hle := WellShaped_offset_le manager w hw
    rw [List.length_append] at h1
    by_cases hfit : w.offset + a.length ≤ w.capacity
    · rw [WriteData_loop_no_rollover manager f2 w a hfit]
      show MetadataWriter.WriteData.loop manager f1 w (a ++ b) =
        MetadataWriter.WriteData.loop manager (b.length + 1)
          { w with memory := writeBytes w.memory w.block w.offset a
                   offset := w.offset + a.length } b
      by_cases hfit2 : w.offset + (a ++ b).length ≤ w.capacity
      · rw [WriteData_loop_no_rollover manager f1 w (a ++ b) hfit2,
          WriteData_loop_no_rollover manager _ _ b
            (by rw [List.length_append] at hfit2; simp only; omega)]
        simp only [writeBytes_append, List.length_append, Nat.add_assoc]
      · rw [List.length_append] at hfit2
        obtain ⟨f1', hf1⟩ : ∃ f1', f1 = f1' + 1 := ⟨f1 - 1, by split_ifs at h1 <;> omega⟩
        rw [hf1, WriteData_loop_step manager f1' w (a ++ b)
            (by rw [List.length_append]; omega) hle,
          WriteData_loop_step manager b.length _ b (by simp only; omega)
            (by simp only; omega)]
        have htake : List.take (w.capacity - w.offset) (a ++ b) =
            a ++ List.take (w.capacity - (w.offset + a.length)) b := by
          rw [List.take_append_eq_append_take, List.take_of_length_le (by omega)]
          congr 2; omega
        have hdrop : List.drop (w.capacity - w.offset) (a ++ b) =
            List.drop (w.capacity - (w.offset + a.length)) b := by
          rw [List.drop_append_eq_append_drop, List.drop_of_length_le (by omega),
            List.nil_append]
          congr 1; omega
        have hoff : w.offset + a.length + (w.capacity - (w.offset + a.length)) =
            w.offset + (w.capacity - w.offset) := by omega
        simp only [htake, hdrop, hoff, writeBytes_append]
        rcases NextBlock_cases manager
          { w with
            memory := writeBytes w.memory w.block w.offset
              (a ++ List.take (w.capacity - (w.offset + a.length)) b)
            offset := w.offset + (w.capacity - w.offset) } with ⟨_, hnb⟩ | ⟨w2, hnb⟩
        · rw [hnb]
          rfl
        · rw [hnb]
          obtain ⟨hw2, ho2, hc2, _⟩ := NextBlock_wellShaped manager hsize _ w2 hnb
          show MetadataWriter.WriteData.loop manager f1' w2 _ =
            MetadataWriter.WriteData.loop manager b.length w2 _
          apply WriteData_loop_fuel manager hsize f1' b.length w2 _ hw2
          · rw [List.length_drop, ho2, hc2, if_neg (by omega)]
            rw [hf1] at h1
            split_ifs at h1 <;> omega
          · rw [List.length_drop, ho2, hc2, if_neg (by omega)]
            omega
    · obtain ⟨f1', hf1⟩ : ∃ f1', f1 = f1' + 1 := ⟨f1 - 1, by split_ifs at h1 <;> omega⟩
      obtain ⟨f2', hf2⟩ : ∃ f2', f2 = f2' + 1 := ⟨f2 - 1, by split_ifs at h2 <;> omega⟩
      rw [hf1, hf2, WriteData_loop_step manager f1' w (a ++ b)
          (by rw [List.length_append]; omega) hle,
        WriteData_loop_step manager f2' w a (by omega) hle,
        List.take_append_of_le_length (by omega), List.drop_append_of_le_length (by omega)]
      rcases NextBlock_cases manager
        { w with
          memory := writeBytes w.memory w.block w.offset (a.take (w.capacity - w.offset))
          offset := w.offset + (w.capacity - w.offset) } with ⟨_, hnb⟩ | ⟨w2, hnb⟩
      · rw [hnb]
        rfl
      · rw [hnb]
        obtain ⟨hw2, ho2, hc2, _⟩ := NextBlock_wellShaped manager hsize _ w2 hnb
        show MetadataWriter.WriteData.loop manager f1' w2 (a.drop (w.capacity - w.offset) ++ b) =
          (MetadataWriter.WriteData.loop manager f2' w2 (a.drop (w.capacity - w.offset))).andThen
            (fun w1 => MetadataWriter.WriteData.loop manager (b.length + 1) w1 b)
        apply ih w2 _ f1' f2' hw2
        · rw [List.length_drop, ho2, hc2, if_neg (by omega)]
          split_ifs at hn <;> omega
        · rw [List.length_append, List.length_drop, ho2, hc2, if_neg (by omega)]
          rw [hf1] at h1
          split_ifs at h1 <;> omega
        · rw [List.length_drop, ho2, hc2, if_neg (by omega)]
          rw [hf2] at h2
          split_ifs at h2 <;> omega

theorem andThen_ok (o : Outcome Unit) : o.andThen (fun w => Outcome.ok w ()) = o := by
  cases o <;> rfl

theorem WriteAll_cons (manager : MetadataManager) (w : MetadataWriter) (buffer : List Nat)
    (rest : List (List Nat)) :
    MetadataWriter.WriteAll manager w (buffer :: rest) =
      (MetadataWriter.WriteData manager w buffer).andThen
        (fun w1 => MetadataWriter.WriteAll manager w1 rest) := by
  rw [MetadataWriter.WriteAll]
  cases MetadataWriter.WriteData manager w buffer <;> rfl

/-- C21: with a block size above the 8-byte header, for every reachable writer state and all
byte sequences `a` and `b`, `WriteData` of `a ++ b` ends as `WriteData` of `a` followed by
`WriteData` of `b`: with the same outcome and the same state (block contents, current block,
capacity, offset, number of blocks taken from the manager), also when `AllocateHandle`
throws on the way. -/
theorem WriteData_append (manager : MetadataManager)
    (hsize : 8 < manager.METADATA_BLOCK_SIZE) (w : MetadataWriter)
    (hw : Reachable manager w) (a b : List Nat) :
    MetadataWriter.WriteData manager w (a ++ b) =
      (MetadataWriter.WriteData manager w a).andThen
        (fun w1 => MetadataWriter.WriteData manager w1 b) ∧
    MetadataWriter.WriteAll manager w [a ++ b] = MetadataWriter.WriteAll manager w [a, b] := by
  have hshape := Reachable_wellShaped manager hsize w hw
  have h1 : MetadataWriter.WriteData manager w (a ++ b) =
      (MetadataWriter.WriteData manager w a).andThen
        (fun w1 => MetadataWriter.WriteData manager w1 b) := by
    unfold MetadataWriter.WriteData
    exact WriteData_loop_append manager hsize b (a.length + 1) w a _ _ hshape
      (by split_ifs <;> omega) (by split_ifs <;> omega) (by split_ifs <;> omega)
  refine ⟨h1, ?_⟩
  rw [WriteAll_cons, WriteAll_cons]
  have h2 : ∀ w1, MetadataWriter.WriteAll manager w1 [b] =
      MetadataWriter.WriteData manager w1 b := by
    intro w1
    rw [WriteAll_cons]
    exact andThen_ok _
  simp only [h2]
  rw [← h1]
  exact andThen_ok _

/-- Witness of C21: blocks of 10 bytes, a fresh writer, `a = [1, 2, 3]` and `b = [4, 5]`. -/
theorem WriteData_append_witness :
    MetadataWriter.WriteData ⟨10, fun n => some (n + 100), id⟩
        (MetadataWriter.new (fun _ _ => 0) 0) ([1, 2, 3] ++ [4, 5]) =
      (MetadataWriter.WriteData ⟨10, fun n => some (n + 100), id⟩
        (MetadataWriter.new (fun _ _ => 0) 0) [1, 2, 3]).andThen
        (fun w1 => MetadataWriter.WriteData ⟨10, fun n => some (n + 100), id⟩ w1 [4, 5]) :=
  (WriteData_append ⟨10, fun n => some (n + 100), id⟩ (by decide) _
    (Reachable.constructed (fun _ _ => 0) 0) [1, 2, 3] [4, 5]).1

/-! ## Theorems: the number of blocks -/

theorem BlocksFilled_wellShaped (manager : MetadataManager) (w : MetadataWriter) (N : Nat)
    (h : BlocksFilled manager w N) : WellShaped manager w := by
  rcases Nat.eq_zero_or_pos w.allocated with hz | hp
  · exact Or.inl ⟨(h.1 hz).1, (h.1 hz).2.1⟩
  · exact Or.inr ⟨(h.2 hp).1, (h.2 hp).2.1, (h.2 hp).2.2.1⟩

/-- The bytes written and the room left in the current block fill the claimed blocks. -/
theorem BlocksFilled_room (manager : MetadataManager) (w : MetadataWriter) (N : Nat)
    (h : BlocksFilled manager w N) :
    N + (w.capacity - w.offset) = w.allocated * (manager.METADATA_BLOCK_SIZE - 8) := by
  rcases Nat.eq_zero_or_pos w.allocated with hz | hp
  · obtain ⟨hc, ho, hN⟩ := h.1 hz
    rw [hz, hc, ho, hN]
    simp
  · obtain ⟨hc, ho8, hoc, hN⟩ := h.2 hp
    obtain ⟨n, hn⟩ : ∃ n, w.allocated = n + 1 := ⟨w.allocated - 1, by omega⟩
    rw [hn] at hN ⊢
    rw [Nat.succ_mul]
    simp only [Nat.add_sub_cancel] at hN
    omega

theorem BlocksFilled_copy (manager : MetadataManager) (w : MetadataWriter) (N : Nat)
    (data : List Nat) (memory : BlockMemory) (h : BlocksFilled manager w N)
    (hroom : w.offset + data.length ≤ w.capacity) :
    BlocksFilled manager { w with memory := memory, offset := w.offset + data.length }
      (N + data.length) := by
  constructor
  · intro hz
    obtain ⟨hc, ho, hN⟩ := h.1 hz
    simp only at hz ⊢
    exact ⟨hc, by omega, by omega⟩
  · intro hp
    obtain ⟨hc, ho8, hoc, hN⟩ := h.2 hp
    simp only at hp ⊢
    exact ⟨hc, by omega, by omega, by omega⟩

theorem BlocksFilled_NextBlock (manager : MetadataManager)
    (hsize : 8 < manager.METADATA_BLOCK_SIZE) (w w1 : MetadataWriter) (N : Nat)
    (h : BlocksFilled manager w N) (hfull : w.offset = w.capacity)
    (hnb : MetadataWriter.NextBlock manager w = Outcome.ok w1 ()) :
    BlocksFilled manager w1 N ∧ w1.offset = 8 ∧
      w1.capacity = manager.METADATA_BLOCK_SIZE ∧ w1.allocated = w.allocated + 1 := by
  have hroom := BlocksFilled_room manager w N h
  obtain ⟨_, ho, hc, ha⟩ := NextBlock_wellShaped manager hsize w w1 hnb
  refine ⟨⟨fun hz => by omega, fun _ => ⟨hc, by omega, by omega, ?_⟩⟩, ho, hc, ha⟩
  rw [ha, ho]
  simp only [Nat.add_sub_cancel]
  omega

/-- With a block size above 8, the loop of `WriteData` keeps the bookkeeping of the stream:
it either returns, with every claimed block holding at least one byte, or it stops at an
`AllocateHandle` that throws, which is called only when the claimed blocks cannot hold the
stream. -/
theorem BlocksFilled_loop (manager : MetadataManager)
    (hsize : 8 < manager.METADATA_BLOCK_SIZE) :
    ∀ (fuel : Nat) (w : MetadataWriter) (buffer : List Nat) (N : Nat),
      BlocksFilled manager w N → (w.offset = 8 → buffer ≠ []) →
      buffer.length + (if w.offset = w.capacity then 1 else 0) ≤ fuel →
      (∃ w1, MetadataWriter.WriteData.loop manager fuel w buffer = Outcome.ok w1 () ∧
        BlocksFilled manager w1 (N + buffer.length) ∧ (0 < w1.allocated → 8 < w1.offset)) ∨
      (∃ w1, MetadataWriter.WriteData.loop manager fuel w buffer = Outcome.alloc_failed w1 ∧
        manager.AllocateHandle w1.allocated = none ∧
        w1.allocated * (manager.METADATA_BLOCK_SIZE - 8) < N + buffer.length) := by
  have hfit : ∀ (fuel : Nat) (w : MetadataWriter) (buffer : List Nat) (N : Nat),
      BlocksFilled manager w N → (w.offset = 8 → buffer ≠ []) →
      w.offset + buffer.length ≤ w.capacity →
      ∃ w1, MetadataWriter.WriteData.loop manager fuel w buffer = Outcome.ok w1 () ∧
        BlocksFilled manager w1 (N + buffer.length) ∧ (0 < w1.allocated → 8 < w1.offset) := by
    intro fuel w buffer N hinv hpre hroom
    rw [WriteData_loop_no_rollover manager fuel w buffer hroom]
    refine ⟨_, rfl, BlocksFilled_copy manager w N buffer _ hinv hroom, ?_⟩
    intro hp
    have ho8 := (hinv.2 hp).2.1
    rcases Nat.eq_or_lt_of_le ho8 with h8 | h8
    · have hlen : 0 < buffer.length := List.length_pos.mpr (hpre h8.symm)
      simp only
      omega
    · simp only
      omega
  intro fuel
  induction fuel with
  | zero =>
    intro w buffer N hinv hpre hfuel
    have hle := WellShaped_offset_le manager w (BlocksFilled_wellShaped manager w N hinv)
    exact Or.inl (hfit 0 w buffer N hinv hpre (by split_ifs at hfuel <;> omega))
  | succ fuel ih =>
    intro w buffer N hinv hpre hfuel
    have hle := WellShaped_offset_le manager w (BlocksFilled_wellShaped manager w N hinv)
    by_cases hroom : w.offset + buffer.length ≤ w.capacity
    · exact Or.inl (hfit _ w buffer N hinv hpre hroom)
    · rw [WriteData_loop_step manager fuel w buffer (by omega) hle]
      have htake : (buffer.take (w.capacity - w.offset)).length = w.capacity - w.offset := by
        rw [List.length_take]; omega
      have hinv1 := BlocksFilled_copy manager w N (buffer.take (w.capacity - w.offset))
        (writeBytes w.memory w.block w.offset (buffer.take (w.capacity - w.offset)))
        hinv (by rw [htake]; omega)
      rw [htake] at hinv1
      have hroom1 := BlocksFilled_room manager _ _ hinv1
      simp only at hroom1
      rcases NextBlock_cases manager
        { w with
          memory := writeBytes w.memory w.block w.offset (buffer.take (w.capacity - w.offset))
          offset := w.offset + (w.capacity - w.offset) } with ⟨hal, hnb⟩ | ⟨w2, hnb⟩
      · rw [hnb]
        right
        refine ⟨_, rfl, hal, ?_⟩
        simp only
        omega
      · rw [hnb]
        obtain ⟨hinv2, ho2, hc2, _⟩ :=
          BlocksFilled_NextBlock manager hsize _ w2 _ hinv1 (by simp only; omega) hnb
        have hlen : (buffer.drop (w.capacity - w.offset)).length =
            buffer.length - (w.capacity - w.offset) := List.length_drop _ _
        have hsum : N + (w.capacity - w.offset) + (buffer.drop (w.capacity - w.offset)).length =
            N + buffer.length := by rw [hlen]; omega
        have := ih w2 (buffer.drop (w.capacity - w.offset)) (N + (w.capacity - w.offset)) hinv2
          (fun _ => List.ne_nil_of_length_pos (by rw [hlen]; omega))
          (by rw [hlen, ho2, hc2, if_neg (by omega)]; split_ifs at hfuel <;> omega)
        rw [hsum] at this
        exact this

/-- A sequence of `WriteData` calls keeps the bookkeeping of the stream. -/
theorem BlocksFilled_WriteAll (manager : MetadataManager)
    (hsize : 8 < manager.METADATA_BLOCK_SIZE) :
    ∀ (writes : List (List Nat)) (w : MetadataWriter) (N : Nat),
      BlocksFilled manager w N → (0 < w.allocated → 8 < w.offset) →
      (∃ w1, MetadataWriter.WriteAll manager w writes = Outcome.ok w1 () ∧
        BlocksFilled manager w1 (N + writes.flatten.length) ∧
        (0 < w1.allocated → 8 < w1.offset)) ∨
      (∃ w1, MetadataWriter.WriteAll manager w writes = Outcome.alloc_failed w1 ∧
        manager.AllocateHandle w1.allocated = none ∧
        w1.allocated * (manager.METADATA_BLOCK_SIZE - 8) < N + writes.flatten.length) := by
  intro writes
  induction writes with
  | nil =>
    intro w N hinv hpost
    exact Or.inl ⟨w, rfl, by simpa using hinv, hpost⟩
  | cons buffer rest ih =>
    intro w N hinv hpost
    rw [WriteAll_cons]
    simp only [List.flatten_cons, List.length_append]
    have hpre : w.offset = 8 → buffer ≠ [] := by
      intro h8
      rcases Nat.eq_zero_or_pos w.allocated with hz | hp
      · have := (hinv.1 hz).2.1; omega
      · have := hpost hp; omega
    rcases BlocksFilled_loop manager hsize (buffer.length + 1) w buffer N hinv hpre
      (by split_ifs <;> omega) with ⟨w1, h1, hinv1, hpost1⟩ | ⟨w1, h1, hal, hlt⟩
    · unfold MetadataWriter.WriteData
      rw [h1]
      show (∃ w2, MetadataWriter.WriteAll manager w1 rest = Outcome.ok w2 () ∧ _) ∨
        (∃ w2, MetadataWriter.WriteAll manager w1 rest = Outcome.alloc_failed w2 ∧ _)
      rcases ih w1 (N + buffer.length) hinv1 hpost1 with ⟨w2, h2, hinv2, hpost2⟩ |
        ⟨w2, h2, hal2, hlt2⟩
      · left
        refine ⟨w2, h2, ?_, hpost2⟩
        rw [← Nat.add_assoc]; exact hinv2
      · right
        refine ⟨w2, h2, hal2, ?_⟩
        rw [← Nat.add_assoc]; exact hlt2
    · right
      unfold MetadataWriter.WriteData
      rw [h1]
      exact ⟨w1, rfl, hal, by omega⟩

/-- The number of claimed blocks, when each of them holds at least one byte. -/
theorem BlocksFilled_count (manager : MetadataManager)
    (hsize : 8 < manager.METADATA_BLOCK_SIZE) (w : MetadataWriter) (N : Nat)
    (hinv : BlocksFilled manager w N) (hpost : 0 < w.allocated → 8 < w.offset) :
    w.allocated = (N + (manager.METADATA_BLOCK_SIZE - 8) - 1) /
      (manager.METADATA_BLOCK_SIZE - 8) := by
  symm
  rcases Nat.eq_zero_or_pos w.allocated with hz | hp
  · rw [hz, (hinv.1 hz).2.2]
    exact Nat.div_eq_of_lt (by omega)
  · obtain ⟨hc, ho8, hoc, hN⟩ := hinv.2 hp
    have h8 := hpost hp
    obtain ⟨n, hn⟩ : ∃ n, w.allocated = n + 1 := ⟨w.allocated - 1, by omega⟩
    rw [hn] at hN ⊢
    simp only [Nat.add_sub_cancel] at hN
    apply Nat.div_eq_of_lt_le
    · rw [Nat.succ_mul]; omega
    · rw [Nat.succ_mul, Nat.succ_mul]; omega

theorem BlocksFilled_new (manager : MetadataManager) (memory : BlockMemory) (block : Nat) :
    BlocksFilled manager (MetadataWriter.new memory block) 0 :=
  ⟨fun _ => ⟨rfl, rfl, rfl⟩, fun h => absurd h (lt_irrefl 0)⟩

/-- C22: with a block size above the 8-byte header, start from a freshly constructed writer
and make `WriteData` calls whose sizes total `N` bytes. When the calls return, the number of
blocks taken from the manager is exactly `ceil(N / (METADATA_BLOCK_SIZE - 8))`, which is 0
for `N = 0`, and the current block holds at least one byte; when `AllocateHandle` throws on
the way, it was called only because the blocks claimed so far cannot hold the `N` bytes; and
the calls do return when the manager hands out a block each time the claimed blocks cannot
hold the `N` bytes. -/
theorem WriteData_block_count (manager : MetadataManager)
    (hsize : 8 < manager.METADATA_BLOCK_SIZE) (memory : BlockMemory) (block : Nat)
    (writes : List (List Nat)) :
    (∀ w, MetadataWriter.WriteAll manager (MetadataWriter.new memory block) writes =
        Outcome.ok w () →
      w.allocated = (writes.flatten.length + (manager.METADATA_BLOCK_SIZE - 8) - 1) /
        (manager.METADATA_BLOCK_SIZE - 8) ∧
      (writes.flatten.length = 0 → w.allocated = 0) ∧
      (0 < w.allocated → 8 < w.offset)) ∧
    (∀ w, MetadataWriter.WriteAll manager (MetadataWriter.new memory block) writes =
        Outcome.alloc_failed w →
      manager.AllocateHandle w.allocated = none ∧
      w.allocated * (manager.METADATA_BLOCK_SIZE - 8) < writes.flatten.length) ∧
    ((∀ n, n * (manager.METADATA_BLOCK_SIZE - 8) < writes.flatten.length →
        (manager.AllocateHandle n).isSome) →
      ∃ w, MetadataWriter.WriteAll manager (MetadataWriter.new memory block) writes =
        Outcome.ok w ()) := by
  have hrun := BlocksFilled_WriteAll manager hsize writes (MetadataWriter.new memory block) 0
    (BlocksFilled_new manager memory block) (fun h => absurd h (lt_irrefl 0))
  rw [Nat.zero_add] at hrun
  rcases hrun with ⟨w1, h1, hinv1, hpost1⟩ | ⟨w1, h1, hal, hlt⟩
  · refine ⟨?_, ?_, fun _ => ⟨w1, h1⟩⟩
    · intro w hw
      rw [h1] at hw
      injection hw with hw _
      rw [← hw]
      refine ⟨BlocksFilled_count manager hsize w1 _ hinv1 hpost1, ?_, hpost1⟩
      intro hN
      rcases Nat.eq_zero_or_pos w1.allocated with hz | hp
      · exact hz
      · have := (hinv1.2 hp).2.2.2
        have := hpost1 hp
        omega
    · intro w hw
      rw [h1] at hw
      exact absurd hw (by simp)
  · refine ⟨?_, ?_, ?_⟩
    · intro w hw
      rw [h1] at hw
      exact absurd hw (by simp)
    · intro w hw
      rw [h1] at hw
      injection hw with hw
      rw [← hw]
      exact ⟨hal, hlt⟩
    · intro halloc
      have := halloc w1.allocated hlt
      rw [hal] at this
      exact absurd this (by simp)

/-- Witness of C22: blocks of 10 bytes (2 payload bytes each) and writes of 3 and 2 bytes:
three blocks. -/
theorem WriteData_block_count_witness :
    ∃ w, MetadataWriter.WriteAll ⟨10, fun n => some (n + 100), id⟩
        (MetadataWriter.new (fun _ _ => 0) 0) [[1, 2, 3], [4, 5]] = Outcome.ok w () ∧
      w.allocated = 3 :=
  let h := WriteData_block_count ⟨10, fun n => some (n + 100), id⟩ (by decide)
    (fun _ _ => 0) 0 [[1, 2, 3], [4, 5]]
  let ⟨w, hw⟩ := h.2.2 (fun _ _ => rfl)
  ⟨w, hw, (h.1 w hw).1⟩

end duckdb
